import Mathlib

/-!
Verification of the rlm content-aware chunking engine.

This file is a shallow embedding, in Lean 4, of the chunking engine of
`skills/rlm/scripts/rlm_repl.py`: the format detector (`_detect_format`),
the text splitter (`_chunk_text`), the markdown splitter
(`_chunk_markdown` with `_find_header_boundaries`), the code splitter
(`_chunk_code` with `_line_to_char_position`), the JSON splitters
(`_chunk_json_array`, `_chunk_json_object`, `_chunk_json`) and the
method-selection part of the orchestrator (`_smart_chunk_impl`).

Conventions of the embedding:
* Python strings become `List Char`; character positions become `Nat`.
* Python's `while` loops become fuel-based recursions; the fuel supplied
  at the call sites is shown (in the theorems below) to be sufficient, so
  the embedded functions compute the same chunk lists as the loops.
* Python integer arithmetic on sizes is non-negative in every reachable
  state, so `Nat` arithmetic coincides with it; the two comparisons the
  source makes against the floats `target_size * 1.5` and
  `target_size * 1.2` are embedded as the exact rational comparisons
  `2 * combined > 3 * target` and `5 * current ≥ 6 * target`.
* `subprocess` interaction of the code splitter is abstracted into a
  `CodeEnv` value carrying the observable outcome of the provider call;
  the symbol list in an `exited` outcome stands for the output of
  `_extract_symbol_boundaries` on the provider's stdout.
* `json.loads` / `json.dumps` are embedded for JSON values whose numbers
  are integers (`jparse`, `dumpsP`, `dumpsC` below); floats are outside
  the model.
-/

namespace RlmChunk

/-- The set of characters matched by Python's regex `\s` (and stripped by
`str.strip()`): ASCII whitespace, the C1 separators, and the Unicode
space characters. -/
def isPySpace (c : Char) : Bool :=
  c = ' ' || c = '\t' || c = '\n' || c = '\r' || c = '\x0b' || c = '\x0c' ||
  (0x1c ≤ c.toNat && c.toNat ≤ 0x1f) || c.toNat = 0x85 || c.toNat = 0xa0 ||
  c.toNat = 0x1680 || (0x2000 ≤ c.toNat && c.toNat ≤ 0x200a) ||
  c.toNat = 0x2028 || c.toNat = 0x2029 || c.toNat = 0x202f ||
  c.toNat = 0x205f || c.toNat = 0x3000

/-- A boundary record attached to a chunk: a markdown heading
(`{'type': 'heading', 'level', 'text', 'line'}`) or a code symbol
(`{'type': kind, 'name', 'signature', 'line'}`). -/
inductive Boundary where
  | heading (level : Nat) (text : List Char) (line : Nat)
  | symbol (kind name signature : String) (line : Nat)
deriving DecidableEq, Repr

/-- A chunk descriptor for the text / markdown / code splitters:
the dict `{'start', 'end', 'split_reason', 'boundaries'}`.
(`stop` embeds the Python key `'end'`, a Lean keyword.) -/
structure Chunk where
  start : Nat
  stop : Nat
  splitReason : String
  boundaries : List Boundary
deriving DecidableEq, Repr

/-- `Tiles cs a b` holds when the chunk ranges of `cs`, in list order,
exactly tile the interval `[a, b)`: the first chunk starts at `a`, each
chunk's `stop` is the next chunk's `start`, and the last chunk's `stop`
is `b` (each chunk also being non-degenerate, `start ≤ stop`). -/
def Tiles : List Chunk → Nat → Nat → Prop
  | [], a, b => a = b
  | c :: rest, a, b => c.start = a ∧ a ≤ c.stop ∧ Tiles rest c.stop b

instance instDecidableTiles : ∀ (l : List Chunk) (a b : Nat), Decidable (Tiles l a b)
  | [], a, b => inferInstanceAs (Decidable (a = b))
  | c :: rest, a, b =>
    have : Decidable (Tiles rest c.stop b) := instDecidableTiles rest c.stop b
    inferInstanceAs (Decidable (_ ∧ _ ∧ _))

/-! ## Text splitter: `_chunk_text` -/

/-- Length of the run of `'\n'` characters at the head of a list. -/
def newlineRun : List Char → Nat
  | [] => 0
  | c :: rest => if c = '\n' then newlineRun rest + 1 else 0

/-- `re.search(r'\n\n+', region)`, returning `match.end()`: the end of
the leftmost maximal run of at least two newlines. -/
def findParaEnd : List Char → Option Nat
  | [] => none
  | c :: rest =>
    if c = '\n' ∧ rest.head? = some '\n' then some (2 + newlineRun rest.tail)
    else (findParaEnd rest).map (· + 1)

/-- `re.search(r'\n', region)`, returning `match.end()`. -/
def findLineEnd : List Char → Option Nat
  | [] => none
  | c :: rest => if c = '\n' then some 1 else (findLineEnd rest).map (· + 1)

/-- `re.search(r'\s', region)`, returning `match.end()`. -/
def findSpaceEnd : List Char → Option Nat
  | [] => none
  | c :: rest => if isPySpace c then some 1 else (findSpaceEnd rest).map (· + 1)

/-- One boundary decision of the `_chunk_text` loop body: given the
current position, returns `(split_pos, split_reason)` per the
paragraph → line → word → hard-split fallback chain. -/
def textSplitPos (content : List Char) (targetSize maxSize pos : Nat) : Nat × String :=
  let remaining := content.length - pos
  let searchStart := pos + min targetSize remaining
  let searchEnd := pos + min maxSize remaining
  let region := (content.drop searchStart).take (searchEnd - searchStart)
  match findParaEnd region with
  | some e => (searchStart + e, "paragraph")
  | none =>
    match findLineEnd region with
    | some e => (searchStart + e, "line")
    | none =>
      match findSpaceEnd region with
      | some e => (searchStart + e, "word")
      | none => (pos + maxSize, "hard_split")

/-- The `while pos < len(content)` loop of `_chunk_text`, with fuel;
`none` means the fuel ran out (the Python loop would still be running). -/
def chunkTextLoop (content : List Char) (targetSize maxSize : Nat) :
    Nat → Nat → List Chunk → Option (List Chunk)
  | 0, _, _ => none
  | fuel + 1, pos, acc =>
    if pos < content.length then
      let remaining := content.length - pos
      if remaining ≤ maxSize then
        some (acc ++ [⟨pos, content.length,
          if acc.isEmpty then "single_chunk" else "end", []⟩])
      else
        let sp := textSplitPos content targetSize maxSize pos
        chunkTextLoop content targetSize maxSize fuel sp.1
          (acc ++ [⟨pos, sp.1, if acc.isEmpty then "start" else sp.2, []⟩])
    else some acc

/-- `_chunk_text(content, target_size, min_size, max_size)` as a partial
result: `none` iff the Python loop fails to terminate within
`len(content) + 1` iterations (it is proved below that for a positive
`max_size` this never happens). `minSize` is accepted, and ignored,
exactly as in the source. -/
def chunkTextOpt (content : List Char) (targetSize minSize maxSize : Nat) :
    Option (List Chunk) :=
  let _ := minSize
  if content.length ≤ maxSize then
    some [⟨0, content.length, "single_chunk", []⟩]
  else
    chunkTextLoop content targetSize maxSize (content.length + 1) 0 []

/-- `_chunk_text`: the terminating result (empty list in the unreachable
fuel-exhaustion case). -/
def chunkText (content : List Char) (targetSize minSize maxSize : Nat) :
    List Chunk :=
  (chunkTextOpt content targetSize minSize maxSize).getD []

/-! ### Bounds for the boundary finders -/

theorem newlineRun_le (s : List Char) : newlineRun s ≤ s.length := by
  induction s with
  | nil => simp [newlineRun]
  | cons c rest ih =>
    simp only [newlineRun, List.length_cons]
    split <;> omega

theorem findParaEnd_bounds (s : List Char) (e : Nat) (h : findParaEnd s = some e) :
    1 ≤ e ∧ e ≤ s.length := by
  induction s generalizing e with
  | nil => simp [findParaEnd] at h
  | cons c rest ih =>
    simp only [findParaEnd] at h
    split at h
    · rename_i hcond
      simp only [Option.some.injEq] at h
      subst h
      have h1 := newlineRun_le rest.tail
      have h2 : rest.tail.length + 1 = rest.length := by
        cases rest with
        | nil => simp at hcond
        | cons d r2 => simp
      simp only [List.length_cons]
      omega
    · simp only [Option.map_eq_some'] at h
      obtain ⟨e', he', rfl⟩ := h
      have := ih e' he'
      simp only [List.length_cons]
      omega

theorem findLineEnd_bounds (s : List Char) (e : Nat) (h : findLineEnd s = some e) :
    1 ≤ e ∧ e ≤ s.length := by
  induction s generalizing e with
  | nil => simp [findLineEnd] at h
  | cons c rest ih =>
    simp only [findLineEnd] at h
    split at h
    · simp only [Option.some.injEq] at h
      subst h
      simp only [List.length_cons]
      omega
    · simp only [Option.map_eq_some'] at h
      obtain ⟨e', he', rfl⟩ := h
      have := ih e' he'
      simp only [List.length_cons]
      omega

theorem findSpaceEnd_bounds (s : List Char) (e : Nat) (h : findSpaceEnd s = some e) :
    1 ≤ e ∧ e ≤ s.length := by
  induction s generalizing e with
  | nil => simp [findSpaceEnd] at h
  | cons c rest ih =>
    simp only [findSpaceEnd] at h
    split at h
    · simp only [Option.some.injEq] at h
      subst h
      simp only [List.length_cons]
      omega
    · simp only [Option.map_eq_some'] at h
      obtain ⟨e', he', rfl⟩ := h
      have := ih e' he'
      simp only [List.length_cons]
      omega

/-- The split position chosen by one loop iteration strictly advances and
stays within `pos + min maxSize remaining` (for the found-boundary cases)
or equals `pos + maxSize` (hard split). -/
theorem textSplitPos_bounds (content : List Char) (t mx pos : Nat)
    (hmx : 1 ≤ mx) (hrem : mx < content.length - pos) :
    pos < (textSplitPos content t mx pos).1 ∧
      (textSplitPos content t mx pos).1 ≤ pos + mx := by
  have hreglen : ((content.drop (pos + min t (content.length - pos))).take
      ((pos + min mx (content.length - pos)) - (pos + min t (content.length - pos)))).length
      ≤ (pos + min mx (content.length - pos)) - (pos + min t (content.length - pos)) :=
    List.length_take_le _ _
  simp only [textSplitPos]
  cases hpe : findParaEnd ((content.drop (pos + min t (content.length - pos))).take
      ((pos + min mx (content.length - pos)) - (pos + min t (content.length - pos)))) with
  | some e =>
    have := findParaEnd_bounds _ _ hpe
    dsimp only
    omega
  | none =>
    cases hle : findLineEnd ((content.drop (pos + min t (content.length - pos))).take
        ((pos + min mx (content.length - pos)) - (pos + min t (content.length - pos)))) with
    | some e =>
      have := findLineEnd_bounds _ _ hle
      dsimp only
      omega
    | none =>
      cases hse : findSpaceEnd ((content.drop (pos + min t (content.length - pos))).take
          ((pos + min mx (content.length - pos)) - (pos + min t (content.length - pos)))) with
      | some e =>
        have := findSpaceEnd_bounds _ _ hse
        dsimp only
        omega
      | none =>
        dsimp only
        omega



theorem textSplitPos_ge (content : List Char) (t mx pos : Nat)
    (ht : t ≤ mx) (hrem : mx < content.length - pos) :
    pos + t ≤ (textSplitPos content t mx pos).1 := by
  simp only [textSplitPos]
  cases hpe : findParaEnd ((content.drop (pos + min t (content.length - pos))).take
      ((pos + min mx (content.length - pos)) - (pos + min t (content.length - pos)))) with
  | some e => dsimp only; omega
  | none =>
    cases hle : findLineEnd ((content.drop (pos + min t (content.length - pos))).take
        ((pos + min mx (content.length - pos)) - (pos + min t (content.length - pos)))) with
    | some e => dsimp only; omega
    | none =>
      cases hse : findSpaceEnd ((content.drop (pos + min t (content.length - pos))).take
          ((pos + min mx (content.length - pos)) - (pos + min t (content.length - pos)))) with
      | some e => dsimp only; omega
      | none => dsimp only; omega

/-- The split reasons the loop body can record for a non-first chunk. -/
def isRealReason (r : String) : Bool :=
  r == "paragraph" || r == "line" || r == "word" || r == "hard_split" || r == "end"

theorem textSplitPos_reason (content : List Char) (t mx pos : Nat) :
    isRealReason (textSplitPos content t mx pos).2 = true := by
  simp only [textSplitPos]
  cases findParaEnd ((content.drop (pos + min t (content.length - pos))).take
      ((pos + min mx (content.length - pos)) - (pos + min t (content.length - pos)))) with
  | some e => rfl
  | none =>
    cases findLineEnd ((content.drop (pos + min t (content.length - pos))).take
        ((pos + min mx (content.length - pos)) - (pos + min t (content.length - pos)))) with
    | some e => rfl
    | none =>
      cases findSpaceEnd ((content.drop (pos + min t (content.length - pos))).take
          ((pos + min mx (content.length - pos)) - (pos + min t (content.length - pos)))) with
      | some e => rfl
      | none => rfl

/-- With positive `max_size` the `_chunk_text` loop terminates: the fuel
`len(content) + 1` is never exhausted because the position strictly
advances on every iteration. -/
theorem chunkTextLoop_isSome (content : List Char) (t mx : Nat) (hmx : 1 ≤ mx) :
    ∀ fuel pos acc, content.length - pos < fuel →
      (chunkTextLoop content t mx fuel pos acc).isSome := by
  intro fuel
  induction fuel with
  | zero => intro pos acc h; omega
  | succ f ih =>
    intro pos acc h
    simp only [chunkTextLoop]
    split
    · rename_i hpos
      split
      · simp
      · rename_i hrem
        apply ih
        have hb := textSplitPos_bounds content t mx pos hmx (by omega)
        omega
    · simp

/-- Main invariant of the `_chunk_text` loop: the chunks appended past
`acc` tile `[pos, len)`, each is at most `max_size` long with empty
boundaries, every non-final one is at least `target_size` long (when
`target_size ≤ max_size`), and when `acc` is non-empty every recorded
split reason is a real one. -/
theorem chunkTextLoop_spec (content : List Char) (t mx : Nat) (hmx : 1 ≤ mx) :
    ∀ fuel pos acc out, pos < content.length →
      chunkTextLoop content t mx fuel pos acc = some out →
      ∃ tail, out = acc ++ tail ∧ tail ≠ [] ∧
        Tiles tail pos content.length ∧
        (∀ c ∈ tail, c.stop - c.start ≤ mx ∧ c.boundaries = [] ∧ pos ≤ c.start) ∧
        (t ≤ mx → ∀ c ∈ tail.dropLast, t ≤ c.stop - c.start) ∧
        (acc ≠ [] → ∀ c ∈ tail, isRealReason c.splitReason = true) := by
  intro fuel
  induction fuel with
  | zero => intro pos acc out hpos h; simp [chunkTextLoop] at h
  | succ f ih =>
    intro pos acc out hpos h
    simp only [chunkTextLoop, if_pos hpos] at h
    by_cases hrem : content.length - pos ≤ mx
    · rw [if_pos hrem] at h
      refine ⟨[⟨pos, content.length,
        if acc.isEmpty then "single_chunk" else "end", []⟩],
        (Option.some.inj h).symm, by simp, ?_, ?_, ?_, ?_⟩
      · refine ⟨rfl, ?_, rfl⟩
        show pos ≤ content.length
        omega
      · intro c hc
        simp only [List.mem_singleton] at hc
        subst hc
        refine ⟨?_, rfl, ?_⟩
        · show content.length - pos ≤ mx
          omega
        · show pos ≤ pos
          omega
      · intro _ c hc
        simp at hc
      · intro hacc c hc
        simp only [List.mem_singleton] at hc
        subst hc
        show isRealReason (if acc.isEmpty then "single_chunk" else "end") = true
        rw [if_neg (by simpa [List.isEmpty_iff] using hacc)]
        rfl
    · rw [if_neg hrem] at h
      have hb := textSplitPos_bounds content t mx pos hmx (by omega)
      have hsp1 : (textSplitPos content t mx pos).1 < content.length := by omega
      obtain ⟨tail', heq, hne, htiles, hprops, hge, hreal⟩ :=
        ih (textSplitPos content t mx pos).1
          (acc ++ [⟨pos, (textSplitPos content t mx pos).1,
            if acc.isEmpty then "start" else (textSplitPos content t mx pos).2, []⟩])
          out hsp1 h
      refine ⟨⟨pos, (textSplitPos content t mx pos).1,
          if acc.isEmpty then "start" else (textSplitPos content t mx pos).2, []⟩ :: tail',
        by simpa using heq, by simp, ?_, ?_, ?_, ?_⟩
      · refine ⟨rfl, ?_, htiles⟩
        show pos ≤ (textSplitPos content t mx pos).1
        omega
      · intro c hc
        rcases List.mem_cons.mp hc with hc | hc
        · subst hc
          refine ⟨?_, rfl, ?_⟩
          · show (textSplitPos content t mx pos).1 - pos ≤ mx
            omega
          · show pos ≤ pos
            omega
        · obtain ⟨h1, h2, h3⟩ := hprops c hc
          exact ⟨h1, h2, by omega⟩
      · intro htmx c hc
        rw [List.dropLast_cons_of_ne_nil hne] at hc
        rcases List.mem_cons.mp hc with hc | hc
        · subst hc
          have := textSplitPos_ge content t mx pos htmx (by omega)
          show t ≤ (textSplitPos content t mx pos).1 - pos
          omega
        · exact hge htmx c hc
      · intro hacc c hc
        rcases List.mem_cons.mp hc with hc | hc
        · subst hc
          show isRealReason
            (if acc.isEmpty then "start" else (textSplitPos content t mx pos).2) = true
          rw [if_neg (by simpa [List.isEmpty_iff] using hacc)]
          exact textSplitPos_reason content t mx pos
        · refine hreal (by simp) c hc



/-- For positive `max_size`, `_chunk_text` terminates within its fuel. -/
theorem chunkTextOpt_isSome (content : List Char) (t m mx : Nat) (hmx : 1 ≤ mx) :
    (chunkTextOpt content t m mx).isSome := by
  unfold chunkTextOpt
  split
  · simp
  · exact chunkTextLoop_isSome content t mx hmx (content.length + 1) 0 [] (by omega)

theorem chunkText_single (content : List Char) (t m mx : Nat)
    (h : content.length ≤ mx) :
    chunkText content t m mx = [⟨0, content.length, "single_chunk", []⟩] := by
  simp [chunkText, chunkTextOpt, h]

/-- The chunk list produced by `_chunk_text` when the content is longer
than `max_size`: it equals `[⟨0, sp, "start"⟩] ++ tail` where `tail`
satisfies the loop invariant. -/
theorem chunkText_long (content : List Char) (t m mx : Nat) (hmx : 1 ≤ mx)
    (hlen : mx < content.length) :
    ∃ tail, chunkText content t m mx =
      ⟨0, (textSplitPos content t mx 0).1, "start", []⟩ :: tail ∧ tail ≠ [] ∧
      Tiles tail (textSplitPos content t mx 0).1 content.length ∧
      (∀ c ∈ tail, c.stop - c.start ≤ mx ∧ c.boundaries = [] ∧
        (textSplitPos content t mx 0).1 ≤ c.start) ∧
      (t ≤ mx → ∀ c ∈ tail.dropLast, t ≤ c.stop - c.start) ∧
      (∀ c ∈ tail, isRealReason c.splitReason = true) := by
  have h0 : (0:Nat) < content.length := by omega
  have hb := textSplitPos_bounds content t mx 0 hmx (by omega)
  have hsome := chunkTextLoop_isSome content t mx hmx (content.length + 1) 0 [] (by omega)
  obtain ⟨out, hout⟩ := Option.isSome_iff_exists.mp hsome
  have hnle2 : ¬ (content.length - 0 ≤ mx) := by omega
  have hstep : chunkTextLoop content t mx (content.length + 1) 0 [] =
      chunkTextLoop content t mx content.length (textSplitPos content t mx 0).1
        [⟨0, (textSplitPos content t mx 0).1, "start", []⟩] := by
    simp only [chunkTextLoop, if_pos h0, if_neg hnle2, List.nil_append,
      List.isEmpty_nil, if_true]
  rw [hstep] at hout
  obtain ⟨tail, heq, hne, htiles, hprops, hge, hreal⟩ :=
    chunkTextLoop_spec content t mx hmx content.length (textSplitPos content t mx 0).1
      [⟨0, (textSplitPos content t mx 0).1, "start", []⟩] out (by omega) hout
  refine ⟨tail, ?_, hne, htiles, hprops, hge, hreal (by simp)⟩
  have : chunkText content t m mx = out := by
    simp only [chunkText, chunkTextOpt, if_neg (by omega : ¬ content.length ≤ mx)]
    rw [hstep, hout]
    rfl
  rw [this, heq]
  rfl

/-- Claim-independent summary: `_chunk_text` output tiles `[0, len)`. -/
theorem chunkText_tiles (content : List Char) (t m mx : Nat) (hmx : 1 ≤ mx) :
    Tiles (chunkText content t m mx) 0 content.length := by
  by_cases h : content.length ≤ mx
  · rw [chunkText_single content t m mx h]
    exact ⟨rfl, by omega, rfl⟩
  · obtain ⟨tail, heq, _, htiles, hprops, _, _⟩ :=
      chunkText_long content t m mx hmx (by omega)
    rw [heq]
    refine ⟨rfl, ?_, htiles⟩
    have := (textSplitPos_bounds content t mx 0 hmx (by omega)).1
    omega

/-- Every `_chunk_text` chunk has size at most `max_size`. -/
theorem chunkText_size_le (content : List Char) (t m mx : Nat) (hmx : 1 ≤ mx) :
    ∀ c ∈ chunkText content t m mx, c.stop - c.start ≤ mx := by
  by_cases h : content.length ≤ mx
  · rw [chunkText_single content t m mx h]
    intro c hc
    simp only [List.mem_singleton] at hc
    subst hc
    show content.length - 0 ≤ mx
    omega
  · obtain ⟨tail, heq, _, _, hprops, _, _⟩ :=
      chunkText_long content t m mx hmx (by omega)
    rw [heq]
    intro c hc
    rcases List.mem_cons.mp hc with hc | hc
    · subst hc
      have := (textSplitPos_bounds content t mx 0 hmx (by omega)).2
      show (textSplitPos content t mx 0).1 - 0 ≤ mx
      omega
    · exact (hprops c hc).1

/-- `_chunk_text` never reads `min_size`: outputs for two different
`min_size` values are identical. -/
theorem chunkText_min_irrelevant (content : List Char) (t m₁ m₂ mx : Nat) :
    chunkText content t m₁ mx = chunkText content t m₂ mx := rfl

/-- Every non-final `_chunk_text` chunk reaches `target_size` when the
content is longer than `max_size` and `target_size ≤ max_size`. -/
theorem chunkText_ge_target (content : List Char) (t m mx : Nat) (hmx : 1 ≤ mx)
    (ht : t ≤ mx) (hlen : mx < content.length) :
    ∀ c ∈ (chunkText content t m mx).dropLast, t ≤ c.stop - c.start := by
  obtain ⟨tail, heq, hne, _, _, hge, _⟩ := chunkText_long content t m mx hmx hlen
  rw [heq, List.dropLast_cons_of_ne_nil hne]
  intro c hc
  rcases List.mem_cons.mp hc with hc | hc
  · subst hc
    have := textSplitPos_ge content t mx 0 ht (by omega)
    show t ≤ (textSplitPos content t mx 0).1 - 0
    omega
  · exact hge ht c hc



/-! ## Format detector: `_detect_format` -/

/-- The four content formats. -/
inductive Format where
  | markdown | code | json | text
deriving DecidableEq, Repr

/-- `Path(context_path).suffix`: the extension of the final path
component, empty unless the last `'.'` of the name is at an index `i`
with `0 < i < len(name) - 1`. -/
def pathSuffix (p : List Char) : List Char :=
  let name := (p.reverse.takeWhile (fun c => c ≠ '/')).reverse
  let j := (name.reverse.takeWhile (fun c => c ≠ '.')).length
  if j < name.length ∧ 1 ≤ j ∧ 1 ≤ name.length - 1 - j then
    name.drop (name.length - 1 - j)
  else []

/-- `_MARKDOWN_EXTENSIONS`. -/
def markdownExtensions : List (List Char) :=
  [".md".toList, ".markdown".toList, ".mdx".toList, ".mdown".toList, ".mkd".toList]

/-- `_CODE_EXTENSIONS`. -/
def codeExtensions : List (List Char) :=
  [".py".toList, ".pyi".toList, ".pyw".toList,
   ".js".toList, ".jsx".toList, ".mjs".toList, ".cjs".toList,
   ".ts".toList, ".tsx".toList, ".mts".toList, ".cts".toList,
   ".rs".toList, ".go".toList, ".java".toList,
   ".c".toList, ".h".toList, ".cc".toList, ".cpp".toList, ".cxx".toList,
   ".hpp".toList, ".hxx".toList, ".cs".toList, ".rb".toList, ".php".toList,
   ".swift".toList, ".kt".toList, ".kts".toList, ".scala".toList, ".lua".toList,
   ".sh".toList, ".bash".toList, ".zsh".toList, ".pl".toList, ".pm".toList,
   ".r".toList, ".R".toList, ".sql".toList]

/-- The plain-text extension set `{'.txt', '.text', '.log'}`. -/
def textExtensions : List (List Char) :=
  [".txt".toList, ".text".toList, ".log".toList]

/-- Length of the run of `'#'` characters at the head of a list. -/
def hashRun : List Char → Nat
  | [] => 0
  | c :: rest => if c = '#' then hashRun rest + 1 else 0

/-- Length of the run of Python-whitespace characters at the head. -/
def wsRun : List Char → Nat
  | [] => 0
  | c :: rest => if isPySpace c then wsRun rest + 1 else 0

/-- Attempt of the pattern `#{1,6}\s+\S` at the head of `s` (which the
scan below only tries at line starts, where `^` matches): `some e` gives
the match length.  The match needs 1–6 `'#'`, at least one whitespace
character, and the maximal whitespace run must be followed by a
non-whitespace character (which may sit on a later line, since `\s`
matches newlines). -/
def headMatchLen (s : List Char) : Option Nat :=
  let k := hashRun s
  if 1 ≤ k ∧ k ≤ 6 then
    let w := wsRun (s.drop k)
    if 1 ≤ w ∧ k + w < s.length then some (k + w + 1) else none
  else none

theorem headMatchLen_pos (s : List Char) (e : Nat) (h : headMatchLen s = some e) :
    1 ≤ e := by
  simp only [headMatchLen] at h
  split at h
  · split at h
    · simp only [Option.some.injEq] at h
      omega
    · simp at h
  · simp at h

/-- `len(re.findall(r'^#{1,6}\s+\S', content, re.MULTILINE))` given via
the scan the `re` module performs: attempt the pattern at every
line-start position, and resume a successful match's scan at its end.
The flag records whether the current position is a line start. -/
def countHeadings : List Char → Bool → Nat
  | [], _ => 0
  | c :: rest, atStart =>
    if atStart then
      match h : headMatchLen (c :: rest) with
      | some e => 1 + countHeadings ((c :: rest).drop e) false
      | none => countHeadings rest (c = '\n')
    else countHeadings rest (c = '\n')
termination_by s _ => s.length
decreasing_by
  · simp only [List.length_drop]
    have := headMatchLen_pos _ _ h
    simp only [List.length_cons]
    omega
  · simp
  · simp

/-- `_detect_format(content, context_path)`. -/
def detectFormat (content : List Char) (contextPath : List Char) : Format :=
  let ext := (pathSuffix contextPath).map Char.toLower
  if ext ∈ markdownExtensions then .markdown
  else if ext ∈ codeExtensions then .code
  else if ext = ".json".toList then .json
  else if ext ∈ textExtensions then .text
  else if 5 < countHeadings content true then .markdown
  else .text



/-! ## Markdown splitter: `_find_header_boundaries` and `_chunk_markdown` -/

/-- One entry of `_find_header_boundaries`:
`(start_pos, end_pos, level, header_text)` (text before `.strip()`). -/
structure Header where
  start : Nat
  stop : Nat
  level : Nat
  text : List Char
deriving DecidableEq, Repr

/-- Number of leading characters before the first `'\n'`. -/
def countNonNl : List Char → Nat
  | [] => 0
  | c :: rest => if c = '\n' then 0 else countNonNl rest + 1

theorem countNonNl_le (s : List Char) : countNonNl s ≤ s.length := by
  induction s with
  | nil => simp [countNonNl]
  | cons c rest ih =>
    simp only [countNonNl, List.length_cons]
    split <;> omega

theorem wsRun_le (s : List Char) : wsRun s ≤ s.length := by
  induction s with
  | nil => simp [wsRun]
  | cons c rest ih =>
    simp only [wsRun, List.length_cons]
    split <;> omega

/-- Index (and character) of the last non-`'\n'` entry of a list. -/
def lastNonNlIdx : List Char → Option (Nat × Char)
  | [] => none
  | c :: rest =>
    match lastNonNlIdx rest with
    | some (j, d) => some (j + 1, d)
    | none => if c = '\n' then none else some (0, c)

theorem lastNonNlIdx_lt (s : List Char) (j : Nat) (c : Char)
    (h : lastNonNlIdx s = some (j, c)) : j < s.length := by
  induction s generalizing j c with
  | nil => simp [lastNonNlIdx] at h
  | cons d rest ih =>
    simp only [lastNonNlIdx] at h
    split at h
    · rename_i j' c' heq
      simp only [Option.some.injEq, Prod.mk.injEq] at h
      obtain ⟨rfl, rfl⟩ := h
      have := ih j' c' heq
      simp only [List.length_cons]
      omega
    · split at h
      · simp at h
      · simp only [Option.some.injEq, Prod.mk.injEq] at h
        obtain ⟨rfl, rfl⟩ := h
        simp

/-- Python `str.strip()`. -/
def pyStrip (s : List Char) : List Char :=
  ((s.dropWhile isPySpace).reverse.dropWhile isPySpace).reverse

/-- The regex `^(#{1,6})\s+(.+?)$` (MULTILINE) attempted at the head of
the suffix `s`, which the scan below only does at line starts.  Returns
`(match_length, level, group(2))`.  Backtracking of `\s+` against the
lazy `(.+?)$`: with the maximal whitespace run `w` after the `'#'` run,
if a (non-whitespace) character follows the run then `group(2)` is the
text from it to its end of line; otherwise `\s+` gives characters back
until a non-newline whitespace character can start `group(2)`, which
then consists of that single character. -/
def matchHeaderSuffix (s : List Char) : Option (Nat × Nat × List Char) :=
  let k := hashRun s
  if 1 ≤ k ∧ k ≤ 6 then
    let w := wsRun (s.drop k)
    if 1 ≤ w then
      if k + w < s.length then
        let tailAfter := s.drop (k + w)
        some (k + w + countNonNl tailAfter, k, tailAfter.take (countNonNl tailAfter))
      else
        match lastNonNlIdx ((s.drop (k + 1)).take (w - 1)) with
        | some (j, c) => some (k + 1 + j + 1, k, [c])
        | none => none
    else none
  else none

theorem matchHeaderSuffix_bounds (s : List Char) (e lvl : Nat) (txt : List Char)
    (h : matchHeaderSuffix s = some (e, lvl, txt)) : 1 ≤ e ∧ e ≤ s.length := by
  simp only [matchHeaderSuffix] at h
  split at h
  · rename_i hk
    split at h
    · rename_i hw
      split at h
      · rename_i hlt
        simp only [Option.some.injEq, Prod.mk.injEq] at h
        obtain ⟨rfl, -, -⟩ := h
        have h1 := countNonNl_le (s.drop (hashRun s + wsRun (s.drop (hashRun s))))
        simp only [List.length_drop] at h1
        omega
      · rename_i hge
        split at h
        · rename_i j c heq
          simp only [Option.some.injEq, Prod.mk.injEq] at h
          obtain ⟨rfl, -, -⟩ := h
          have h1 := lastNonNlIdx_lt _ _ _ heq
          have h2 : ((s.drop (hashRun s + 1)).take (wsRun (s.drop (hashRun s)) - 1)).length
              ≤ wsRun (s.drop (hashRun s)) - 1 := List.length_take_le _ _
          have h3 := wsRun_le (s.drop (hashRun s))
          simp only [List.length_drop] at h3
          omega
        · simp at h
    · simp at h
  · simp at h

/-- `re.finditer(r'^(#{1,6})\s+(.+?)$', content, re.MULTILINE)`: attempt
the pattern at every line start, resuming after each match's end (which
never falls on a line start, since the matched text ends with a
non-newline character). `p` is the absolute position of the suffix, the
flag whether it is a line start. -/
def scanHeaders : List Char → Nat → Bool → List Header
  | [], _, _ => []
  | c :: rest, p, atStart =>
    if atStart then
      match h : matchHeaderSuffix (c :: rest) with
      | some (e, lvl, txt) =>
        ⟨p, p + e, lvl, pyStrip txt⟩ :: scanHeaders ((c :: rest).drop e) (p + e) false
      | none => scanHeaders rest (p + 1) (c = '\n')
    else scanHeaders rest (p + 1) (c = '\n')
termination_by s _ _ => s.length
decreasing_by
  · simp only [List.length_drop]
    have := (matchHeaderSuffix_bounds _ _ _ _ h).1
    simp only [List.length_cons]
    omega
  · simp
  · simp

/-- `_find_header_boundaries(content)`. -/
def findHeaderBoundaries (content : List Char) : List Header :=
  scanHeaders content 0 true

/-- Chain invariant for a header list: every header lies in `[lo, hi)`
with a positive extent, and consecutive headers do not overlap. -/
def HdrChain : List Header → Nat → Nat → Prop
  | [], _, _ => True
  | h :: rest, lo, hi =>
    lo ≤ h.start ∧ h.start < h.stop ∧ h.stop ≤ hi ∧ HdrChain rest h.stop hi

theorem hdrChain_mono (hs : List Header) :
    ∀ lo hi lo' hi', HdrChain hs lo hi → lo' ≤ lo → hi ≤ hi' → HdrChain hs lo' hi' := by
  induction hs with
  | nil => intro _ _ _ _ _ _ _; trivial
  | cons h rest ih =>
    intro lo hi lo' hi' hc h1 h2
    obtain ⟨a, b, c, d⟩ := hc
    exact ⟨by omega, b, by omega, ih h.stop hi h.stop hi' d le_rfl h2⟩

theorem scanHeaders_nil (p : Nat) (b : Bool) : scanHeaders [] p b = [] := by
  rw [scanHeaders.eq_def]

theorem scanHeaders_cons_match (c : Char) (rest : List Char) (p e lvl : Nat)
    (txt : List Char) (h : matchHeaderSuffix (c :: rest) = some (e, lvl, txt)) :
    scanHeaders (c :: rest) p true =
      ⟨p, p + e, lvl, pyStrip txt⟩ :: scanHeaders ((c :: rest).drop e) (p + e) false := by
  rw [scanHeaders.eq_def]
  simp only [if_true]
  split
  · rename_i e' lvl' txt' heq
    rw [h] at heq
    simp only [Option.some.injEq, Prod.mk.injEq] at heq
    obtain ⟨rfl, rfl, rfl⟩ := heq
    rfl
  · rename_i heq
    rw [h] at heq
    simp at heq

theorem scanHeaders_cons_nomatch (c : Char) (rest : List Char) (p : Nat)
    (h : matchHeaderSuffix (c :: rest) = none) :
    scanHeaders (c :: rest) p true = scanHeaders rest (p + 1) (c = '\n') := by
  rw [scanHeaders.eq_def]
  simp only [if_true]
  split
  · rename_i e' lvl' txt' heq
    rw [h] at heq
    simp at heq
  · rfl

theorem scanHeaders_cons_false (c : Char) (rest : List Char) (p : Nat) :
    scanHeaders (c :: rest) p false = scanHeaders rest (p + 1) (c = '\n') := by
  rw [scanHeaders.eq_def]
  simp

theorem scanHeaders_chain_aux :
    ∀ (n : Nat) (s : List Char), s.length ≤ n →
      ∀ p b, HdrChain (scanHeaders s p b) p (p + s.length) := by
  intro n
  induction n with
  | zero =>
    intro s hs p b
    have hnil : s = [] := List.length_eq_zero.mp (by omega)
    subst hnil
    rw [scanHeaders_nil]
    trivial
  | succ m ih =>
    intro s hs p b
    match s with
    | [] =>
      rw [scanHeaders_nil]
      trivial
    | c :: rest =>
      cases b with
      | false =>
        rw [scanHeaders_cons_false]
        have := ih rest (by simp at hs; omega) (p + 1) (c = '\n')
        refine hdrChain_mono _ _ _ _ _ this (by omega) (by simp; omega)
      | true =>
        cases hm : matchHeaderSuffix (c :: rest) with
        | some r =>
          obtain ⟨e, lvl, txt⟩ := r
          rw [scanHeaders_cons_match c rest p e lvl txt hm]
          have hb := matchHeaderSuffix_bounds _ _ _ _ hm
          have hlen : ((c :: rest).drop e).length = (c :: rest).length - e := by
            simp
          have := ih ((c :: rest).drop e)
            (by simp only [hlen]; simp at hs ⊢; omega) (p + e) false
          refine ⟨le_refl _, ?_, ?_, ?_⟩
          · show p < p + e
            omega
          · show p + e ≤ p + (c :: rest).length
            omega
          · refine hdrChain_mono _ _ _ _ _ this le_rfl ?_
            rw [hlen]
            omega
        | none =>
          rw [scanHeaders_cons_nomatch c rest p hm]
          have := ih rest (by simp at hs; omega) (p + 1) (c = '\n')
          refine hdrChain_mono _ _ _ _ _ this (by omega) (by simp; omega)

theorem findHeaderBoundaries_chain (content : List Char) :
    HdrChain (findHeaderBoundaries content) 0 content.length := by
  have := scanHeaders_chain_aux content.length content le_rfl 0 true
  simpa [findHeaderBoundaries] using this


/-- Number of `'\n'` characters in a list (`str.count('\n')`). -/
def countNl : List Char → Nat
  | [] => 0
  | c :: rest => (if c = '\n' then 1 else 0) + countNl rest

/-- A markdown section: a header together with the span to the next
header's start (or the end of content), as built by `_chunk_markdown`
step 1; level 0 marks the synthesized preamble. -/
structure Sec where
  start : Nat
  stop : Nat
  level : Nat
  headerText : List Char
  headerLine : Nat
deriving DecidableEq, Repr

/-- Sections for the headers: each runs to the next header's start, the
last to the end of content. -/
def sectionsFrom (content : List Char) : List Header → List Sec
  | [] => []
  | [h] => [⟨h.start, content.length, h.level, h.text,
      countNl (content.take h.start) + 1⟩]
  | h :: h2 :: rest =>
    ⟨h.start, h2.start, h.level, h.text, countNl (content.take h.start) + 1⟩ ::
      sectionsFrom content (h2 :: rest)

/-- Step 1 of `_chunk_markdown`: sections, with the preamble prepended
when content precedes the first header. -/
def buildSections (content : List Char) (hs : List Header) : List Sec :=
  match hs with
  | [] => []
  | h :: _ =>
    if 0 < h.start then
      ⟨0, h.start, 0, "(preamble)".toList, 1⟩ :: sectionsFrom content hs
    else sectionsFrom content hs

/-- Chain property for sections: contiguous, covering `[a, b)`. -/
def SecChain : List Sec → Nat → Nat → Prop
  | [], a, b => a = b
  | s :: rest, a, b => s.start = a ∧ a ≤ s.stop ∧ SecChain rest s.stop b

theorem sectionsFrom_chain (content : List Char) :
    ∀ hs : List Header, HdrChain hs 0 content.length →
      (hhs : hs ≠ []) → SecChain (sectionsFrom content hs)
        (hs.head hhs).start content.length := by
  intro hs
  induction hs with
  | nil => intro _ h; exact absurd rfl h
  | cons h rest ih =>
    intro hchain _
    obtain ⟨h1, h2, h3, h4⟩ := hchain
    cases rest with
    | nil =>
      refine ⟨rfl, ?_, rfl⟩
      show h.start ≤ content.length
      omega
    | cons h2' rest' =>
      obtain ⟨g1, g2, g3, g4⟩ := h4
      refine ⟨rfl, ?_, ?_⟩
      · show h.start ≤ h2'.start
        omega
      have := ih (hdrChain_mono _ _ _ _ _ (⟨g1, g2, g3, g4⟩ :
        HdrChain (h2' :: rest') h.stop content.length) (by omega) le_rfl) (by simp)
      simpa using this

theorem buildSections_chain (content : List Char) (hs : List Header)
    (hchain : HdrChain hs 0 content.length) (hhs : hs ≠ []) :
    SecChain (buildSections content hs) 0 content.length := by
  match hs with
  | h :: rest =>
    have hsec := sectionsFrom_chain content (h :: rest) hchain (by simp)
    simp only [List.head_cons] at hsec
    simp only [buildSections]
    split
    · exact ⟨rfl, by obtain ⟨_, _, _, _⟩ := hchain; omega, hsec⟩
    · rename_i hns
      have : h.start = 0 := by omega
      rw [this] at hsec
      exact hsec

/-- Appends the section's heading to the chunk's boundary list when the
section is a real heading (level > 0). -/
def addB (sec : Sec) (c : Chunk) : Chunk :=
  if 0 < sec.level then
    { c with boundaries := c.boundaries ++ [.heading sec.level sec.headerText sec.headerLine] }
  else c

theorem addB_start (sec : Sec) (c : Chunk) : (addB sec c).start = c.start := by
  simp only [addB]; split <;> rfl

theorem addB_stop (sec : Sec) (c : Chunk) : (addB sec c).stop = c.stop := by
  simp only [addB]; split <;> rfl

/-- Step 2 of `_chunk_markdown`: the greedy section-combining loop. -/
def mdAssemble (t mx : Nat) : List Sec → Chunk → List Chunk → List Chunk
  | [], cur, acc => acc ++ [cur]
  | sec :: rest, cur, acc =>
    let secSize := sec.stop - sec.start
    let curSize := cur.stop - cur.start
    let combined := curSize + secSize
    if mx < combined then
      mdAssemble t mx rest (addB sec ⟨sec.start, sec.stop, "max_size", []⟩) (acc ++ [cur])
    else if t ≤ curSize ∧ sec.level ≤ 3 then
      mdAssemble t mx rest
        (addB sec ⟨sec.start, sec.stop, "header_level_" ++ toString sec.level, []⟩)
        (acc ++ [cur])
    else if t ≤ curSize ∧ 3 * t < 2 * combined then
      mdAssemble t mx rest (addB sec ⟨sec.start, sec.stop, "target_size", []⟩)
        (acc ++ [cur])
    else
      mdAssemble t mx rest (addB sec ⟨cur.start, sec.stop, cur.splitReason, cur.boundaries⟩) acc

/-- Step 3 of `_chunk_markdown` (and of `_chunk_code`): merge an
under-`min_size` trailing chunk into its predecessor when the union
stays within `max_size`. -/
def mergeTrailing (m mx : Nat) (chunks : List Chunk) : List Chunk :=
  match chunks.reverse with
  | last :: prev :: restRev =>
    if last.stop - last.start < m ∧
        (prev.stop - prev.start) + (last.stop - last.start) ≤ mx then
      (⟨prev.start, last.stop, prev.splitReason,
        prev.boundaries ++ last.boundaries⟩ :: restRev).reverse
    else chunks
  | _ => chunks

/-- Step 4 of `_chunk_markdown`: re-split any chunk larger than
`max_size` with `_chunk_text` on its sub-range. -/
def overflowFix (content : List Char) (t m mx : Nat) (chunks : List Chunk) :
    List Chunk :=
  chunks.flatMap fun c =>
    if mx < c.stop - c.start then
      (chunkText ((content.drop c.start).take (c.stop - c.start)) t m mx).mapIdx
        fun i sub =>
          ⟨c.start + sub.start, c.start + sub.stop,
            if i = 0 then c.splitReason else "oversized_section",
            if i = 0 then c.boundaries else []⟩
    else [c]

/-- `_chunk_markdown(content, target_size, min_size, max_size)`. -/
def chunkMarkdown (content : List Char) (t m mx : Nat) : List Chunk :=
  let headers := findHeaderBoundaries content
  if headers.isEmpty then chunkText content t m mx
  else
    match buildSections content headers with
    | [] => []
    | s0 :: rest =>
      let cur0 : Chunk := addB s0 ⟨s0.start, s0.stop, "start", []⟩
      overflowFix content t m mx
        (mergeTrailing m mx (mdAssemble t mx rest cur0 []))



theorem tiles_append (xs : List Chunk) :
    ∀ (ys : List Chunk) (a b : Nat),
      Tiles (xs ++ ys) a b ↔ ∃ mid, Tiles xs a mid ∧ Tiles ys mid b := by
  induction xs with
  | nil =>
    intro ys a b
    constructor
    · intro h
      exact ⟨a, rfl, h⟩
    · rintro ⟨mid, rfl, h⟩
      exact h
  | cons c rest ih =>
    intro ys a b
    constructor
    · rintro ⟨h1, h2, h3⟩
      obtain ⟨mid, hm1, hm2⟩ := (ih ys c.stop b).mp h3
      exact ⟨mid, ⟨h1, h2, hm1⟩, hm2⟩
    · rintro ⟨mid, ⟨h1, h2, h3⟩, h4⟩
      exact ⟨h1, h2, (ih ys c.stop b).mpr ⟨mid, h3, h4⟩⟩

theorem tiles_bounds (l : List Chunk) :
    ∀ a b, Tiles l a b →
      a ≤ b ∧ ∀ c ∈ l, a ≤ c.start ∧ c.start ≤ c.stop ∧ c.stop ≤ b := by
  induction l with
  | nil =>
    intro a b h
    exact ⟨le_of_eq h, by simp⟩
  | cons c rest ih =>
    intro a b h
    obtain ⟨h1, h2, h3⟩ := h
    obtain ⟨hab, hmem⟩ := ih c.stop b h3
    refine ⟨by omega, ?_⟩
    intro d hd
    rcases List.mem_cons.mp hd with hd | hd
    · subst hd
      omega
    · have := hmem d hd
      omega

theorem tiles_flatMap (f : Chunk → List Chunk) (chunks : List Chunk) :
    ∀ a b, Tiles chunks a b → (∀ c ∈ chunks, Tiles (f c) c.start c.stop) →
      Tiles (chunks.flatMap f) a b := by
  induction chunks with
  | nil => intro a b h _; simpa using h
  | cons c rest ih =>
    intro a b h hf
    obtain ⟨h1, h2, h3⟩ := h
    rw [List.flatMap_cons]
    rw [tiles_append]
    refine ⟨c.stop, ?_, ih c.stop b h3 (fun d hd => hf d (by simp [hd]))⟩
    have := hf c (by simp)
    rw [h1] at this
    exact this

theorem tiles_mapIdx_shift (off : Nat) (g : Nat → Chunk → String × List Boundary) :
    ∀ (subs : List Chunk) (gg : Nat → Chunk → String × List Boundary) (a b : Nat),
      Tiles subs a b →
      Tiles (subs.mapIdx fun i sub =>
          ⟨off + sub.start, off + sub.stop, (gg i sub).1, (gg i sub).2⟩)
        (off + a) (off + b) := by
  intro subs
  induction subs with
  | nil =>
    intro gg a b h
    have hab : a = b := h
    simp only [List.mapIdx_nil]
    show off + a = off + b
    omega
  | cons c rest ih =>
    intro gg a b h
    obtain ⟨h1, h2, h3⟩ := h
    rw [List.mapIdx_cons]
    exact ⟨by show off + c.start = off + a; omega,
      by show off + a ≤ off + c.stop; omega,
      ih (fun i sub => gg (i + 1) sub) c.stop b h3⟩

theorem mergeTrailing_tiles (m mx : Nat) (chunks : List Chunk) (a b : Nat)
    (h : Tiles chunks a b) : Tiles (mergeTrailing m mx chunks) a b := by
  unfold mergeTrailing
  split
  · rename_i last prev restRev hrev
    split
    · have hchunks : chunks = restRev.reverse ++ [prev, last] := by
        have := congrArg List.reverse hrev
        simpa using this
      rw [hchunks] at h
      obtain ⟨mid, hm1, hm2⟩ := (tiles_append _ _ _ _).mp h
      have : (⟨prev.start, last.stop, prev.splitReason,
          prev.boundaries ++ last.boundaries⟩ :: restRev).reverse =
          restRev.reverse ++ [⟨prev.start, last.stop, prev.splitReason,
            prev.boundaries ++ last.boundaries⟩] := by
        simp
      rw [this]
      rw [tiles_append]
      refine ⟨mid, hm1, ?_⟩
      obtain ⟨g1, g2, g3, g4, g5⟩ := hm2
      have g5' : last.stop = b := g5
      refine ⟨by show prev.start = mid; omega, ?_, ?_⟩
      · show mid ≤ last.stop
        omega
      · show last.stop = b
        omega
    · exact h
  · exact h

/-- Every chunk `overflowFix` outputs has size at most `max_size`. -/
theorem overflowFix_size_le (content : List Char) (t m mx : Nat) (hmx : 1 ≤ mx)
    (chunks : List Chunk) :
    ∀ c ∈ overflowFix content t m mx chunks, c.stop - c.start ≤ mx := by
  intro c hc
  simp only [overflowFix, List.mem_flatMap] at hc
  obtain ⟨d, hd, hcd⟩ := hc
  split at hcd
  · rename_i hbig
    rw [List.mem_mapIdx] at hcd
    obtain ⟨i, hi, hsub⟩ := hcd
    set sub := (chunkText ((content.drop d.start).take (d.stop - d.start)) t m mx)[i]
    have hsubmem : sub ∈ chunkText ((content.drop d.start).take (d.stop - d.start)) t m mx :=
      List.getElem_mem hi
    have := chunkText_size_le _ t m mx hmx sub hsubmem
    rw [← hsub]
    show d.start + sub.stop - (d.start + sub.start) ≤ mx
    omega
  · rename_i hsmall
    simp only [List.mem_singleton] at hcd
    subst hcd
    omega

/-- `overflowFix` preserves tiling (chunks must lie within the content,
which the markdown pipeline guarantees). -/
theorem overflowFix_tiles (content : List Char) (t m mx : Nat) (hmx : 1 ≤ mx)
    (chunks : List Chunk) (a : Nat)
    (h : Tiles chunks a content.length) :
    Tiles (overflowFix content t m mx chunks) a content.length := by
  apply tiles_flatMap _ _ _ _ h
  intro c hc
  have hb := (tiles_bounds chunks a content.length h).2 c hc
  split
  · rename_i hbig
    have hlen : ((content.drop c.start).take (c.stop - c.start)).length =
        c.stop - c.start := by
      simp only [List.length_take, List.length_drop]
      omega
    have htl := chunkText_tiles ((content.drop c.start).take (c.stop - c.start))
      t m mx hmx
    rw [hlen] at htl
    have := tiles_mapIdx_shift c.start
      (fun i sub => (if i = 0 then c.splitReason else "oversized_section",
        if i = 0 then c.boundaries else []))
      (chunkText ((content.drop c.start).take (c.stop - c.start)) t m mx)
      (fun i sub => (if i = 0 then c.splitReason else "oversized_section",
        if i = 0 then c.boundaries else []))
      0 (c.stop - c.start) htl
    have heq : c.start + (c.stop - c.start) = c.stop := by omega
    rw [heq, Nat.add_zero] at this
    exact this
  · exact ⟨rfl, by omega, rfl⟩

/-- Step-2 greedy loop invariant: given contiguous sections continuing
from the current chunk's stop, the produced chunks tile up from the
current chunk's start. -/
theorem mdAssemble_tiles (t mx len : Nat) :
    ∀ (secs : List Sec) (cur : Chunk) (acc : List Chunk),
      SecChain secs cur.stop len → cur.start ≤ cur.stop →
      ∃ tail, mdAssemble t mx secs cur acc = acc ++ tail ∧
        Tiles tail cur.start len := by
  intro secs
  induction secs with
  | nil =>
    intro cur acc hchain hcur
    exact ⟨[cur], rfl, ⟨rfl, hcur, hchain⟩⟩
  | cons sec rest ih =>
    intro cur acc hchain hcur
    obtain ⟨h1, h2, h3⟩ := hchain
    simp only [mdAssemble]
    split
    · obtain ⟨tail, ht1, ht2⟩ := ih (addB sec ⟨sec.start, sec.stop, "max_size", []⟩)
        (acc ++ [cur]) (by rw [addB_stop]; exact h3)
        (by rw [addB_start, addB_stop]; show sec.start ≤ sec.stop; omega)
      refine ⟨cur :: tail, by rw [ht1]; simp, ?_⟩
      rw [addB_start] at ht2
      have ht2' : Tiles tail sec.start len := ht2
      rw [h1] at ht2'
      exact ⟨rfl, hcur, ht2'⟩
    · split
      · obtain ⟨tail, ht1, ht2⟩ := ih
          (addB sec ⟨sec.start, sec.stop, "header_level_" ++ toString sec.level, []⟩)
          (acc ++ [cur]) (by rw [addB_stop]; exact h3)
          (by rw [addB_start, addB_stop]; show sec.start ≤ sec.stop; omega)
        refine ⟨cur :: tail, by rw [ht1]; simp, ?_⟩
        rw [addB_start] at ht2
        have ht2' : Tiles tail sec.start len := ht2
        rw [h1] at ht2'
        exact ⟨rfl, hcur, ht2'⟩
      · split
        · obtain ⟨tail, ht1, ht2⟩ := ih
            (addB sec ⟨sec.start, sec.stop, "target_size", []⟩)
            (acc ++ [cur]) (by rw [addB_stop]; exact h3)
            (by rw [addB_start, addB_stop]; show sec.start ≤ sec.stop; omega)
          refine ⟨cur :: tail, by rw [ht1]; simp, ?_⟩
          rw [addB_start] at ht2
          have ht2' : Tiles tail sec.start len := ht2
          rw [h1] at ht2'
          exact ⟨rfl, hcur, ht2'⟩
        · obtain ⟨tail, ht1, ht2⟩ := ih
            (addB sec ⟨cur.start, sec.stop, cur.splitReason, cur.boundaries⟩)
            acc (by rw [addB_stop]; exact h3)
            (by rw [addB_start, addB_stop]; show cur.start ≤ sec.stop; omega)
          rw [addB_start] at ht2
          exact ⟨tail, ht1, ht2⟩

/-- `_chunk_markdown` output tiles `[0, len(content))`. -/
theorem chunkMarkdown_tiles (content : List Char) (t m mx : Nat) (hmx : 1 ≤ mx) :
    Tiles (chunkMarkdown content t m mx) 0 content.length := by
  simp only [chunkMarkdown]
  split
  · exact chunkText_tiles content t m mx hmx
  · rename_i hne
    have hchain := findHeaderBoundaries_chain content
    have hsec : SecChain (buildSections content (findHeaderBoundaries content))
        0 content.length :=
      buildSections_chain content _ hchain (by simpa [List.isEmpty_iff] using hne)
    split
    · rename_i hnil
      rw [hnil] at hsec
      exact hsec
    · rename_i s0 rest hcons
      rw [hcons] at hsec
      obtain ⟨h1, h2, h3⟩ := hsec
      obtain ⟨tail, ht1, ht2⟩ := mdAssemble_tiles t mx content.length rest
        (addB s0 ⟨s0.start, s0.stop, "start", []⟩) []
        (by rw [addB_stop]; exact h3)
        (by rw [addB_start, addB_stop]; show s0.start ≤ s0.stop; omega)
      rw [ht1]
      simp only [List.nil_append]
      rw [addB_start] at ht2
      have ht2' : Tiles tail s0.start content.length := ht2
      rw [h1] at ht2'
      exact overflowFix_tiles content t m mx hmx _ 0
        (mergeTrailing_tiles m mx tail 0 _ ht2')

/-- Every `_chunk_markdown` chunk has size at most `max_size`. -/
theorem chunkMarkdown_size_le (content : List Char) (t m mx : Nat) (hmx : 1 ≤ mx) :
    ∀ c ∈ chunkMarkdown content t m mx, c.stop - c.start ≤ mx := by
  simp only [chunkMarkdown]
  split
  · exact chunkText_size_le content t m mx hmx
  · split
    · simp
    · exact overflowFix_size_le content t m mx hmx _

/-- `_chunk_markdown` with no headers in the content is exactly
`_chunk_text`. -/
theorem chunkMarkdown_no_headers (content : List Char) (t m mx : Nat)
    (h : findHeaderBoundaries content = []) :
    chunkMarkdown content t m mx = chunkText content t m mx := by
  simp only [chunkMarkdown]
  rw [if_pos (by simp [h])]



/-! ## Code splitter: `_chunk_code` with `_line_to_char_position` -/

/-- A symbol record as produced by `_extract_symbol_boundaries`. -/
structure Symbol where
  name : String
  kind : String
  signature : String
  startLine : Nat
  stopLine : Nat
  exported : Bool
deriving DecidableEq, Repr

/-- Python `content.split('\n')`. -/
def splitNl : List Char → List (List Char)
  | [] => [[]]
  | c :: rest =>
    if c = '\n' then [] :: splitNl rest
    else
      match splitNl rest with
      | l :: ls => (c :: l) :: ls
      | [] => [[c]]

/-- `_line_to_char_position(content, line_num)`: character position of
the start of the 1-indexed line. -/
def lineToChar (content : List Char) (lineNum : Nat) : Nat :=
  if lineNum ≤ 1 then 0
  else
    let lines := splitNl content
    (((lines.take (min (lineNum - 1) lines.length)).map
      (fun l => l.length + 1)).sum)

/-- A symbol with its line range converted to character offsets
(`start_char`, `end_char`). -/
structure PSym where
  sym : Symbol
  startChar : Nat
  stopChar : Nat
deriving DecidableEq, Repr

def symBoundary (s : Symbol) : Boundary :=
  .symbol s.kind s.name s.signature s.startLine

/-- The per-symbol loop of `_chunk_code` (lines 446–504): greedy
grouping with the `current_chunk['end'] == 0` special case, `max_size`
forced splits, preferred splits at function/class/method/impl
boundaries past `target_size`, and a forced split past `1.2 ×
target_size` (embedded exactly as `6 * target ≤ 5 * current`).
Returns the current chunk and the finalized chunks. -/
def codeLoop (t mx : Nat) : List PSym → Chunk → List Chunk → Chunk × List Chunk
  | [], cur, acc => (cur, acc)
  | p :: rest, cur, acc =>
    if cur.stop = 0 then
      codeLoop t mx rest
        { cur with
          stop := p.stopChar
          boundaries := cur.boundaries ++ [symBoundary p.sym] } acc
    else
      let symSize := p.stopChar - p.startChar
      let curSize := cur.stop - cur.start
      let combined := curSize + symSize
      if mx < combined then
        codeLoop t mx rest ⟨p.startChar, p.stopChar, "max_size", [symBoundary p.sym]⟩
          (acc ++ [cur])
      else if t ≤ curSize ∧
          (p.sym.kind = "function" ∨ p.sym.kind = "class" ∨
            p.sym.kind = "method" ∨ p.sym.kind = "impl") then
        codeLoop t mx rest
          ⟨p.startChar, p.stopChar, "symbol_" ++ p.sym.kind, [symBoundary p.sym]⟩
          (acc ++ [cur])
      else if 6 * t ≤ 5 * curSize then
        codeLoop t mx rest ⟨p.startChar, p.stopChar, "target_size", [symBoundary p.sym]⟩
          (acc ++ [cur])
      else
        codeLoop t mx rest
          { start := cur.start
            stop := p.stopChar
            splitReason := cur.splitReason
            boundaries := cur.boundaries ++ [symBoundary p.sym] } acc

/-- The symbol-based chunk assembly of `_chunk_code` (lines 417–529):
line-to-offset conversion, preamble handling, the greedy loop, tail
handling, final-chunk append, and trailing merge. -/
def chunkCodeAssemble (content : List Char) (t m mx : Nat)
    (symbols : List Symbol) : List Chunk :=
  let symPos : List PSym := symbols.map fun s =>
    ⟨s, lineToChar content s.startLine,
      min (lineToChar content (s.stopLine + 1)) content.length⟩
  let cur0 : Chunk := ⟨0, 0, "start", []⟩
  let cur1 := match symPos with
    | p :: _ => if 0 < p.startChar then { cur0 with stop := p.startChar } else cur0
    | [] => cur0
  let r := codeLoop t mx symPos cur1 []
  let cur3 := match symPos.getLast? with
    | some plast =>
      if plast.stopChar < content.length then { r.1 with stop := content.length } else r.1
    | none => { r.1 with stop := content.length }
  let chunks2 := if cur3.start < cur3.stop then r.2 ++ [cur3] else r.2
  mergeTrailing m mx chunks2

/-- Observable outcome of the `subprocess.run` call on the codemap
provider; the symbol list of `exited` stands for
`_extract_symbol_boundaries(result.stdout)` (already sorted by that
function). -/
inductive CodemapRun where
  | timeout
  | oserror
  | exited (returncode : Int) (symbols : List Symbol)
deriving DecidableEq, Repr

/-- The environment `_chunk_code` observes: `_detect_codemap()`'s cached
command, whether the resolved context path exists, and the provider
call's outcome. -/
structure CodeEnv where
  codemapCmd : Option String
  pathExists : Bool
  run : CodemapRun
deriving DecidableEq, Repr

/-- Stable sort by `start_line` (`symbols.sort(key=...)`; Python's sort
is stable, and a stable insertion sort returns the same list). -/
def insertSym (s : Symbol) : List Symbol → List Symbol
  | [] => [s]
  | x :: xs => if x.startLine < s.startLine then x :: insertSym s xs else s :: x :: xs

def sortSyms : List Symbol → List Symbol
  | [] => []
  | s :: rest => insertSym s (sortSyms rest)

/-- `_chunk_code(content, context_path, target_size, min_size,
max_size)`, with the process environment abstracted as `env`. -/
def chunkCode (env : CodeEnv) (content : List Char) (t m mx : Nat) :
    List Chunk × Bool :=
  match env.codemapCmd with
  | none => (chunkText content t m mx, false)
  | some _ =>
    if env.pathExists = false then (chunkText content t m mx, false)
    else
      match env.run with
      | .timeout => (chunkText content t m mx, false)
      | .oserror => (chunkText content t m mx, false)
      | .exited rc syms =>
        if rc ≠ 0 then (chunkText content t m mx, false)
        else
          let symbols := sortSyms syms
          if symbols.isEmpty then (chunkText content t m mx, false)
          else
            let chunks := chunkCodeAssemble content t m mx symbols
            if chunks.isEmpty then (chunkText content t m mx, false)
            else (chunks, true)

/-- The failure conditions of the provider path: no codemap command, a
non-existing context path, a timeout or OS error from the provider
call, a non-zero exit code, or an empty extracted symbol list. -/
def CodeFallbackCond (env : CodeEnv) : Prop :=
  env.codemapCmd = none ∨ env.pathExists = false ∨ env.run = .timeout ∨
  env.run = .oserror ∨ (∃ rc syms, env.run = .exited rc syms ∧ rc ≠ 0) ∨
  (∃ rc, env.run = .exited rc [])

/-- On every failure condition `_chunk_code` returns exactly the
`_chunk_text` result with `codemap_used = False`. -/
theorem chunkCode_fallback (env : CodeEnv) (content : List Char) (t m mx : Nat)
    (h : CodeFallbackCond env) :
    chunkCode env content t m mx = (chunkText content t m mx, false) := by
  obtain ⟨cmd, pe, run⟩ := env
  rcases h with h | h | h | h | ⟨rc, syms, h, hrc⟩ | ⟨rc, h⟩ <;>
    simp only at h
  · subst h
    rfl
  · subst h
    cases cmd with
    | none => rfl
    | some c => simp [chunkCode]
  · subst h
    cases cmd with
    | none => rfl
    | some c =>
      simp only [chunkCode]
      split <;> rfl
  · subst h
    cases cmd with
    | none => rfl
    | some c =>
      simp only [chunkCode]
      split <;> rfl
  · subst h
    cases cmd with
    | none => rfl
    | some c =>
      simp only [chunkCode]
      split
      · rfl
      · simp [hrc]
  · subst h
    cases cmd with
    | none => rfl
    | some c =>
      simp only [chunkCode]
      split
      · rfl
      · rcases eq_or_ne rc 0 with rfl | hrc2
        · simp [sortSyms]
        · simp [hrc2]


/-! ## JSON model: values, `json.dumps`, `json.loads`

Numbers are modeled as integers; JSON documents with fractional or
exponent number syntax are outside the model (`jparse` rejects them, so
claims conditioned on a successful parse are unaffected for the modeled
subset). -/

/-- A parsed JSON value (`json.loads` result).  Objects keep key order
(Python dicts preserve insertion order). -/
inductive JVal where
  | null
  | bool (b : Bool)
  | num (n : Int)
  | str (s : List Char)
  | arr (xs : List JVal)
  | obj (fields : List (List Char × JVal))

/-- `'\x7b'` / `'\x7d'`: the object braces. -/
def lbrace : Char := '\x7b'

def rbrace : Char := '\x7d'

/-- Lowercase hexadecimal digit. -/
def hexDigit (n : Nat) : Char :=
  if n < 10 then Char.ofNat (48 + n) else Char.ofNat (87 + n)

/-- Four lowercase hex digits (`'%04x' % n` for `n < 0x10000`). -/
def hex4 (n : Nat) : List Char :=
  [hexDigit (n / 4096 % 16), hexDigit (n / 256 % 16),
   hexDigit (n / 16 % 16), hexDigit (n % 16)]

/-- `json.dumps` escaping of one character (`ensure_ascii=True`): quote,
backslash and the named control escapes, `\uXXXX` for other characters
outside `0x20..0x7e`, surrogate pairs beyond the BMP. -/
def escChar (c : Char) : List Char :=
  if c = '"' then ['\\', '"']
  else if c = '\\' then ['\\', '\\']
  else if c = '\n' then ['\\', 'n']
  else if c = '\t' then ['\\', 't']
  else if c = '\r' then ['\\', 'r']
  else if c.toNat = 8 then ['\\', 'b']
  else if c.toNat = 12 then ['\\', 'f']
  else if c.toNat < 0x20 ∨ 0x7e < c.toNat then
    if c.toNat < 0x10000 then '\\' :: 'u' :: hex4 c.toNat
    else
      let v := c.toNat - 0x10000
      ('\\' :: 'u' :: hex4 (0xd800 + v / 1024)) ++
        ('\\' :: 'u' :: hex4 (0xdc00 + v % 1024))
  else [c]

/-- A serialized JSON string: quotes around the escaped characters. -/
def escString (s : List Char) : List Char :=
  '"' :: s.flatMap escChar ++ ['"']

/-- Decimal digit character. -/
def digitChar (d : Nat) : Char := Char.ofNat (48 + d)

/-- Decimal representation of a natural number (Python `repr`). -/
def natChars (n : Nat) : List Char :=
  if n = 0 then ['0'] else ((Nat.digits 10 n).reverse.map digitChar)

/-- Decimal representation of an integer. -/
def intChars (n : Int) : List Char :=
  if n < 0 then '-' :: natChars n.natAbs else natChars n.toNat

mutual

/-- `json.dumps(v, separators=(',', ':'))`: the compact form the source
uses to estimate item sizes. -/
def dumpsC : JVal → List Char
  | .null => "null".toList
  | .bool true => "true".toList
  | .bool false => "false".toList
  | .num n => intChars n
  | .str s => escString s
  | .arr xs => '[' :: dumpsCList xs ++ [']']
  | .obj fs => lbrace :: dumpsCObj fs ++ [rbrace]

def dumpsCList : List JVal → List Char
  | [] => []
  | [x] => dumpsC x
  | x :: y :: rest => dumpsC x ++ ',' :: dumpsCList (y :: rest)

def dumpsCObj : List (List Char × JVal) → List Char
  | [] => []
  | [(k, v)] => escString k ++ ':' :: dumpsC v
  | (k, v) :: p :: rest => escString k ++ ':' :: dumpsC v ++ ',' :: dumpsCObj (p :: rest)

end

/-- Indentation for nesting level `lvl` under `indent=2`. -/
def ind (lvl : Nat) : List Char := List.replicate (2 * lvl) ' '

mutual

/-- `json.dumps(v, indent=2)` at nesting level `lvl`: the pretty form
every chunk payload is serialized with. -/
def dumpsP : JVal → Nat → List Char
  | .null, _ => "null".toList
  | .bool true, _ => "true".toList
  | .bool false, _ => "false".toList
  | .num n, _ => intChars n
  | .str s, _ => escString s
  | .arr [], _ => "[]".toList
  | .arr (x :: xs), lvl =>
    '[' :: '\n' :: ind (lvl + 1) ++ dumpsPList (x :: xs) (lvl + 1) ++
      '\n' :: ind lvl ++ [']']
  | .obj [], _ => [lbrace, rbrace]
  | .obj (p :: ps), lvl =>
    lbrace :: '\n' :: ind (lvl + 1) ++ dumpsPObj (p :: ps) (lvl + 1) ++
      '\n' :: ind lvl ++ [rbrace]

def dumpsPList : List JVal → Nat → List Char
  | [], _ => []
  | [x], lvl => dumpsP x lvl
  | x :: y :: rest, lvl =>
    dumpsP x lvl ++ ',' :: '\n' :: ind lvl ++ dumpsPList (y :: rest) lvl

def dumpsPObj : List (List Char × JVal) → Nat → List Char
  | [], _ => []
  | [(k, v)], lvl => escString k ++ ':' :: ' ' :: dumpsP v lvl
  | (k, v) :: p :: rest, lvl =>
    escString k ++ ':' :: ' ' :: dumpsP v lvl ++ ',' :: '\n' :: ind lvl ++
      dumpsPObj (p :: rest) lvl

end

/-! ### The parser (`json.loads`) -/

/-- JSON inter-token whitespace. -/
def jskipWs : List Char → List Char
  | [] => []
  | c :: rest =>
    if c = ' ' ∨ c = '\t' ∨ c = '\n' ∨ c = '\r' then jskipWs rest else c :: rest

def parseHexDigit (c : Char) : Option Nat :=
  if '0' ≤ c ∧ c ≤ '9' then some (c.toNat - 48)
  else if 'a' ≤ c ∧ c ≤ 'f' then some (c.toNat - 87)
  else if 'A' ≤ c ∧ c ≤ 'F' then some (c.toNat - 55)
  else none

/-- Four hex digits of a `\uXXXX` escape. -/
def parseUEscape (s : List Char) : Option (Nat × List Char) :=
  match s with
  | h1 :: h2 :: h3 :: h4 :: rest =>
    match parseHexDigit h1, parseHexDigit h2, parseHexDigit h3, parseHexDigit h4 with
    | some a, some b, some c, some d => some (((a * 16 + b) * 16 + c) * 16 + d, rest)
    | _, _, _, _ => none
  | _ => none

theorem parseUEscape_len (s : List Char) (n : Nat) (r : List Char)
    (h : parseUEscape s = some (n, r)) : r.length + 4 = s.length := by
  match s with
  | h1 :: h2 :: h3 :: h4 :: rest =>
    simp only [parseUEscape] at h
    split at h
    · simp only [Option.some.injEq, Prod.mk.injEq] at h
      obtain ⟨-, rfl⟩ := h
      simp
    · simp at h
  | [] => simp [parseUEscape] at h
  | [h1] => simp [parseUEscape] at h
  | [h1, h2] => simp [parseUEscape] at h
  | [h1, h2, h3] => simp [parseUEscape] at h

/-- A `\uXXXX` escape after the `u`, with surrogate-pair recombination
(lone surrogate escapes, which CPython would keep in the `str`, are
outside the model since Lean `Char` excludes surrogates). -/
def parseUChar (rest : List Char) : Option (Char × List Char) :=
  match parseUEscape rest with
  | none => none
  | some (n, rest3) =>
    if 0xd800 ≤ n ∧ n ≤ 0xdbff then
      match rest3 with
      | b1 :: u1 :: rest3' =>
        if b1 = '\\' ∧ u1 = 'u' then
          match parseUEscape rest3' with
          | some (low, rest4) =>
            if 0xdc00 ≤ low ∧ low ≤ 0xdfff then
              some (Char.ofNat (0x10000 + (n - 0xd800) * 1024 + (low - 0xdc00)), rest4)
            else none
          | none => none
        else none
      | _ => none
    else if 0xdc00 ≤ n ∧ n ≤ 0xdfff then none
    else some (Char.ofNat n, rest3)

theorem parseUChar_len (s : List Char) (ch : Char) (r : List Char)
    (h : parseUChar s = some (ch, r)) : r.length < s.length := by
  simp only [parseUChar] at h
  split at h
  · simp at h
  · rename_i n rest3 hU
    have h3 := parseUEscape_len _ _ _ hU
    split at h
    · split at h
      · split at h
        · split at h
          · rename_i low rest4 hU2
            have h4 := parseUEscape_len _ _ _ hU2
            split at h
            · simp only [Option.some.injEq, Prod.mk.injEq] at h
              obtain ⟨-, rfl⟩ := h
              simp only [List.length_cons] at h3
              omega
            · simp at h
          · simp at h
        · simp at h
      · simp at h
    · split at h
      · simp at h
      · simp only [Option.some.injEq, Prod.mk.injEq] at h
        obtain ⟨-, rfl⟩ := h
        omega

/-- One escape sequence after a backslash: the named escapes and
`\uXXXX`. -/
def parseEscape (s : List Char) : Option (Char × List Char) :=
  match s with
  | [] => none
  | e :: rest =>
    if e = '"' then some ('"', rest)
    else if e = '\\' then some ('\\', rest)
    else if e = '/' then some ('/', rest)
    else if e = 'b' then some ('\x08', rest)
    else if e = 'f' then some ('\x0c', rest)
    else if e = 'n' then some ('\n', rest)
    else if e = 'r' then some ('\r', rest)
    else if e = 't' then some ('\t', rest)
    else if e = 'u' then parseUChar rest
    else none

theorem parseEscape_len (s : List Char) (ch : Char) (r : List Char)
    (h : parseEscape s = some (ch, r)) : r.length < s.length := by
  match s with
  | [] => simp [parseEscape] at h
  | e :: rest =>
    simp only [parseEscape] at h
    repeat' split at h
    all_goals
      first
      | (rw [Option.some.injEq, Prod.mk.injEq] at h
         obtain ⟨-, rfl⟩ := h
         simp only [List.length_cons]
         omega)
      | (have hu := parseUChar_len _ _ _ h
         simp only [List.length_cons]
         omega)
      | simp at h

/-- Body of a JSON string after the opening quote: returns the decoded
characters and the input after the closing quote.  Control characters
are rejected (`strict=True`). -/
def parseStrBody : List Char → Option (List Char × List Char)
  | [] => none
  | c :: rest =>
    if c = '"' then some ([], rest)
    else if c = '\\' then
      match h : parseEscape rest with
      | some p => (parseStrBody p.2).map (fun q => (p.1 :: q.1, q.2))
      | none => none
    else if c.toNat < 0x20 then none
    else (parseStrBody rest).map (fun q => (c :: q.1, q.2))
termination_by s => s.length
decreasing_by
  · have := parseEscape_len rest p.1 p.2 (by rw [h])
    simp only [List.length_cons]
    omega
  · simp

/-- ASCII digit test (as the scanner's number regex sees it). -/
def isDigitC (c : Char) : Prop := 48 ≤ c.toNat ∧ c.toNat ≤ 57

instance (c : Char) : Decidable (isDigitC c) :=
  inferInstanceAs (Decidable (_ ∧ _))

/-- Digit run accumulator. -/
def parseDigitsAux : List Char → Nat → Nat × List Char
  | [], acc => (acc, [])
  | c :: rest, acc =>
    if isDigitC c then parseDigitsAux rest (acc * 10 + (c.toNat - 48))
    else (acc, c :: rest)

/-- A JSON natural literal: `0` or a nonzero digit followed by digits
(`0 | [1-9][0-9]*`; a leading `0` consumes nothing further, matching the
number regex of the CPython scanner). -/
def parseNatNum : List Char → Option (Nat × List Char)
  | [] => none
  | c :: rest =>
    if c = '0' then some (0, rest)
    else if isDigitC c then some (parseDigitsAux rest (c.toNat - 48))
    else none

/-- A JSON integer literal with optional sign. -/
def parseNum : List Char → Option (JVal × List Char)
  | [] => none
  | c :: rest =>
    if c = '-' then (parseNatNum rest).map (fun p => (.num (-(p.1 : Int)), p.2))
    else (parseNatNum (c :: rest)).map (fun p => (.num (p.1 : Int), p.2))

/-- Literal recognizer: drops `lit` from the head of `s`. -/
def dropLit : List Char → List Char → Option (List Char)
  | [], s => some s
  | _ :: _, [] => none
  | a :: ls, b :: ss => if a = b then dropLit ls ss else none

/-- Python `dict` insertion semantics for a pair `(k, v)` ahead of the
already-collapsed pairs `fs`: a duplicate key keeps its first position
but the later value. -/
def assocFind (k : List Char) : List (List Char × JVal) → Option JVal
  | [] => none
  | p :: rest => if p.1 = k then some p.2 else assocFind k rest

def combineKV (k : List Char) (v : JVal) (fs : List (List Char × JVal)) :
    List (List Char × JVal) :=
  match assocFind k fs with
  | some v' => (k, v') :: fs.filter (fun p => ¬(p.1 = k))
  | none => (k, v) :: fs

mutual

/-- One JSON value (with leading whitespace), fueled. -/
def parseVal : Nat → List Char → Option (JVal × List Char)
  | 0, _ => none
  | fuel + 1, s =>
    let s1 := jskipWs s
    match dropLit "true".toList s1 with
    | some rest => some (.bool true, rest)
    | none =>
      match dropLit "false".toList s1 with
      | some rest => some (.bool false, rest)
      | none =>
        match dropLit "null".toList s1 with
        | some rest => some (.null, rest)
        | none =>
          match s1 with
          | [] => none
          | c :: r =>
            if c = '"' then (parseStrBody r).map (fun p => (.str p.1, p.2))
            else if c = '[' then
              match jskipWs r with
              | [] => none
              | d :: r2 =>
                if d = ']' then some (.arr [], r2)
                else (parseItems fuel (d :: r2)).map (fun p => (.arr p.1, p.2))
            else if c = lbrace then
              match jskipWs r with
              | [] => none
              | d :: r2 =>
                if d = rbrace then some (.obj [], r2)
                else (parseMembers fuel (d :: r2)).map (fun p => (.obj p.1, p.2))
            else parseNum (c :: r)

/-- Non-empty array items after `[`. -/
def parseItems : Nat → List Char → Option (List JVal × List Char)
  | 0, _ => none
  | fuel + 1, s =>
    match parseVal fuel s with
    | none => none
    | some (v, rest) =>
      match jskipWs rest with
      | [] => none
      | d :: r =>
        if d = ',' then (parseItems fuel r).map (fun p => (v :: p.1, p.2))
        else if d = ']' then some ([v], r)
        else none

/-- Non-empty object members after the opening brace. -/
def parseMembers : Nat → List Char → Option (List (List Char × JVal) × List Char)
  | 0, _ => none
  | fuel + 1, s =>
    match jskipWs s with
    | [] => none
    | c :: r =>
      if c = '"' then
        match parseStrBody r with
        | none => none
        | some (k, rest) =>
          match jskipWs rest with
          | [] => none
          | d :: r2 =>
            if d = ':' then
              match parseVal fuel r2 with
              | none => none
              | some (v, rest2) =>
                match jskipWs rest2 with
                | [] => none
                | e :: r3 =>
                  if e = ',' then
                    (parseMembers fuel r3).map (fun p => (combineKV k v p.1, p.2))
                  else if e = rbrace then some ([(k, v)], r3)
                  else none
            else none
      else none

end

/-- `json.loads(s)` for the modeled subset: one value, then only
whitespace to the end of input. -/
def jparse (s : List Char) : Option JVal :=
  match parseVal (s.length + 1) s with
  | some (v, rest) => if (jskipWs rest).isEmpty then some v else none
  | none => none


/-! ### Whitespace lemmas -/

theorem jskipWs_cons_of_ws (c : Char) (s : List Char)
    (h : c = ' ' ∨ c = '\t' ∨ c = '\n' ∨ c = '\r') :
    jskipWs (c :: s) = jskipWs s := by
  simp only [jskipWs, if_pos h]

theorem jskipWs_cons_of_not_ws (c : Char) (s : List Char)
    (h : ¬(c = ' ' ∨ c = '\t' ∨ c = '\n' ∨ c = '\r')) :
    jskipWs (c :: s) = c :: s := by
  simp only [jskipWs, if_neg h]

theorem jskipWs_ind_append (k : Nat) (s : List Char) :
    jskipWs (ind k ++ s) = jskipWs s := by
  simp only [ind]
  induction (2 * k) with
  | zero => simp
  | succ n ih =>
    rw [List.replicate_succ, List.cons_append, jskipWs_cons_of_ws _ _ (by simp)]
    exact ih

theorem jskipWs_nl_ind_append (k : Nat) (s : List Char) :
    jskipWs ('\n' :: (ind k ++ s)) = jskipWs s := by
  rw [jskipWs_cons_of_ws _ _ (by simp), jskipWs_ind_append]

/-- `parseVal` ignores leading JSON whitespace. -/
theorem parseVal_ws (fuel : Nat) (pre s : List Char)
    (hpre : jskipWs (pre ++ s) = jskipWs s) :
    parseVal fuel (pre ++ s) = parseVal fuel s := by
  cases fuel with
  | zero => rfl
  | succ f =>
    simp only [parseVal, hpre]

/-! ### String literal roundtrip -/

theorem parseHexDigit_hexDigit (n : Nat) (h : n < 16) :
    parseHexDigit (hexDigit n) = some n := by
  interval_cases n <;> rfl

theorem char_toNat_lt (c : Char) : c.toNat < 0x110000 := by
  have := c.valid
  rcases this with h | ⟨h1, h2⟩
  · have : c.toNat = c.val.toNat := rfl
    omega
  · have : c.toNat = c.val.toNat := rfl
    omega

theorem char_not_surrogate (c : Char) :
    c.toNat < 0xd800 ∨ 0xdfff < c.toNat := by
  have := c.valid
  rcases this with h | ⟨h1, h2⟩
  · have : c.toNat = c.val.toNat := rfl
    omega
  · have : c.toNat = c.val.toNat := rfl
    omega

theorem char_ofNat_toNat (c : Char) : Char.ofNat c.toNat = c := by
  apply Char.ext
  simp only [Char.ofNat, Char.toNat]
  rw [dif_pos]
  · rfl
  · have := c.valid
    exact this

theorem hex_recompose (n : Nat) :
    ((n / 4096 % 16 * 16 + n / 256 % 16) * 16 + n / 16 % 16) * 16 + n % 16 = n % 65536 := by
  omega

theorem parseStrBody_quote (s : List Char) :
    parseStrBody ('"' :: s) = some ([], s) := by
  rw [parseStrBody.eq_def]
  dsimp only
  rw [if_pos rfl]

theorem parseStrBody_backslash (rest : List Char) (ch : Char) (r : List Char)
    (h : parseEscape rest = some (ch, r)) :
    parseStrBody ('\\' :: rest) = (parseStrBody r).map (fun q => (ch :: q.1, q.2)) := by
  rw [parseStrBody.eq_def]
  dsimp only
  rw [if_neg (by decide), if_pos rfl]
  split
  · rename_i p hp
    rw [h] at hp
    obtain rfl : p = (ch, r) := by
      simpa using hp.symm
    rfl
  · rename_i hp
    rw [h] at hp
    cases hp

theorem parseStrBody_plain (c : Char) (s : List Char) (h1 : ¬c = '"')
    (h2 : ¬c = '\\') (h3 : ¬c.toNat < 0x20) :
    parseStrBody (c :: s) = (parseStrBody s).map (fun q => (c :: q.1, q.2)) := by
  rw [parseStrBody.eq_def]
  dsimp only
  rw [if_neg h1, if_neg h2, if_neg h3]

theorem parseUEscape_hex4 (n : Nat) (h : n < 0x10000) (s : List Char) :
    parseUEscape (hex4 n ++ s) = some (n, s) := by
  have e1 : n / 4096 % 16 < 16 := Nat.mod_lt _ (by norm_num)
  have e2 : n / 256 % 16 < 16 := Nat.mod_lt _ (by norm_num)
  have e3 : n / 16 % 16 < 16 := Nat.mod_lt _ (by norm_num)
  have e4 : n % 16 < 16 := Nat.mod_lt _ (by norm_num)
  simp only [hex4, List.cons_append, List.nil_append, parseUEscape,
    parseHexDigit_hexDigit _ e1, parseHexDigit_hexDigit _ e2,
    parseHexDigit_hexDigit _ e3, parseHexDigit_hexDigit _ e4]
  rw [show ((n / 4096 % 16 * 16 + n / 256 % 16) * 16 + n / 16 % 16) * 16 + n % 16
      = n by omega]

theorem parseEscape_u (X : List Char) : parseEscape ('u' :: X) = parseUChar X := by
  simp [parseEscape]

theorem parseUChar_bmp (n : Nat) (h16 : n < 0x10000) (hns : n < 0xd800 ∨ 0xdfff < n)
    (s : List Char) : parseUChar (hex4 n ++ s) = some (Char.ofNat n, s) := by
  unfold parseUChar
  rw [parseUEscape_hex4 _ h16]
  dsimp only
  rw [if_neg (by omega), if_neg (by omega)]

theorem parseUChar_pair (v : Nat) (hv : v < 0x100000) (s : List Char) :
    parseUChar (hex4 (0xd800 + v / 1024) ++
        ('\\' :: 'u' :: (hex4 (0xdc00 + v % 1024) ++ s))) =
      some (Char.ofNat (0x10000 + v), s) := by
  have hhi16 : 0xd800 + v / 1024 < 0x10000 := by omega
  have hlo16 : 0xdc00 + v % 1024 < 0x10000 := by omega
  unfold parseUChar
  rw [parseUEscape_hex4 _ hhi16]
  dsimp only
  rw [if_pos (show 0xd800 ≤ 0xd800 + v / 1024 ∧ 0xd800 + v / 1024 ≤ 0xdbff by omega)]
  rw [if_pos (show ('\\' : Char) = '\\' ∧ ('u' : Char) = 'u' from ⟨rfl, rfl⟩)]
  rw [parseUEscape_hex4 _ hlo16]
  dsimp only
  rw [if_pos (show 0xdc00 ≤ 0xdc00 + v % 1024 ∧ 0xdc00 + v % 1024 ≤ 0xdfff by omega)]
  rw [show 0x10000 + (0xd800 + v / 1024 - 0xd800) * 1024 +
      (0xdc00 + v % 1024 - 0xdc00) = 0x10000 + v by omega]

/-- One escaped character decodes back to itself ahead of any
continuation. -/
theorem parseStrBody_escChar (c : Char) (s : List Char) :
    parseStrBody (escChar c ++ s) = (parseStrBody s).map (fun p => (c :: p.1, p.2)) := by
  by_cases h1 : c = '"'
  · subst h1
    rw [show escChar '"' ++ s = '\\' :: '"' :: s from rfl]
    exact parseStrBody_backslash ('"' :: s) '"' s rfl
  · by_cases h2 : c = '\\'
    · subst h2
      rw [show escChar '\\' ++ s = '\\' :: '\\' :: s from rfl]
      exact parseStrBody_backslash _ _ _ rfl
    · by_cases h3 : c = '\n'
      · subst h3
        rw [show escChar '\n' ++ s = '\\' :: 'n' :: s from rfl]
        exact parseStrBody_backslash _ _ _ rfl
      · by_cases h4 : c = '\t'
        · subst h4
          rw [show escChar '\t' ++ s = '\\' :: 't' :: s from rfl]
          exact parseStrBody_backslash _ _ _ rfl
        · by_cases h5 : c = '\r'
          · subst h5
            rw [show escChar '\r' ++ s = '\\' :: 'r' :: s from rfl]
            exact parseStrBody_backslash _ _ _ rfl
          · by_cases h6 : c.toNat = 8
            · have hc : c = '\x08' := by
                have h := (char_ofNat_toNat c).symm
                rw [h6] at h
                exact h
              subst hc
              rw [show escChar '\x08' ++ s = '\\' :: 'b' :: s from rfl]
              exact parseStrBody_backslash _ _ _ rfl
            · by_cases h7 : c.toNat = 12
              · have hc : c = '\x0c' := by
                  have h := (char_ofNat_toNat c).symm
                  rw [h7] at h
                  exact h
                subst hc
                rw [show escChar '\x0c' ++ s = '\\' :: 'f' :: s from rfl]
                exact parseStrBody_backslash _ _ _ rfl
              · by_cases h8 : c.toNat < 0x20 ∨ 0x7e < c.toNat
                · -- a BMP escape or a surrogate pair
                  by_cases h9 : c.toNat < 0x10000
                  · have hesc : escChar c = '\\' :: 'u' :: hex4 c.toNat := by
                      simp only [escChar, if_neg h1, if_neg h2, if_neg h3, if_neg h4,
                        if_neg h5, if_neg h6, if_neg h7, if_pos h8, if_pos h9]
                    rw [hesc, List.cons_append, List.cons_append]
                    apply parseStrBody_backslash
                    rw [parseEscape_u, parseUChar_bmp c.toNat h9 (char_not_surrogate c),
                      char_ofNat_toNat]
                  · have hlt := char_toNat_lt c
                    have hesc : escChar c ++ s = '\\' :: 'u' ::
                        (hex4 (0xd800 + (c.toNat - 0x10000) / 1024) ++
                          ('\\' :: 'u' ::
                            (hex4 (0xdc00 + (c.toNat - 0x10000) % 1024) ++ s))) := by
                      simp only [escChar, if_neg h1, if_neg h2, if_neg h3, if_neg h4,
                        if_neg h5, if_neg h6, if_neg h7, if_pos h8, if_neg h9]
                      simp
                    rw [hesc]
                    apply parseStrBody_backslash
                    rw [parseEscape_u, parseUChar_pair (c.toNat - 0x10000) (by omega)]
                    rw [show 0x10000 + (c.toNat - 0x10000) = c.toNat by omega,
                      char_ofNat_toNat]
                · -- a plain printable ASCII character
                  have hesc : escChar c = [c] := by
                    simp only [escChar, if_neg h1, if_neg h2, if_neg h3, if_neg h4,
                      if_neg h5, if_neg h6, if_neg h7, if_neg h8]
                  rw [hesc, List.cons_append, List.nil_append]
                  exact parseStrBody_plain c s h1 h2 (by omega)

/-- The serialized string form parses back exactly. -/
theorem parseStrBody_escape (s : List Char) :
    ∀ rest, parseStrBody (s.flatMap escChar ++ '"' :: rest) = some (s, rest) := by
  induction s with
  | nil =>
    intro rest
    simp only [List.flatMap_nil, List.nil_append]
    exact parseStrBody_quote rest
  | cons c cs ih =>
    intro rest
    rw [List.flatMap_cons, List.append_assoc, parseStrBody_escChar, ih rest]
    rfl


/-! ### Number literal roundtrip -/

/-- The continuation after a serialized number must not begin with a
digit (inside `json.dumps` output it is a separator or bracket). -/
def NumSafe : List Char → Prop
  | [] => True
  | c :: _ => ¬ isDigitC c

theorem toNat_ofNat_valid (n : Nat) (h : n.isValidChar) :
    (Char.ofNat n).toNat = n := by
  simp only [Char.ofNat]
  rw [dif_pos h]
  rfl

theorem digitChar_toNat (d : Nat) (h : d < 10) : (digitChar d).toNat = 48 + d := by
  apply toNat_ofNat_valid
  left
  omega

theorem parseDigitsAux_spec (ds : List Char) (hds : ∀ c ∈ ds, isDigitC c) :
    ∀ (rest : List Char) (acc : Nat), NumSafe rest →
      parseDigitsAux (ds ++ rest) acc =
        (ds.foldl (fun a c => a * 10 + (c.toNat - 48)) acc, rest) := by
  induction ds with
  | nil =>
    intro rest acc hr
    match rest with
    | [] => rfl
    | c :: r =>
      simp only [List.nil_append, List.foldl_nil, parseDigitsAux]
      rw [if_neg hr]
  | cons d ds ih =>
    intro rest acc hr
    simp only [List.cons_append, parseDigitsAux, List.foldl_cons]
    rw [if_pos (hds d (by simp))]
    exact ih (fun c hc => hds c (by simp [hc])) rest _ hr

theorem foldl_digitChar (ds : List Nat) (h : ∀ d ∈ ds, d < 10) :
    ∀ acc : Nat,
      (ds.map digitChar).foldl (fun a c => a * 10 + (c.toNat - 48)) acc =
        acc * 10 ^ ds.length + Nat.ofDigits 10 ds.reverse := by
  induction ds with
  | nil => intro acc; simp
  | cons d ds ih =>
    intro acc
    simp only [List.map_cons, List.foldl_cons, List.reverse_cons]
    rw [digitChar_toNat d (h d (by simp))]
    rw [show 48 + d - 48 = d by omega]
    rw [ih (fun x hx => h x (by simp [hx])) (acc * 10 + d)]
    rw [Nat.ofDigits_append]
    simp only [List.length_cons, List.length_reverse, Nat.ofDigits_singleton]
    ring

theorem parseNatNum_natChars (n : Nat) (rest : List Char) (h : NumSafe rest) :
    parseNatNum (natChars n ++ rest) = some (n, rest) := by
  by_cases h0 : n = 0
  · subst h0
    rw [show natChars 0 = ['0'] from rfl, List.cons_append]
    rfl
  · have hne : Nat.digits 10 n ≠ [] := Nat.digits_ne_nil_iff_ne_zero.mpr h0
    have hlt : ∀ d ∈ Nat.digits 10 n, d < 10 :=
      fun d hd => Nat.digits_lt_base (by norm_num) hd
    have hrev : (Nat.digits 10 n).reverse ≠ [] := by simpa using hne
    obtain ⟨d0, dtl, hds⟩ := List.exists_cons_of_ne_nil hrev
    have hd0 : d0 ∈ Nat.digits 10 n := by
      have : d0 ∈ (Nat.digits 10 n).reverse := by rw [hds]; simp
      simpa using this
    have hd0lt : d0 < 10 := hlt d0 hd0
    have hgl : (Nat.digits 10 n).getLast? = some d0 := by
      rw [← List.head?_reverse, hds]
      rfl
    have hd0ne : d0 ≠ 0 := by
      intro hc
      have hlast := Nat.getLast_digit_ne_zero 10 h0
      have h2 := List.getLast?_eq_getLast (Nat.digits 10 n) hne
      rw [hgl] at h2
      have h3 : d0 = (Nat.digits 10 n).getLast hne := Option.some.inj h2
      exact hlast (by rw [← h3, hc])
    have hnat : natChars n = digitChar d0 :: dtl.map digitChar := by
      simp only [natChars, if_neg h0, hds, List.map_cons]
    rw [hnat, List.cons_append]
    simp only [parseNatNum]
    rw [if_neg (show ¬digitChar d0 = '0' by
      intro hc
      apply hd0ne
      have := congrArg Char.toNat hc
      rw [digitChar_toNat d0 hd0lt] at this
      simpa using this)]
    rw [if_pos (show isDigitC (digitChar d0) by
      constructor <;> rw [digitChar_toNat d0 hd0lt] <;> omega)]
    rw [parseDigitsAux_spec (dtl.map digitChar)
      (by
        intro c hc
        simp only [List.mem_map] at hc
        obtain ⟨d, hd, rfl⟩ := hc
        have hdm : d ∈ Nat.digits 10 n := by
          have : d ∈ (Nat.digits 10 n).reverse := by rw [hds]; simp [hd]
          simpa using this
        have := hlt d hdm
        constructor <;> rw [digitChar_toNat d this] <;> omega)
      rest _ h]
    rw [digitChar_toNat d0 hd0lt, show 48 + d0 - 48 = d0 by omega]
    rw [foldl_digitChar dtl
      (by
        intro d hd
        apply hlt
        have : d ∈ (Nat.digits 10 n).reverse := by rw [hds]; simp [hd]
        simpa using this)
      d0]
    have hn : Nat.digits 10 n = dtl.reverse ++ [d0] := by
      have := congrArg List.reverse hds
      simpa using this
    rw [show d0 * 10 ^ dtl.length + Nat.ofDigits 10 dtl.reverse =
        Nat.ofDigits 10 (dtl.reverse ++ [d0]) by
      rw [Nat.ofDigits_append]
      simp only [List.length_reverse, Nat.ofDigits_singleton]
      ring]
    rw [← hn, Nat.ofDigits_digits]

theorem natChars_head_digit (n : Nat) :
    ∃ d rest, natChars n = digitChar d :: rest ∧ d < 10 := by
  by_cases h0 : n = 0
  · subst h0
    exact ⟨0, [], rfl, by omega⟩
  · have hne : Nat.digits 10 n ≠ [] := Nat.digits_ne_nil_iff_ne_zero.mpr h0
    have hrev : (Nat.digits 10 n).reverse ≠ [] := by simpa using hne
    obtain ⟨d0, dtl, hds⟩ := List.exists_cons_of_ne_nil hrev
    refine ⟨d0, dtl.map digitChar, ?_, ?_⟩
    · simp only [natChars, if_neg h0, hds, List.map_cons]
    · apply Nat.digits_lt_base (by norm_num)
      have : d0 ∈ (Nat.digits 10 n).reverse := by rw [hds]; simp
      simpa using this

theorem parseNum_intChars (n : Int) (rest : List Char) (h : NumSafe rest) :
    parseNum (intChars n ++ rest) = some (.num n, rest) := by
  by_cases hneg : n < 0
  · simp only [intChars, if_pos hneg, List.cons_append, parseNum]
    rw [if_pos trivial]
    rw [parseNatNum_natChars n.natAbs rest h]
    simp only [Option.map_some']
    rw [show -((n.natAbs : Int)) = n by omega]
  · simp only [intChars, if_neg hneg]
    obtain ⟨d, drest, hd, hdlt⟩ := natChars_head_digit n.toNat
    rw [hd, List.cons_append]
    simp only [parseNum]
    rw [if_neg (show ¬digitChar d = '-' by
      intro hc
      have hcn := congrArg Char.toNat hc
      rw [digitChar_toNat d hdlt] at hcn
      rw [show ('-' : Char).toNat = 45 from rfl] at hcn
      omega)]
    rw [← List.cons_append, ← hd, parseNatNum_natChars n.toNat rest h]
    simp only [Option.map_some']
    rw [show ((n.toNat : Int)) = n from Int.toNat_of_nonneg (by omega)]


/-! ### Literal and head-character lemmas -/

theorem dropLit_append (lit : List Char) : ∀ s, dropLit lit (lit ++ s) = some s := by
  induction lit with
  | nil => intro s; rfl
  | cons a ls ih =>
    intro s
    simp only [List.cons_append, dropLit, if_pos rfl]
    exact ih s

theorem dropLit_none (a b : Char) (ls ss : List Char) (h : ¬a = b) :
    dropLit (a :: ls) (b :: ss) = none := by
  simp only [dropLit, if_neg h]

theorem intChars_head (n : Int) :
    ∃ c cr, intChars n = c :: cr ∧ 45 ≤ c.toNat ∧ c.toNat ≤ 57 := by
  by_cases hneg : n < 0
  · refine ⟨'-', natChars n.natAbs, ?_, by decide, by decide⟩
    simp [intChars, hneg]
  · obtain ⟨d, drest, hd, hdlt⟩ := natChars_head_digit n.toNat
    refine ⟨digitChar d, drest, ?_, ?_, ?_⟩
    · simp only [intChars, if_neg hneg, hd]
    · rw [digitChar_toNat d hdlt]; omega
    · rw [digitChar_toNat d hdlt]; omega

/-- The first character of any `dumpsP` output: never whitespace, never
`']'`, never an object-closing brace, never a comma, never a digit
continuation hazard for these claims' uses. -/
theorem dumpsP_head (v : JVal) (lvl : Nat) :
    ∃ c cs, dumpsP v lvl = c :: cs ∧ 34 ≤ c.toNat ∧ c.toNat ≤ 123 ∧ c.toNat ≠ 93 ∧
      c.toNat ≠ 125 ∧ c.toNat ≠ 44 ∧ c.toNat ≠ 58 := by
  match v with
  | .null => exact ⟨'n', _, rfl, by decide, by decide, by decide, by decide, by decide, by decide⟩
  | .bool true => exact ⟨'t', _, rfl, by decide, by decide, by decide, by decide, by decide, by decide⟩
  | .bool false => exact ⟨'f', _, rfl, by decide, by decide, by decide, by decide, by decide, by decide⟩
  | .num n =>
    obtain ⟨c, cr, hc, h1, h2⟩ := intChars_head n
    exact ⟨c, cr, by simp only [dumpsP, hc], by omega, by omega, by omega, by omega,
      by omega, by omega⟩
  | .str s => exact ⟨'"', _, rfl, by decide, by decide, by decide, by decide, by decide, by decide⟩
  | .arr [] => exact ⟨'[', _, rfl, by decide, by decide, by decide, by decide, by decide, by decide⟩
  | .arr (x :: xs) =>
    exact ⟨'[', _, rfl, by decide, by decide, by decide, by decide, by decide, by decide⟩
  | .obj [] => exact ⟨lbrace, _, rfl, by decide, by decide, by decide, by decide, by decide, by decide⟩
  | .obj (p :: ps) =>
    exact ⟨lbrace, _, rfl, by decide, by decide, by decide, by decide, by decide, by decide⟩

theorem jskipWs_dumpsP (v : JVal) (lvl : Nat) (s : List Char) :
    jskipWs (dumpsP v lvl ++ s) = dumpsP v lvl ++ s := by
  obtain ⟨c, cs, hc, h1, _, _, _, _, _⟩ := dumpsP_head v lvl
  rw [hc, List.cons_append]
  apply jskipWs_cons_of_not_ws
  intro hcase
  rcases hcase with h | h | h | h <;> (rw [h] at h1; exact absurd h1 (by decide))

theorem parseItems_ws (fuel : Nat) (pre s : List Char)
    (hpre : jskipWs (pre ++ s) = jskipWs s) :
    parseItems fuel (pre ++ s) = parseItems fuel s := by
  cases fuel with
  | zero => rfl
  | succ f => simp only [parseItems, parseVal_ws f pre s hpre]

theorem parseMembers_ws (fuel : Nat) (pre s : List Char)
    (hpre : jskipWs (pre ++ s) = jskipWs s) :
    parseMembers fuel (pre ++ s) = parseMembers fuel s := by
  cases fuel with
  | zero => rfl
  | succ f => simp only [parseMembers, hpre]

/-! ### Well-formedness (unique object keys) and parse weight -/

/-- Pairwise-distinct keys of an object level. -/
def keysNodup : List (List Char × JVal) → Bool
  | [] => true
  | p :: ps => (ps.all fun q => !(q.1 == p.1)) && keysNodup ps

mutual

/-- A parsed value is well-formed when every object level has distinct
keys (always true of `jparse` output, proved below). -/
def wfB : JVal → Bool
  | .arr xs => wfItems xs
  | .obj fs => keysNodup fs && wfMembers fs
  | _ => true

def wfItems : List JVal → Bool
  | [] => true
  | x :: xs => wfB x && wfItems xs

def wfMembers : List (List Char × JVal) → Bool
  | [] => true
  | p :: ps => wfB p.2 && wfMembers ps

end

mutual

/-- Fuel needed by `parseVal` on the serialized form of `v`. -/
def weight : JVal → Nat
  | .arr xs => 1 + weightItems xs
  | .obj fs => 1 + weightMembers fs
  | _ => 1

def weightItems : List JVal → Nat
  | [] => 0
  | x :: xs => 1 + weight x + weightItems xs

def weightMembers : List (List Char × JVal) → Nat
  | [] => 0
  | p :: ps => 1 + weight p.2 + weightMembers ps

end

theorem assocFind_eq_none (k : List Char) (fs : List (List Char × JVal))
    (h : ∀ q ∈ fs, ¬q.1 = k) : assocFind k fs = none := by
  induction fs with
  | nil => rfl
  | cons p ps ih =>
    simp only [assocFind]
    rw [if_neg (h p (by simp))]
    exact ih (fun q hq => h q (by simp [hq]))

theorem combineKV_fresh (k : List Char) (v : JVal) (fs : List (List Char × JVal))
    (h : ∀ q ∈ fs, ¬q.1 = k) : combineKV k v fs = (k, v) :: fs := by
  simp only [combineKV, assocFind_eq_none k fs h]


theorem one_le_weight (v : JVal) : 1 ≤ weight v := by
  cases v <;> simp [weight]

theorem dropLit_true_of_head (c : Char) (s : List Char) (h : ¬('t' : Char) = c) :
    dropLit "true".toList (c :: s) = none := by
  rw [show ("true".toList : List Char) = 't' :: "rue".toList from rfl]
  exact dropLit_none _ _ _ _ h

theorem dropLit_false_of_head (c : Char) (s : List Char) (h : ¬('f' : Char) = c) :
    dropLit "false".toList (c :: s) = none := by
  rw [show ("false".toList : List Char) = 'f' :: "alse".toList from rfl]
  exact dropLit_none _ _ _ _ h

theorem dropLit_null_of_head (c : Char) (s : List Char) (h : ¬('n' : Char) = c) :
    dropLit "null".toList (c :: s) = none := by
  rw [show ("null".toList : List Char) = 'n' :: "ull".toList from rfl]
  exact dropLit_none _ _ _ _ h

theorem numSafe_cons (c : Char) (r : List Char) (h : ¬isDigitC c) : NumSafe (c :: r) := h

theorem parseVal_sp (fuel : Nat) (s : List Char) :
    parseVal fuel (' ' :: s) = parseVal fuel s := by
  cases fuel with
  | zero => rfl
  | succ f => simp only [parseVal, jskipWs_cons_of_ws ' ' s (by decide)]

/-- Roundtrip statement for `parseVal` at a given fuel. -/
def PVprop (fuel : Nat) : Prop :=
  ∀ v lvl rest, wfB v = true → weight v ≤ fuel → NumSafe rest →
    parseVal fuel (dumpsP v lvl ++ rest) = some (v, rest)

/-- Roundtrip statement for `parseItems` at a given fuel. -/
def PIprop (fuel : Nat) : Prop :=
  ∀ xs lvl lvl2 rest, xs ≠ [] → wfItems xs = true → weightItems xs ≤ fuel →
    parseItems fuel (dumpsPList xs lvl ++ '\n' :: (ind lvl2 ++ ']' :: rest)) =
      some (xs, rest)

/-- Roundtrip statement for `parseMembers` at a given fuel. -/
def PMprop (fuel : Nat) : Prop :=
  ∀ fs lvl lvl2 rest, fs ≠ [] → keysNodup fs = true → wfMembers fs = true →
    weightMembers fs ≤ fuel →
    parseMembers fuel (dumpsPObj fs lvl ++ '\n' :: (ind lvl2 ++ rbrace :: rest)) =
      some (fs, rest)

theorem parseVal_step (f : Nat) (ihI : PIprop f) (ihM : PMprop f) : PVprop (f + 1) := by
  intro v lvl rest hwf hfuel hrest
  match v with
  | .null =>
    simp only [parseVal, jskipWs_dumpsP .null lvl rest]
    rw [show dumpsP .null lvl ++ rest = 'n' :: ("ull".toList ++ rest) from rfl]
    rw [dropLit_true_of_head _ _ (by decide)]
    dsimp only
    rw [dropLit_false_of_head _ _ (by decide)]
    dsimp only
    rw [show ('n' :: ("ull".toList ++ rest) : List Char) = "null".toList ++ rest from rfl]
    rw [dropLit_append]
  | .bool true =>
    simp only [parseVal, jskipWs_dumpsP (.bool true) lvl rest]
    rw [show dumpsP (.bool true) lvl ++ rest = "true".toList ++ rest from rfl]
    rw [dropLit_append]
  | .bool false =>
    simp only [parseVal, jskipWs_dumpsP (.bool false) lvl rest]
    rw [show dumpsP (.bool false) lvl ++ rest = 'f' :: ("alse".toList ++ rest) from rfl]
    rw [dropLit_true_of_head _ _ (by decide)]
    dsimp only
    rw [show ('f' :: ("alse".toList ++ rest) : List Char) = "false".toList ++ rest from rfl]
    rw [dropLit_append]
  | .num n =>
    obtain ⟨c, cr, hc, hlo, hhi⟩ := intChars_head n
    have hd : dumpsP (.num n) lvl ++ rest = c :: (cr ++ rest) := by
      rw [show dumpsP (.num n) lvl = intChars n from rfl, hc, List.cons_append]
    simp only [parseVal, jskipWs_dumpsP (.num n) lvl rest]
    rw [hd]
    rw [dropLit_true_of_head _ _
      (by intro hh; rw [← hh] at hhi; exact absurd hhi (by decide))]
    dsimp only
    rw [dropLit_false_of_head _ _
      (by intro hh; rw [← hh] at hhi; exact absurd hhi (by decide))]
    dsimp only
    rw [dropLit_null_of_head _ _
      (by intro hh; rw [← hh] at hhi; exact absurd hhi (by decide))]
    dsimp only
    rw [if_neg (by intro hh; rw [hh] at hlo; exact absurd hlo (by decide))]
    rw [if_neg (by intro hh; rw [hh] at hhi; exact absurd hhi (by decide))]
    rw [if_neg (by intro hh; rw [hh] at hhi; exact absurd hhi (by decide))]
    rw [show (c :: (cr ++ rest) : List Char) = (c :: cr) ++ rest from rfl, ← hc]
    exact parseNum_intChars n rest hrest
  | .str s =>
    simp only [parseVal, jskipWs_dumpsP (.str s) lvl rest]
    rw [show dumpsP (.str s) lvl ++ rest =
      '"' :: (s.flatMap escChar ++ '"' :: rest) from by
        simp [dumpsP, escString]]
    rw [dropLit_true_of_head _ _ (by decide)]
    dsimp only
    rw [dropLit_false_of_head _ _ (by decide)]
    dsimp only
    rw [dropLit_null_of_head _ _ (by decide)]
    dsimp only
    rw [if_pos rfl]
    rw [parseStrBody_escape s rest]
    rfl
  | .arr [] =>
    simp only [parseVal, jskipWs_dumpsP (.arr []) lvl rest]
    rw [show dumpsP (.arr []) lvl ++ rest = '[' :: (']' :: rest) from rfl]
    rw [dropLit_true_of_head _ _ (by decide)]
    dsimp only
    rw [dropLit_false_of_head _ _ (by decide)]
    dsimp only
    rw [dropLit_null_of_head _ _ (by decide)]
    dsimp only
    rw [if_neg (by decide), if_pos rfl]
    rw [jskipWs_cons_of_not_ws _ _ (by decide)]
    dsimp only
    rw [if_pos rfl]
  | .arr (x :: xs) =>
    obtain ⟨t, ht⟩ : ∃ t, dumpsPList (x :: xs) (lvl + 1) = dumpsP x (lvl + 1) ++ t := by
      cases xs with
      | nil => exact ⟨[], by simp [dumpsPList]⟩
      | cons y ys =>
        refine ⟨(',' :: '\n' :: ind (lvl + 1)) ++ dumpsPList (y :: ys) (lvl + 1), ?_⟩
        simp [dumpsPList]
    obtain ⟨c, cs, hc, h34, h123, hne93, hne125, hne44, hne58⟩ :=
      dumpsP_head x (lvl + 1)
    have hnotws : ¬(c = ' ' ∨ c = '\t' ∨ c = '\n' ∨ c = '\r') := by
      intro hcase
      rcases hcase with h | h | h | h <;> (rw [h] at h34; exact absurd h34 (by decide))
    have hsplit : dumpsP (.arr (x :: xs)) lvl ++ rest =
        '[' :: ('\n' :: (ind (lvl + 1) ++ (dumpsPList (x :: xs) (lvl + 1) ++
          '\n' :: (ind lvl ++ ']' :: rest)))) := by
      simp [dumpsP]
    simp only [parseVal, jskipWs_dumpsP (.arr (x :: xs)) lvl rest]
    rw [hsplit]
    rw [dropLit_true_of_head _ _ (by decide)]
    dsimp only
    rw [dropLit_false_of_head _ _ (by decide)]
    dsimp only
    rw [dropLit_null_of_head _ _ (by decide)]
    dsimp only
    rw [if_neg (by decide), if_pos rfl]
    rw [jskipWs_nl_ind_append]
    rw [ht, hc, List.cons_append, List.cons_append]
    rw [jskipWs_cons_of_not_ws _ _ hnotws]
    dsimp only
    rw [if_neg (show ¬c = ']' by intro hh; apply hne93; rw [hh]; rfl)]
    rw [← List.cons_append, ← List.cons_append, ← hc, ← ht]
    rw [ihI (x :: xs) (lvl + 1) lvl rest (by simp) hwf
      (by have h2 : 1 + weightItems (x :: xs) ≤ f + 1 := hfuel; omega)]
    rfl
  | .obj [] =>
    simp only [parseVal, jskipWs_dumpsP (.obj []) lvl rest]
    rw [show dumpsP (.obj []) lvl ++ rest = lbrace :: (rbrace :: rest) from rfl]
    rw [dropLit_true_of_head _ _ (by decide)]
    dsimp only
    rw [dropLit_false_of_head _ _ (by decide)]
    dsimp only
    rw [dropLit_null_of_head _ _ (by decide)]
    dsimp only
    rw [if_neg (by decide), if_neg (by decide), if_pos rfl]
    rw [jskipWs_cons_of_not_ws _ _ (by decide)]
    dsimp only
    rw [if_pos rfl]
  | .obj ((k, v2) :: ps) =>
    have hco : (keysNodup ((k, v2) :: ps) && wfMembers ((k, v2) :: ps)) = true := hwf
    rw [Bool.and_eq_true] at hco
    obtain ⟨t, ht⟩ : ∃ t, dumpsPObj ((k, v2) :: ps) (lvl + 1) = escString k ++ t := by
      cases ps with
      | nil => exact ⟨':' :: ' ' :: dumpsP v2 (lvl + 1), rfl⟩
      | cons q qs =>
        refine ⟨(':' :: ' ' :: dumpsP v2 (lvl + 1)) ++ ((',' :: '\n' :: ind (lvl + 1)) ++
          dumpsPObj (q :: qs) (lvl + 1)), ?_⟩
        simp [dumpsPObj]
    have hesc : escString k = '"' :: (k.flatMap escChar ++ ['"']) := by
      simp [escString]
    have hsplit : dumpsP (.obj ((k, v2) :: ps)) lvl ++ rest =
        lbrace :: ('\n' :: (ind (lvl + 1) ++ (dumpsPObj ((k, v2) :: ps) (lvl + 1) ++
          '\n' :: (ind lvl ++ rbrace :: rest)))) := by
      simp [dumpsP]
    simp only [parseVal, jskipWs_dumpsP (.obj ((k, v2) :: ps)) lvl rest]
    rw [hsplit]
    rw [dropLit_true_of_head _ _ (by decide)]
    dsimp only
    rw [dropLit_false_of_head _ _ (by decide)]
    dsimp only
    rw [dropLit_null_of_head _ _ (by decide)]
    dsimp only
    rw [if_neg (by decide), if_neg (by decide), if_pos rfl]
    rw [jskipWs_nl_ind_append]
    rw [ht, hesc, List.cons_append, List.cons_append]
    rw [jskipWs_cons_of_not_ws _ _ (by decide)]
    dsimp only
    rw [if_neg (by decide)]
    rw [← List.cons_append, ← List.cons_append, ← hesc, ← ht]
    rw [ihM ((k, v2) :: ps) (lvl + 1) lvl rest (by simp) hco.1 hco.2
      (by have h2 : 1 + weightMembers ((k, v2) :: ps) ≤ f + 1 := hfuel; omega)]
    rfl

theorem parseItems_step (f : Nat) (ihV : PVprop f) (ihI : PIprop f) : PIprop (f + 1) := by
  intro xs lvl lvl2 rest hne hwf hfuel
  match xs with
  | [] => exact absurd rfl hne
  | [x] =>
    have hxwf : wfB x = true := by
      have h2 : (wfB x && true) = true := hwf
      rw [Bool.and_eq_true] at h2
      exact h2.1
    have hxfuel : weight x ≤ f := by
      have h2 : 1 + weight x + 0 ≤ f + 1 := hfuel
      omega
    simp only [parseItems]
    rw [show dumpsPList [x] lvl = dumpsP x lvl from rfl]
    rw [ihV x lvl ('\n' :: (ind lvl2 ++ ']' :: rest)) hxwf hxfuel
      (numSafe_cons _ _ (by decide))]
    dsimp only
    rw [jskipWs_nl_ind_append, jskipWs_cons_of_not_ws _ _ (by decide)]
    dsimp only
    rw [if_neg (by decide), if_pos rfl]
  | x :: y :: ys =>
    have hxwf : wfB x = true := by
      have h2 : (wfB x && wfItems (y :: ys)) = true := hwf
      rw [Bool.and_eq_true] at h2
      exact h2.1
    have htwf : wfItems (y :: ys) = true := by
      have h2 : (wfB x && wfItems (y :: ys)) = true := hwf
      rw [Bool.and_eq_true] at h2
      exact h2.2
    have hxfuel : weight x ≤ f := by
      have h2 : 1 + weight x + weightItems (y :: ys) ≤ f + 1 := hfuel
      omega
    have htfuel : weightItems (y :: ys) ≤ f := by
      have h2 : 1 + weight x + weightItems (y :: ys) ≤ f + 1 := hfuel
      omega
    have hshape : dumpsPList (x :: y :: ys) lvl ++ '\n' :: (ind lvl2 ++ ']' :: rest) =
        dumpsP x lvl ++ (',' :: ('\n' :: (ind lvl ++ (dumpsPList (y :: ys) lvl ++
          '\n' :: (ind lvl2 ++ ']' :: rest))))) := by
      simp [dumpsPList]
    simp only [parseItems]
    rw [hshape]
    rw [ihV x lvl _ hxwf hxfuel (numSafe_cons _ _ (by decide))]
    dsimp only
    rw [jskipWs_cons_of_not_ws _ _ (by decide)]
    dsimp only
    rw [if_pos rfl]
    rw [show ('\n' :: (ind lvl ++ (dumpsPList (y :: ys) lvl ++
        '\n' :: (ind lvl2 ++ ']' :: rest))) : List Char) =
        ('\n' :: ind lvl) ++ (dumpsPList (y :: ys) lvl ++
          '\n' :: (ind lvl2 ++ ']' :: rest)) from rfl]
    rw [parseItems_ws f ('\n' :: ind lvl) (dumpsPList (y :: ys) lvl ++
        '\n' :: (ind lvl2 ++ ']' :: rest)) (by
      rw [List.cons_append]
      exact jskipWs_nl_ind_append lvl _)]
    rw [ihI (y :: ys) lvl lvl2 rest (by simp) htwf htfuel]
    rfl

theorem parseMembers_step (f : Nat) (ihV : PVprop f) (ihM : PMprop f) : PMprop (f + 1) := by
  intro fs lvl lvl2 rest hne hnd hwf hfuel
  match fs with
  | [] => exact absurd rfl hne
  | [(k, v)] =>
    have hvwf : wfB v = true := by
      have h2 : (wfB v && true) = true := hwf
      rw [Bool.and_eq_true] at h2
      exact h2.1
    have hvfuel : weight v ≤ f := by
      have h2 : 1 + weight v + 0 ≤ f + 1 := hfuel
      omega
    have hshape : dumpsPObj [(k, v)] lvl ++ '\n' :: (ind lvl2 ++ rbrace :: rest) =
        '"' :: (k.flatMap escChar ++ '"' :: (':' :: (' ' :: (dumpsP v lvl ++
          '\n' :: (ind lvl2 ++ rbrace :: rest))))) := by
      simp [dumpsPObj, escString]
    simp only [parseMembers]
    rw [hshape]
    rw [jskipWs_cons_of_not_ws _ _ (by decide)]
    dsimp only
    rw [if_pos rfl]
    rw [parseStrBody_escape k]
    dsimp only
    rw [jskipWs_cons_of_not_ws _ _ (by decide)]
    dsimp only
    rw [if_pos rfl]
    rw [parseVal_sp]
    rw [ihV v lvl _ hvwf hvfuel (numSafe_cons _ _ (by decide))]
    dsimp only
    rw [jskipWs_nl_ind_append, jskipWs_cons_of_not_ws _ _ (by decide)]
    dsimp only
    rw [if_neg (by decide), if_pos rfl]
  | (k, v) :: q :: qs =>
    have hfr : ∀ r ∈ q :: qs, ¬r.1 = k := by
      have h2 : (((q :: qs).all fun r => !(r.1 == k)) && keysNodup (q :: qs)) = true := hnd
      rw [Bool.and_eq_true] at h2
      intro r hr
      have h3 := List.all_eq_true.mp h2.1 r hr
      simpa using h3
    have hnd2 : keysNodup (q :: qs) = true := by
      have h2 : (((q :: qs).all fun r => !(r.1 == k)) && keysNodup (q :: qs)) = true := hnd
      rw [Bool.and_eq_true] at h2
      exact h2.2
    have hvwf : wfB v = true := by
      have h2 : (wfB v && wfMembers (q :: qs)) = true := hwf
      rw [Bool.and_eq_true] at h2
      exact h2.1
    have hmwf : wfMembers (q :: qs) = true := by
      have h2 : (wfB v && wfMembers (q :: qs)) = true := hwf
      rw [Bool.and_eq_true] at h2
      exact h2.2
    have hvfuel : weight v ≤ f := by
      have h2 : 1 + weight v + weightMembers (q :: qs) ≤ f + 1 := hfuel
      omega
    have hmfuel : weightMembers (q :: qs) ≤ f := by
      have h2 : 1 + weight v + weightMembers (q :: qs) ≤ f + 1 := hfuel
      omega
    have hshape : dumpsPObj ((k, v) :: q :: qs) lvl ++
        '\n' :: (ind lvl2 ++ rbrace :: rest) =
        '"' :: (k.flatMap escChar ++ '"' :: (':' :: (' ' :: (dumpsP v lvl ++
          ',' :: ('\n' :: (ind lvl ++ (dumpsPObj (q :: qs) lvl ++
            '\n' :: (ind lvl2 ++ rbrace :: rest)))))))) := by
      simp [dumpsPObj, escString]
    simp only [parseMembers]
    rw [hshape]
    rw [jskipWs_cons_of_not_ws _ _ (by decide)]
    dsimp only
    rw [if_pos rfl]
    rw [parseStrBody_escape k]
    dsimp only
    rw [jskipWs_cons_of_not_ws _ _ (by decide)]
    dsimp only
    rw [if_pos rfl]
    rw [parseVal_sp]
    rw [ihV v lvl _ hvwf hvfuel (numSafe_cons _ _ (by decide))]
    dsimp only
    rw [jskipWs_cons_of_not_ws _ _ (by decide)]
    dsimp only
    rw [if_pos rfl]
    rw [show ('\n' :: (ind lvl ++ (dumpsPObj (q :: qs) lvl ++
        '\n' :: (ind lvl2 ++ rbrace :: rest))) : List Char) =
        ('\n' :: ind lvl) ++ (dumpsPObj (q :: qs) lvl ++
          '\n' :: (ind lvl2 ++ rbrace :: rest)) from rfl]
    rw [parseMembers_ws f ('\n' :: ind lvl) (dumpsPObj (q :: qs) lvl ++
        '\n' :: (ind lvl2 ++ rbrace :: rest)) (by
      rw [List.cons_append]
      exact jskipWs_nl_ind_append lvl _)]
    rw [ihM (q :: qs) lvl lvl2 rest (by simp) hnd2 hmwf hmfuel]
    simp only [Option.map_some']
    rw [combineKV_fresh k v (q :: qs) hfr]

theorem parse_dumpsP_all (fuel : Nat) : PVprop fuel ∧ PIprop fuel ∧ PMprop fuel := by
  induction fuel with
  | zero =>
    refine ⟨?_, ?_, ?_⟩
    · intro v lvl rest hwf hfuel hrest
      exact absurd hfuel (by have := one_le_weight v; omega)
    · intro xs lvl lvl2 rest hne hwf hfuel
      match xs with
      | [] => exact absurd rfl hne
      | x :: xs2 => exact absurd hfuel (by simp only [weightItems]; omega)
    · intro fs lvl lvl2 rest hne hnd hwf hfuel
      match fs with
      | [] => exact absurd rfl hne
      | p :: ps => exact absurd hfuel (by simp only [weightMembers]; omega)
  | succ f ih =>
    exact ⟨parseVal_step f ih.2.1 ih.2.2, parseItems_step f ih.1 ih.2.1,
      parseMembers_step f ih.1 ih.2.2⟩

/-- `parseVal` inverts `dumpsP` on well-formed values, for any
continuation that does not extend a number literal. -/
theorem parseVal_dumpsP (v : JVal) (lvl : Nat) (rest : List Char) (fuel : Nat)
    (hwf : wfB v = true) (hfuel : weight v ≤ fuel) (hrest : NumSafe rest) :
    parseVal fuel (dumpsP v lvl ++ rest) = some (v, rest) :=
  (parse_dumpsP_all fuel).1 v lvl rest hwf hfuel hrest


/-! ### The parser only produces well-formed values -/

theorem wfMembers_filter (fs : List (List Char × JVal)) (p : List Char × JVal → Bool)
    (h : wfMembers fs = true) : wfMembers (fs.filter p) = true := by
  induction fs with
  | nil => rfl
  | cons q qs ih =>
    have h2 : (wfB q.2 && wfMembers qs) = true := h
    rw [Bool.and_eq_true] at h2
    rw [List.filter_cons]
    split
    · rw [show wfMembers (q :: qs.filter p) = (wfB q.2 && wfMembers (qs.filter p)) from rfl,
        Bool.and_eq_true]
      exact ⟨h2.1, ih h2.2⟩
    · exact ih h2.2

theorem keysNodup_filter (fs : List (List Char × JVal)) (p : List Char × JVal → Bool)
    (h : keysNodup fs = true) : keysNodup (fs.filter p) = true := by
  induction fs with
  | nil => rfl
  | cons q qs ih =>
    have h2 : ((qs.all fun r => !(r.1 == q.1)) && keysNodup qs) = true := h
    rw [Bool.and_eq_true] at h2
    rw [List.filter_cons]
    split
    · rw [show keysNodup (q :: qs.filter p) =
        (((qs.filter p).all fun r => !(r.1 == q.1)) && keysNodup (qs.filter p)) from rfl,
        Bool.and_eq_true]
      refine ⟨?_, ih h2.2⟩
      rw [List.all_eq_true]
      intro r hr
      exact List.all_eq_true.mp h2.1 r (List.mem_of_mem_filter hr)
    · exact ih h2.2

theorem assocFind_wf (k : List Char) (fs : List (List Char × JVal)) (v : JVal)
    (hwf : wfMembers fs = true) (h : assocFind k fs = some v) : wfB v = true := by
  induction fs with
  | nil => simp [assocFind] at h
  | cons q qs ih =>
    have h2 : (wfB q.2 && wfMembers qs) = true := hwf
    rw [Bool.and_eq_true] at h2
    simp only [assocFind] at h
    split at h
    · rw [Option.some.injEq] at h
      rw [← h]
      exact h2.1
    · exact ih h2.2 h

theorem combineKV_wf (k : List Char) (v : JVal) (fs : List (List Char × JVal))
    (hv : wfB v = true) (hwf : wfMembers fs = true) :
    wfMembers (combineKV k v fs) = true := by
  simp only [combineKV]
  split
  · rename_i v' hv'
    exact (Bool.and_eq_true _ _).mpr
      ⟨assocFind_wf k fs v' hwf hv', wfMembers_filter fs _ hwf⟩
  · exact (Bool.and_eq_true _ _).mpr ⟨hv, hwf⟩

theorem assocFind_none_forall (k : List Char) (fs : List (List Char × JVal))
    (h : assocFind k fs = none) : ∀ q ∈ fs, ¬q.1 = k := by
  induction fs with
  | nil => intro q hq; simp at hq
  | cons p ps ih =>
    simp only [assocFind] at h
    split at h
    · simp at h
    · rename_i hp
      intro q hq
      rcases List.mem_cons.mp hq with rfl | hq2
      · exact hp
      · exact ih h q hq2

theorem combineKV_nodup (k : List Char) (v : JVal) (fs : List (List Char × JVal))
    (hnd : keysNodup fs = true) : keysNodup (combineKV k v fs) = true := by
  simp only [combineKV]
  split
  · refine (Bool.and_eq_true _ _).mpr ⟨?_, keysNodup_filter fs _ hnd⟩
    rw [List.all_eq_true]
    intro r hr
    have := List.of_mem_filter hr
    simpa using this
  · refine (Bool.and_eq_true _ _).mpr ⟨?_, hnd⟩
    rw [List.all_eq_true]
    intro r hr
    rename_i hnone
    have := assocFind_none_forall k fs hnone r hr
    simpa using this

theorem parseNum_wf (s : List Char) (v : JVal) (r : List Char)
    (h : parseNum s = some (v, r)) : wfB v = true := by
  match s with
  | [] => simp [parseNum] at h
  | c :: cr =>
    simp only [parseNum] at h
    split at h
    · rcases hn : parseNatNum cr with _ | p
      · rw [hn] at h; simp at h
      · rw [hn] at h
        simp only [Option.map_some', Option.some.injEq, Prod.mk.injEq] at h
        obtain ⟨rfl, -⟩ := h
        rfl
    · rcases hn : parseNatNum (c :: cr) with _ | p
      · rw [hn] at h; simp at h
      · rw [hn] at h
        simp only [Option.map_some', Option.some.injEq, Prod.mk.injEq] at h
        obtain ⟨rfl, -⟩ := h
        rfl

/-- Well-formedness statement for `parseVal` output at a given fuel. -/
def WVprop (fuel : Nat) : Prop :=
  ∀ s v rest, parseVal fuel s = some (v, rest) → wfB v = true

/-- Well-formedness statement for `parseItems` output at a given fuel. -/
def WIprop (fuel : Nat) : Prop :=
  ∀ s xs rest, parseItems fuel s = some (xs, rest) → wfItems xs = true

/-- Well-formedness statement for `parseMembers` output at a given fuel. -/
def WMprop (fuel : Nat) : Prop :=
  ∀ s fs rest, parseMembers fuel s = some (fs, rest) →
    wfMembers fs = true ∧ keysNodup fs = true

theorem parseVal_wf_step (f : Nat) (ihI : WIprop f) (ihM : WMprop f) :
    WVprop (f + 1) := by
  intro s v rest h
  simp only [parseVal] at h
  rcases h1 : dropLit "true".toList (jskipWs s) with _ | r1 <;> rw [h1] at h <;>
    dsimp only at h
  case some =>
    simp only [Option.some.injEq, Prod.mk.injEq] at h
    obtain ⟨rfl, -⟩ := h
    rfl
  rcases h2 : dropLit "false".toList (jskipWs s) with _ | r2 <;> rw [h2] at h <;>
    dsimp only at h
  case some =>
    simp only [Option.some.injEq, Prod.mk.injEq] at h
    obtain ⟨rfl, -⟩ := h
    rfl
  rcases h3 : dropLit "null".toList (jskipWs s) with _ | r3 <;> rw [h3] at h <;>
    dsimp only at h
  case some =>
    simp only [Option.some.injEq, Prod.mk.injEq] at h
    obtain ⟨rfl, -⟩ := h
    rfl
  rcases h4 : jskipWs s with _ | ⟨c, r⟩ <;> rw [h4] at h <;> dsimp only at h
  · simp at h
  by_cases hq : c = '"'
  · rw [if_pos hq] at h
    rcases h5 : parseStrBody r with _ | p <;> rw [h5] at h
    · simp at h
    · simp only [Option.map_some', Option.some.injEq, Prod.mk.injEq] at h
      obtain ⟨rfl, -⟩ := h
      rfl
  rw [if_neg hq] at h
  by_cases hb : c = '['
  · rw [if_pos hb] at h
    rcases h6 : jskipWs r with _ | ⟨d, r2⟩ <;> rw [h6] at h <;> dsimp only at h
    · simp at h
    by_cases hd : d = ']'
    · rw [if_pos hd] at h
      simp only [Option.some.injEq, Prod.mk.injEq] at h
      obtain ⟨rfl, -⟩ := h
      rfl
    · rw [if_neg hd] at h
      rcases h7 : parseItems f (d :: r2) with _ | p <;> rw [h7] at h
      · simp at h
      · simp only [Option.map_some', Option.some.injEq, Prod.mk.injEq] at h
        obtain ⟨rfl, -⟩ := h
        exact ihI _ _ _ h7
  rw [if_neg hb] at h
  by_cases hc2 : c = lbrace
  · rw [if_pos hc2] at h
    rcases h8 : jskipWs r with _ | ⟨d, r2⟩ <;> rw [h8] at h <;> dsimp only at h
    · simp at h
    by_cases hd : d = rbrace
    · rw [if_pos hd] at h
      simp only [Option.some.injEq, Prod.mk.injEq] at h
      obtain ⟨rfl, -⟩ := h
      rfl
    · rw [if_neg hd] at h
      rcases h9 : parseMembers f (d :: r2) with _ | p <;> rw [h9] at h
      · simp at h
      · simp only [Option.map_some', Option.some.injEq, Prod.mk.injEq] at h
        obtain ⟨rfl, -⟩ := h
        have hm := ihM _ _ _ h9
        rw [show wfB (JVal.obj p.1) = (keysNodup p.1 && wfMembers p.1) from rfl,
          Bool.and_eq_true]
        exact ⟨hm.2, hm.1⟩
  rw [if_neg hc2] at h
  exact parseNum_wf _ _ _ h

theorem parseItems_wf_step (f : Nat) (ihV : WVprop f) (ihI : WIprop f) :
    WIprop (f + 1) := by
  intro s xs rest h
  simp only [parseItems] at h
  rcases h1 : parseVal f s with _ | ⟨v0, rest0⟩ <;> rw [h1] at h <;> dsimp only at h
  · simp at h
  rcases h2 : jskipWs rest0 with _ | ⟨d, r⟩ <;> rw [h2] at h <;> dsimp only at h
  · simp at h
  by_cases hd : d = ','
  · rw [if_pos hd] at h
    rcases h3 : parseItems f r with _ | p <;> rw [h3] at h
    · simp at h
    · simp only [Option.map_some', Option.some.injEq, Prod.mk.injEq] at h
      obtain ⟨rfl, -⟩ := h
      rw [show wfItems (v0 :: p.1) = (wfB v0 && wfItems p.1) from rfl, Bool.and_eq_true]
      exact ⟨ihV _ _ _ h1, ihI _ _ _ h3⟩
  · rw [if_neg hd] at h
    by_cases he : d = ']'
    · rw [if_pos he] at h
      simp only [Option.some.injEq, Prod.mk.injEq] at h
      obtain ⟨rfl, -⟩ := h
      rw [show wfItems [v0] = (wfB v0 && true) from rfl, Bool.and_eq_true]
      exact ⟨ihV _ _ _ h1, rfl⟩
    · rw [if_neg he] at h
      simp at h

theorem parseMembers_wf_step (f : Nat) (ihV : WVprop f) (ihM : WMprop f) :
    WMprop (f + 1) := by
  intro s fs rest h
  simp only [parseMembers] at h
  rcases h1 : jskipWs s with _ | ⟨c, r⟩ <;> rw [h1] at h <;> dsimp only at h
  · simp at h
  by_cases hq : c = '"'
  · rw [if_pos hq] at h
    rcases h2 : parseStrBody r with _ | ⟨k, rest1⟩ <;> rw [h2] at h <;> dsimp only at h
    · simp at h
    rcases h3 : jskipWs rest1 with _ | ⟨d, r2⟩ <;> rw [h3] at h <;> dsimp only at h
    · simp at h
    by_cases hd : d = ':'
    · rw [if_pos hd] at h
      rcases h4 : parseVal f r2 with _ | ⟨v0, rest2⟩ <;> rw [h4] at h <;> dsimp only at h
      · simp at h
      rcases h5 : jskipWs rest2 with _ | ⟨e, r3⟩ <;> rw [h5] at h <;> dsimp only at h
      · simp at h
      by_cases he : e = ','
      · rw [if_pos he] at h
        rcases h6 : parseMembers f r3 with _ | p <;> rw [h6] at h
        · simp at h
        · simp only [Option.map_some', Option.some.injEq, Prod.mk.injEq] at h
          obtain ⟨rfl, -⟩ := h
          have hm := ihM _ _ _ h6
          exact ⟨combineKV_wf k v0 p.1 (ihV _ _ _ h4) hm.1,
            combineKV_nodup k v0 p.1 hm.2⟩
      · rw [if_neg he] at h
        by_cases hr : e = rbrace
        · rw [if_pos hr] at h
          simp only [Option.some.injEq, Prod.mk.injEq] at h
          obtain ⟨rfl, -⟩ := h
          refine ⟨?_, ?_⟩
          · rw [show wfMembers [(k, v0)] = (wfB v0 && true) from rfl, Bool.and_eq_true]
            exact ⟨ihV _ _ _ h4, rfl⟩
          · rfl
        · rw [if_neg hr] at h
          simp at h
    · rw [if_neg hd] at h
      simp at h
  · rw [if_neg hq] at h
    simp at h

theorem parse_wf_all (fuel : Nat) : WVprop fuel ∧ WIprop fuel ∧ WMprop fuel := by
  induction fuel with
  | zero =>
    refine ⟨?_, ?_, ?_⟩
    · intro s v rest h
      simp [parseVal] at h
    · intro s xs rest h
      simp [parseItems] at h
    · intro s fs rest h
      simp [parseMembers] at h
  | succ f ih =>
    exact ⟨parseVal_wf_step f ih.2.1 ih.2.2, parseItems_wf_step f ih.1 ih.2.1,
      parseMembers_wf_step f ih.1 ih.2.2⟩

/-- Whatever `jparse` returns has pairwise-distinct keys at every object
level (Python `dict` semantics collapse duplicates during parsing). -/
theorem jparse_wf (s : List Char) (v : JVal) (h : jparse s = some v) :
    wfB v = true := by
  simp only [jparse] at h
  rcases hp : parseVal (s.length + 1) s with _ | p <;> rw [hp] at h
  · simp at h
  · dsimp only at h
    split at h
    · rw [Option.some.injEq] at h
      rw [← h]
      exact (parse_wf_all (s.length + 1)).1 s p.1 p.2 (by rw [hp])
    · simp at h


/-! ### Fuel sufficiency: `jparse` has enough fuel for any serialized value -/

theorem jval_sizeOf_pos (v : JVal) : 1 ≤ sizeOf v := by
  cases v <;> simp

theorem list_sizeOf_pos {α : Type} [SizeOf α] (l : List α) : 1 ≤ sizeOf l := by
  cases l <;> simp <;> omega

theorem weight_le_aux (n : Nat) :
    (∀ v : JVal, sizeOf v ≤ n → ∀ lvl, weight v ≤ (dumpsP v lvl).length) ∧
    (∀ xs : List JVal, sizeOf xs ≤ n → ∀ lvl, xs ≠ [] →
      weightItems xs ≤ (dumpsPList xs lvl).length + 1) ∧
    (∀ fs : List (List Char × JVal), sizeOf fs ≤ n → ∀ lvl, fs ≠ [] →
      weightMembers fs ≤ (dumpsPObj fs lvl).length + 1) := by
  induction n with
  | zero =>
    refine ⟨?_, ?_, ?_⟩
    · intro v hv
      exact absurd hv (by have := jval_sizeOf_pos v; omega)
    · intro xs hxs
      exact absurd hxs (by have := list_sizeOf_pos xs; omega)
    · intro fs hfs
      exact absurd hfs (by have := list_sizeOf_pos fs; omega)
  | succ n ih =>
    refine ⟨?_, ?_, ?_⟩
    · intro v hv lvl
      match v with
      | .null => simp [weight, dumpsP]
      | .bool true => simp [weight, dumpsP]
      | .bool false => simp [weight, dumpsP]
      | .num m =>
        obtain ⟨c, cr, hc, -, -⟩ := intChars_head m
        rw [show dumpsP (.num m) lvl = intChars m from rfl, hc]
        simp [weight]
      | .str s =>
        rw [show dumpsP (.str s) lvl = escString s from rfl]
        simp [weight, escString]
      | .arr [] => simp [weight, weightItems, dumpsP]
      | .arr (x :: xs) =>
        have hsz : sizeOf (x :: xs) ≤ n := by
          have h2 : sizeOf (JVal.arr (x :: xs)) ≤ n + 1 := hv
          simp only [JVal.arr.sizeOf_spec] at h2
          omega
        have hIH := ih.2.1 (x :: xs) hsz (lvl + 1) (by simp)
        have hlen : (dumpsP (JVal.arr (x :: xs)) lvl).length =
            (dumpsPList (x :: xs) (lvl + 1)).length + 2 * (lvl + 1) + 2 * lvl + 4 := by
          simp [dumpsP, ind]
          omega
        have hw : weight (JVal.arr (x :: xs)) = 1 + weightItems (x :: xs) := rfl
        omega
      | .obj [] => simp [weight, weightMembers, dumpsP]
      | .obj (p :: ps) =>
        have hsz : sizeOf (p :: ps) ≤ n := by
          have h2 : sizeOf (JVal.obj (p :: ps)) ≤ n + 1 := hv
          simp only [JVal.obj.sizeOf_spec] at h2
          omega
        have hIH := ih.2.2 (p :: ps) hsz (lvl + 1) (by simp)
        have hlen : (dumpsP (JVal.obj (p :: ps)) lvl).length =
            (dumpsPObj (p :: ps) (lvl + 1)).length + 2 * (lvl + 1) + 2 * lvl + 4 := by
          simp [dumpsP, ind]
          omega
        have hw : weight (JVal.obj (p :: ps)) = 1 + weightMembers (p :: ps) := rfl
        omega
    · intro xs hxs lvl hne
      match xs with
      | [x] =>
        have hsz : sizeOf x ≤ n := by
          have h2 : sizeOf [x] ≤ n + 1 := hxs
          simp only [List.cons.sizeOf_spec, List.nil.sizeOf_spec] at h2
          omega
        have hIH := ih.1 x hsz lvl
        have hw : weightItems [x] = 1 + weight x + 0 := rfl
        have hl : (dumpsPList [x] lvl).length = (dumpsP x lvl).length := rfl
        omega
      | x :: y :: ys =>
        have hsz1 : sizeOf x ≤ n := by
          have h2 : sizeOf (x :: y :: ys) ≤ n + 1 := hxs
          simp only [List.cons.sizeOf_spec] at h2
          have := list_sizeOf_pos ys
          have := jval_sizeOf_pos y
          omega
        have hsz2 : sizeOf (y :: ys) ≤ n := by
          have h2 : sizeOf (x :: y :: ys) ≤ n + 1 := hxs
          simp only [List.cons.sizeOf_spec] at h2 ⊢
          have := jval_sizeOf_pos x
          omega
        have hIH1 := ih.1 x hsz1 lvl
        have hIH2 := ih.2.1 (y :: ys) hsz2 lvl (by simp)
        have hw : weightItems (x :: y :: ys) = 1 + weight x + weightItems (y :: ys) := rfl
        have hl : (dumpsPList (x :: y :: ys) lvl).length =
            (dumpsP x lvl).length + 2 + 2 * lvl + (dumpsPList (y :: ys) lvl).length := by
          simp [dumpsPList, ind]
          omega
        omega
    · intro fs hfs lvl hne
      match fs with
      | [(k, v)] =>
        have hsz : sizeOf v ≤ n := by
          have h2 : sizeOf [(k, v)] ≤ n + 1 := hfs
          simp only [List.cons.sizeOf_spec, List.nil.sizeOf_spec, Prod.mk.sizeOf_spec] at h2
          have := list_sizeOf_pos k
          omega
        have hIH := ih.1 v hsz lvl
        have hw : weightMembers [(k, v)] = 1 + weight v + 0 := rfl
        have hl : (dumpsPObj [(k, v)] lvl).length =
            (escString k).length + 2 + (dumpsP v lvl).length := by
          simp [dumpsPObj]
          omega
        omega
      | (k, v) :: q :: qs =>
        have hsz1 : sizeOf v ≤ n := by
          have h2 : sizeOf ((k, v) :: q :: qs) ≤ n + 1 := hfs
          simp only [List.cons.sizeOf_spec, Prod.mk.sizeOf_spec] at h2
          have := list_sizeOf_pos k
          have := list_sizeOf_pos qs
          have h3 : 1 ≤ sizeOf q := by
            obtain ⟨a, b⟩ := q
            simp
            omega
          omega
        have hsz2 : sizeOf (q :: qs) ≤ n := by
          have h2 : sizeOf ((k, v) :: q :: qs) ≤ n + 1 := hfs
          simp only [List.cons.sizeOf_spec, Prod.mk.sizeOf_spec] at h2 ⊢
          have := list_sizeOf_pos k
          have := jval_sizeOf_pos v
          omega
        have hIH1 := ih.1 v hsz1 lvl
        have hIH2 := ih.2.2 (q :: qs) hsz2 lvl (by simp)
        have hw : weightMembers ((k, v) :: q :: qs) =
            1 + weight v + weightMembers (q :: qs) := rfl
        have hl : (dumpsPObj ((k, v) :: q :: qs) lvl).length =
            (escString k).length + 2 + (dumpsP v lvl).length + 2 + 2 * lvl +
              (dumpsPObj (q :: qs) lvl).length := by
          simp [dumpsPObj, ind]
          omega
        omega

theorem weight_le_dumpsP (v : JVal) (lvl : Nat) : weight v ≤ (dumpsP v lvl).length :=
  (weight_le_aux (sizeOf v)).1 v le_rfl lvl

/-- Parsing the pretty serialization of a well-formed value with
`json.loads` returns exactly that value. -/
theorem jparse_dumpsP (v : JVal) (hwf : wfB v = true) :
    jparse (dumpsP v 0) = some v := by
  have hp : parseVal ((dumpsP v 0).length + 1) (dumpsP v 0) = some (v, []) := by
    have h2 := parseVal_dumpsP v 0 [] ((dumpsP v 0).length + 1) hwf
      (Nat.le_succ_of_le (weight_le_dumpsP v 0)) True.intro
    simpa using h2
  simp only [jparse]
  rw [hp]
  rfl


/-! ### JSON chunking (`_chunk_json_array` / `_chunk_json_object`) -/

/-- Python slice `data[i:e]`. -/
def arrSlice {α : Type} (data : List α) (i e : Nat) : List α :=
  (data.drop i).take (e - i)

/-- A JSON array chunk descriptor (`element_range` plus re-serialized
payload). -/
structure JChunk where
  start : Nat
  stop : Nat
  splitReason : String
  boundaries : List Boundary
  elemStart : Nat
  elemStop : Nat
  jsonContent : List Char

/-- A JSON object chunk descriptor (`key_range`, `keys`, payload). -/
structure OChunk where
  start : Nat
  stop : Nat
  splitReason : String
  boundaries : List Boundary
  keyStart : Nat
  keyStop : Nat
  keys : List (List Char)
  jsonContent : List Char

/-- The `while len(chunk_json) > max_size and chunk_end > i + 1` shrink
loop, for a serializer `ser i e` of the slice `[i:e]`. -/
def jShrink (ser : Nat → Nat → List Char) (mx i : Nat) : Nat → Nat → Nat
  | 0, e => e
  | fuel + 1, e =>
    if mx < (ser i e).length ∧ i + 1 < e then jShrink ser mx i fuel (e - 1) else e

/-- The `while chunk_end < len and len(chunk_json) < target_size` grow
loop (tentative extension accepted only while within `max_size`). -/
def jGrow (ser : Nat → Nat → List Char) (t mx len i : Nat) : Nat → Nat → Nat
  | 0, e => e
  | fuel + 1, e =>
    if e < len ∧ (ser i e).length < t then
      if (ser i (e + 1)).length ≤ mx then jGrow ser t mx len i fuel (e + 1) else e
    else e

/-- The main `while i < len(data)` loop shared by the array and object
splitters (`mk` builds the per-chunk descriptor, `midReason` is
`'element_boundary'` or `'key_boundary'`). -/
def jsonLoop {β : Type} (ser : Nat → Nat → List Char) (mk : Nat → Nat → List Char → String → β)
    (midReason : String) (len t mx epc : Nat) : Nat → Nat → List β
  | 0, _ => []
  | fuel + 1, i =>
    if i < len then
      let e0 := min (i + epc) len
      let e1 := jShrink ser mx i e0 e0
      let e2 := jGrow ser t mx len i (len - e1) e1
      let cj := ser i e2
      let reason := if i = 0 then "start" else if len ≤ e2 then "end" else midReason
      mk i e2 cj reason :: jsonLoop ser mk midReason len t mx epc fuel e2
    else []

/-- `max(1, int((target_size - overhead_fixed) / (avg + overhead_per)))`
with `avg = total / count`, evaluated exactly over the rationale
`(t - 2) * count / (total + count)`. -/
def perChunkEstimate (t total count : Nat) : Nat :=
  max 1 ((t - 2) * count / (total + count))

/-- Serializer for an array slice: `json.dumps(data[i:e], indent=2)`. -/
def aSer (data : List JVal) (i e : Nat) : List Char :=
  dumpsP (.arr (arrSlice data i e)) 0

/-- Serializer for an object slice:
`json.dumps({k: data[k] for k in keys[i:e]}, indent=2)` (top-level keys
are pairwise distinct after parsing, so the slice of pairs is exact). -/
def oSer (fs : List (List Char × JVal)) (i e : Nat) : List Char :=
  dumpsP (.obj (arrSlice fs i e)) 0

def mkJChunk (i e : Nat) (cj : List Char) (reason : String) : JChunk :=
  { start := 0
    stop := cj.length
    splitReason := reason
    boundaries := []
    elemStart := i
    elemStop := e
    jsonContent := cj }

def mkOChunk (fs : List (List Char × JVal)) (i e : Nat) (cj : List Char)
    (reason : String) : OChunk :=
  { start := 0
    stop := cj.length
    splitReason := reason
    boundaries := []
    keyStart := i
    keyStop := e
    keys := (arrSlice fs i e).map Prod.fst
    jsonContent := cj }

/-- Trailing-merge of the array splitter: a final chunk smaller than
`min_size` is folded into its predecessor when the re-serialization
stays within `max_size`. -/
def jsonArrMerge (data : List JVal) (mn mx : Nat) : List JChunk → List JChunk
  | [] => []
  | [c] => [c]
  | [p, l] =>
    if l.jsonContent.length < mn then
      let cj := aSer data p.elemStart l.elemStop
      if cj.length ≤ mx then
        [{ p with
            elemStop := l.elemStop
            jsonContent := cj
            stop := cj.length }]
      else [p, l]
    else [p, l]
  | c :: c2 :: c3 :: rest => c :: jsonArrMerge data mn mx (c2 :: c3 :: rest)

/-- Trailing-merge of the object splitter. -/
def jsonObjMerge (fs : List (List Char × JVal)) (mn mx : Nat) : List OChunk → List OChunk
  | [] => []
  | [c] => [c]
  | [p, l] =>
    if l.jsonContent.length < mn then
      let cj := oSer fs p.keyStart l.keyStop
      if cj.length ≤ mx then
        [{ p with
            keyStop := l.keyStop
            keys := (arrSlice fs p.keyStart l.keyStop).map Prod.fst
            jsonContent := cj
            stop := cj.length }]
      else [p, l]
    else [p, l]
  | c :: c2 :: c3 :: rest => c :: jsonObjMerge fs mn mx (c2 :: c3 :: rest)

/-- `_chunk_json_array` on already-parsed array data. -/
def chunkJsonArrayParsed (content : List Char) (data : List JVal)
    (t mn mx : Nat) : List JChunk :=
  if data.length = 0 then
    [{ start := 0
       stop := content.length
       splitReason := "single_chunk"
       boundaries := []
       elemStart := 0
       elemStop := 0
       jsonContent := content }]
  else if content.length ≤ mx then
    [{ start := 0
       stop := content.length
       splitReason := "single_chunk"
       boundaries := []
       elemStart := 0
       elemStop := data.length
       jsonContent := content }]
  else
    let total := (data.map (fun e => (dumpsC e).length)).sum
    let epc := perChunkEstimate t total data.length
    jsonArrMerge data mn mx
      (jsonLoop (aSer data) mkJChunk "element_boundary" data.length t mx epc
        (data.length + 1) 0)

/-- `_chunk_json_object` on already-parsed object data. -/
def chunkJsonObjectParsed (content : List Char) (fs : List (List Char × JVal))
    (t mn mx : Nat) : List OChunk :=
  if fs.length = 0 then
    [{ start := 0
       stop := content.length
       splitReason := "single_chunk"
       boundaries := []
       keyStart := 0
       keyStop := 0
       keys := []
       jsonContent := content }]
  else if content.length ≤ mx then
    [{ start := 0
       stop := content.length
       splitReason := "single_chunk"
       boundaries := []
       keyStart := 0
       keyStop := fs.length
       keys := fs.map Prod.fst
       jsonContent := content }]
  else
    let total := (fs.map (fun p => (dumpsC (.obj [p])).length - 2)).sum
    let kpc := perChunkEstimate t total fs.length
    jsonObjMerge fs mn mx
      (jsonLoop (oSer fs) (mkOChunk fs) "key_boundary" fs.length t mx kpc
        (fs.length + 1) 0)

/-- `_chunk_json_array` proper: parse, require a list, chunk. -/
def chunkJsonArray (content : List Char) (t mn mx : Nat) : List JChunk × Bool :=
  match jparse content with
  | some (.arr data) => (chunkJsonArrayParsed content data t mn mx, true)
  | _ => ([], false)

/-- `_chunk_json_object` proper: parse, require a dict, chunk. -/
def chunkJsonObject (content : List Char) (t mn mx : Nat) : List OChunk × Bool :=
  match jparse content with
  | some (.obj fs) => (chunkJsonObjectParsed content fs t mn mx, true)
  | _ => ([], false)

/-- Successive index ranges tiling `[pos, stop)` in order, each
non-decreasing. -/
def RTiles : List (Nat × Nat) → Nat → Nat → Prop
  | [], pos, stop => pos = stop
  | (a, b) :: rest, pos, stop => a = pos ∧ a ≤ b ∧ RTiles rest b stop

instance instDecidableRTiles : ∀ (rs : List (Nat × Nat)) (pos stop : Nat),
    Decidable (RTiles rs pos stop)
  | [], _, _ => inferInstanceAs (Decidable (_ = _))
  | (a, b) :: rest, pos, stop =>
    have : Decidable (RTiles rest b stop) := instDecidableRTiles rest b stop
    inferInstanceAs (Decidable (_ ∧ _ ∧ _))


/-! ### Slice well-formedness and range tiling -/

theorem wfItems_take (xs : List JVal) (n : Nat) (h : wfItems xs = true) :
    wfItems (xs.take n) = true := by
  induction xs generalizing n with
  | nil =>
    rw [List.take_nil]
    exact h
  | cons x xs ih =>
    cases n with
    | zero => rfl
    | succ m =>
      rw [List.take_succ_cons]
      have h2 : (wfB x && wfItems xs) = true := h
      rw [Bool.and_eq_true] at h2
      exact (Bool.and_eq_true _ _).mpr ⟨h2.1, ih m h2.2⟩

theorem wfItems_drop (xs : List JVal) (n : Nat) (h : wfItems xs = true) :
    wfItems (xs.drop n) = true := by
  induction xs generalizing n with
  | nil =>
    rw [List.drop_nil]
    exact h
  | cons x xs ih =>
    cases n with
    | zero => exact h
    | succ m =>
      rw [List.drop_succ_cons]
      have h2 : (wfB x && wfItems xs) = true := h
      rw [Bool.and_eq_true] at h2
      exact ih m h2.2

theorem wfItems_arrSlice (xs : List JVal) (i e : Nat) (h : wfItems xs = true) :
    wfItems (arrSlice xs i e) = true :=
  wfItems_take _ _ (wfItems_drop _ _ h)

theorem wfMembers_take (fs : List (List Char × JVal)) (n : Nat)
    (h : wfMembers fs = true) : wfMembers (fs.take n) = true := by
  induction fs generalizing n with
  | nil =>
    rw [List.take_nil]
    exact h
  | cons p ps ih =>
    cases n with
    | zero => rfl
    | succ m =>
      rw [List.take_succ_cons]
      have h2 : (wfB p.2 && wfMembers ps) = true := h
      rw [Bool.and_eq_true] at h2
      exact (Bool.and_eq_true _ _).mpr ⟨h2.1, ih m h2.2⟩

theorem wfMembers_drop (fs : List (List Char × JVal)) (n : Nat)
    (h : wfMembers fs = true) : wfMembers (fs.drop n) = true := by
  induction fs generalizing n with
  | nil =>
    rw [List.drop_nil]
    exact h
  | cons p ps ih =>
    cases n with
    | zero => exact h
    | succ m =>
      rw [List.drop_succ_cons]
      have h2 : (wfB p.2 && wfMembers ps) = true := h
      rw [Bool.and_eq_true] at h2
      exact ih m h2.2

theorem wfMembers_arrSlice (fs : List (List Char × JVal)) (i e : Nat)
    (h : wfMembers fs = true) : wfMembers (arrSlice fs i e) = true :=
  wfMembers_take _ _ (wfMembers_drop _ _ h)

theorem keysNodup_take (fs : List (List Char × JVal)) (n : Nat)
    (h : keysNodup fs = true) : keysNodup (fs.take n) = true := by
  induction fs generalizing n with
  | nil =>
    rw [List.take_nil]
    exact h
  | cons p ps ih =>
    cases n with
    | zero => rfl
    | succ m =>
      rw [List.take_succ_cons]
      have h2 : ((ps.all fun q => !(q.1 == p.1)) && keysNodup ps) = true := h
      rw [Bool.and_eq_true] at h2
      refine (Bool.and_eq_true _ _).mpr ⟨?_, ih m h2.2⟩
      rw [List.all_eq_true]
      intro q hq
      exact List.all_eq_true.mp h2.1 q (List.mem_of_mem_take hq)

theorem keysNodup_drop (fs : List (List Char × JVal)) (n : Nat)
    (h : keysNodup fs = true) : keysNodup (fs.drop n) = true := by
  induction fs generalizing n with
  | nil =>
    rw [List.drop_nil]
    exact h
  | cons p ps ih =>
    cases n with
    | zero => exact h
    | succ m =>
      rw [List.drop_succ_cons]
      have h2 : ((ps.all fun q => !(q.1 == p.1)) && keysNodup ps) = true := h
      rw [Bool.and_eq_true] at h2
      exact ih m h2.2

theorem keysNodup_arrSlice (fs : List (List Char × JVal)) (i e : Nat)
    (h : keysNodup fs = true) : keysNodup (arrSlice fs i e) = true :=
  keysNodup_take _ _ (keysNodup_drop _ _ h)

theorem rtiles_mono : ∀ (rs : List (Nat × Nat)) (pos stop : Nat),
    RTiles rs pos stop → pos ≤ stop
  | [], _, _, h => Nat.le_of_eq h
  | (a, b) :: rest, pos, stop, h => by
    obtain ⟨rfl, hab, hrest⟩ := h
    exact Nat.le_trans hab (rtiles_mono rest b stop hrest)

theorem arrSlice_append {α : Type} (data : List α) (a b stop : Nat)
    (hab : a ≤ b) (hbs : b ≤ stop) :
    arrSlice data a b ++ arrSlice data b stop = arrSlice data a stop := by
  simp only [arrSlice]
  rw [show data.drop b = (data.drop a).drop (b - a) from by
    rw [List.drop_drop]
    congr 1
    omega]
  rw [← List.take_add]
  congr 1
  omega

theorem rtiles_flatten {α : Type} (data : List α) :
    ∀ (rs : List (Nat × Nat)) (pos stop : Nat), RTiles rs pos stop →
      ((rs.map fun r => arrSlice data r.1 r.2).flatten : List α) =
        arrSlice data pos stop := by
  intro rs
  induction rs with
  | nil =>
    intro pos stop h
    have : pos = stop := h
    subst this
    simp [arrSlice]
  | cons r rest ih =>
    intro pos stop h
    obtain ⟨a, b⟩ := r
    obtain ⟨rfl, hab, hrest⟩ := h
    simp only [List.map_cons, List.flatten_cons]
    rw [ih b stop hrest]
    exact arrSlice_append data a b stop hab (rtiles_mono rest b stop hrest)

theorem arrSlice_full {α : Type} (data : List α) :
    arrSlice data 0 data.length = data := by
  simp [arrSlice]

/-! ### Bounds of the shrink / grow / main loops -/

theorem jShrink_bounds (ser : Nat → Nat → List Char) (mx i : Nat) :
    ∀ fuel e, i + 1 ≤ e →
      i + 1 ≤ jShrink ser mx i fuel e ∧ jShrink ser mx i fuel e ≤ e := by
  intro fuel
  induction fuel with
  | zero => intro e he; exact ⟨he, Nat.le_refl e⟩
  | succ f ih =>
    intro e he
    rw [jShrink]
    split
    · rename_i hcond
      have hb := ih (e - 1) (by omega)
      omega
    · exact ⟨he, Nat.le_refl e⟩

theorem jGrow_bounds (ser : Nat → Nat → List Char) (t mx len i : Nat) :
    ∀ fuel e, e ≤ len →
      e ≤ jGrow ser t mx len i fuel e ∧ jGrow ser t mx len i fuel e ≤ len := by
  intro fuel
  induction fuel with
  | zero => intro e he; exact ⟨Nat.le_refl e, he⟩
  | succ f ih =>
    intro e he
    rw [jGrow]
    split
    · rename_i hcond
      split
      · have hb := ih (e + 1) (by omega)
        omega
      · exact ⟨Nat.le_refl e, he⟩
    · exact ⟨Nat.le_refl e, he⟩


/-- The main loop emits chunks whose index ranges tile `[i, len)` and
whose payloads are exactly the serializer applied to their ranges. -/
theorem jsonLoop_spec {β : Type} (ser : Nat → Nat → List Char)
    (mk : Nat → Nat → List Char → String → β) (midReason : String)
    (len t mx epc : Nat) (rangeF : β → Nat × Nat) (payF : β → List Char)
    (hepc : 1 ≤ epc)
    (hr : ∀ i e cj r, rangeF (mk i e cj r) = (i, e))
    (hp : ∀ i e cj r, payF (mk i e cj r) = cj) :
    ∀ fuel i, i ≤ len → len ≤ i + fuel →
      RTiles ((jsonLoop ser mk midReason len t mx epc fuel i).map rangeF) i len ∧
      ∀ c ∈ jsonLoop ser mk midReason len t mx epc fuel i,
        payF c = ser (rangeF c).1 (rangeF c).2 := by
  intro fuel
  induction fuel with
  | zero =>
    intro i hle hfe
    constructor
    · show i = len
      omega
    · intro c hc
      simp [jsonLoop] at hc
  | succ f ih =>
    intro i hle hfe
    simp only [jsonLoop]
    by_cases hi : i < len
    · rw [if_pos hi]
      set e1 := jShrink ser mx i (min (i + epc) len) (min (i + epc) len) with he1
      set e2 := jGrow ser t mx len i (len - e1) e1 with he2
      have hb1 : i + 1 ≤ e1 ∧ e1 ≤ min (i + epc) len := by
        rw [he1]
        exact jShrink_bounds ser mx i (min (i + epc) len) (min (i + epc) len)
          (by omega)
      have hb2 : e1 ≤ e2 ∧ e2 ≤ len := by
        rw [he2]
        exact jGrow_bounds ser t mx len i (len - e1) e1 (by omega)
      have hrec := ih e2 (by omega) (by omega)
      constructor
      · rw [List.map_cons, hr]
        exact ⟨rfl, by omega, hrec.1⟩
      · intro c hc
        rcases List.mem_cons.mp hc with rfl | hc2
        · rw [hp, hr]
        · exact hrec.2 c hc2
    · rw [if_neg hi]
      constructor
      · show i = len
        omega
      · intro c hc
        simp at hc


/-- The trailing merge preserves range tiling and payload/range
consistency (array side). -/
theorem jsonArrMerge_spec (data : List JVal) (mn mx : Nat) :
    ∀ (cs : List JChunk) (pos : Nat),
      RTiles (cs.map fun c => (c.elemStart, c.elemStop)) pos data.length →
      (∀ c ∈ cs, c.jsonContent = aSer data c.elemStart c.elemStop) →
      RTiles ((jsonArrMerge data mn mx cs).map fun c => (c.elemStart, c.elemStop))
        pos data.length ∧
      ∀ c ∈ jsonArrMerge data mn mx cs,
        c.jsonContent = aSer data c.elemStart c.elemStop := by
  intro cs
  induction cs with
  | nil => intro pos h1 h2; exact ⟨h1, h2⟩
  | cons c cs ih =>
    intro pos h1 h2
    match cs with
    | [] => exact ⟨h1, h2⟩
    | [l] =>
      simp only [jsonArrMerge]
      split
      · split
        · obtain ⟨hca, hcab, hla, hlab, hend⟩ := h1
          constructor
          · exact ⟨hca, by show c.elemStart ≤ l.elemStop; omega, hend⟩
          · intro c' hc'
            rcases List.mem_cons.mp hc' with rfl | h'
            · rfl
            · simp at h'
        · exact ⟨h1, h2⟩
      · exact ⟨h1, h2⟩
    | c2 :: c3 :: rest =>
      rw [show jsonArrMerge data mn mx (c :: c2 :: c3 :: rest) =
          c :: jsonArrMerge data mn mx (c2 :: c3 :: rest) from rfl]
      obtain ⟨hca, hcab, hrest⟩ := h1
      have hm := ih c.elemStop hrest (fun c' h' => h2 c' (List.mem_cons_of_mem _ h'))
      constructor
      · exact ⟨hca, hcab, hm.1⟩
      · intro c' hc'
        rcases List.mem_cons.mp hc' with rfl | h'
        · exact h2 c' (List.mem_cons_self _ _)
        · exact hm.2 c' h'

/-- The trailing merge preserves range tiling and payload/range
consistency (object side). -/
theorem jsonObjMerge_spec (fs : List (List Char × JVal)) (mn mx : Nat) :
    ∀ (cs : List OChunk) (pos : Nat),
      RTiles (cs.map fun c => (c.keyStart, c.keyStop)) pos fs.length →
      (∀ c ∈ cs, c.jsonContent = oSer fs c.keyStart c.keyStop) →
      RTiles ((jsonObjMerge fs mn mx cs).map fun c => (c.keyStart, c.keyStop))
        pos fs.length ∧
      ∀ c ∈ jsonObjMerge fs mn mx cs,
        c.jsonContent = oSer fs c.keyStart c.keyStop := by
  intro cs
  induction cs with
  | nil => intro pos h1 h2; exact ⟨h1, h2⟩
  | cons c cs ih =>
    intro pos h1 h2
    match cs with
    | [] => exact ⟨h1, h2⟩
    | [l] =>
      simp only [jsonObjMerge]
      split
      · split
        · obtain ⟨hca, hcab, hla, hlab, hend⟩ := h1
          constructor
          · exact ⟨hca, by show c.keyStart ≤ l.keyStop; omega, hend⟩
          · intro c' hc'
            rcases List.mem_cons.mp hc' with rfl | h'
            · rfl
            · simp at h'
        · exact ⟨h1, h2⟩
      · exact ⟨h1, h2⟩
    | c2 :: c3 :: rest =>
      rw [show jsonObjMerge fs mn mx (c :: c2 :: c3 :: rest) =
          c :: jsonObjMerge fs mn mx (c2 :: c3 :: rest) from rfl]
      obtain ⟨hca, hcab, hrest⟩ := h1
      have hm := ih c.keyStop hrest (fun c' h' => h2 c' (List.mem_cons_of_mem _ h'))
      constructor
      · exact ⟨hca, hcab, hm.1⟩
      · intro c' hc'
        rcases List.mem_cons.mp hc' with rfl | h'
        · exact h2 c' (List.mem_cons_self _ _)
        · exact hm.2 c' h'

/-- Array splitter contract: success, ranges tile `[0, len)`, every
payload parses back to exactly its slice, and the slices concatenate to
the parsed data. -/
theorem chunkJsonArray_spec (content : List Char) (t mn mx : Nat) (data : List JVal)
    (h : jparse content = some (.arr data)) :
    (chunkJsonArray content t mn mx).2 = true ∧
    RTiles (((chunkJsonArray content t mn mx).1).map fun c => (c.elemStart, c.elemStop))
      0 data.length ∧
    (∀ c ∈ (chunkJsonArray content t mn mx).1,
      jparse c.jsonContent = some (.arr (arrSlice data c.elemStart c.elemStop))) ∧
    ((((chunkJsonArray content t mn mx).1).map fun c =>
      arrSlice data c.elemStart c.elemStop).flatten = data) := by
  have hwf : wfItems data = true := jparse_wf content _ h
  rw [show chunkJsonArray content t mn mx =
      (chunkJsonArrayParsed content data t mn mx, true) from by
    simp only [chunkJsonArray, h]]
  have hmain : RTiles ((chunkJsonArrayParsed content data t mn mx).map
        fun c => (c.elemStart, c.elemStop)) 0 data.length ∧
      ∀ c ∈ chunkJsonArrayParsed content data t mn mx,
        jparse c.jsonContent = some (.arr (arrSlice data c.elemStart c.elemStop)) := by
    simp only [chunkJsonArrayParsed]
    by_cases h0 : data.length = 0
    · rw [if_pos h0]
      constructor
      · exact ⟨rfl, Nat.le_refl 0, h0.symm⟩
      · intro c hc
        rcases List.mem_cons.mp hc with rfl | h'
        · have hdata : data = [] := List.length_eq_zero.mp h0
          subst hdata
          exact h
        · simp at h'
    · rw [if_neg h0]
      by_cases hsm : content.length ≤ mx
      · rw [if_pos hsm]
        constructor
        · exact ⟨rfl, Nat.zero_le _, rfl⟩
        · intro c hc
          rcases List.mem_cons.mp hc with rfl | h'
          · rw [show arrSlice data 0 data.length = data from arrSlice_full data]
            exact h
          · simp at h'
      · rw [if_neg hsm]
        have hloop := jsonLoop_spec (aSer data) mkJChunk "element_boundary"
          data.length t mx
          (perChunkEstimate t ((data.map fun e => (dumpsC e).length).sum) data.length)
          (fun c => (c.elemStart, c.elemStop)) JChunk.jsonContent
          (Nat.le_max_left 1 _) (fun i e cj r => rfl) (fun i e cj r => rfl)
          (data.length + 1) 0 (Nat.zero_le _) (by omega)
        have hmerge := jsonArrMerge_spec data mn mx _ 0 hloop.1
          (fun c hc => hloop.2 c hc)
        constructor
        · exact hmerge.1
        · intro c hc
          rw [hmerge.2 c hc]
          exact jparse_dumpsP (.arr (arrSlice data c.elemStart c.elemStop))
            (wfItems_arrSlice data _ _ hwf)
  refine ⟨rfl, hmain.1, hmain.2, ?_⟩
  rw [show ((chunkJsonArrayParsed content data t mn mx).map fun c =>
      arrSlice data c.elemStart c.elemStop) =
      (((chunkJsonArrayParsed content data t mn mx).map fun c =>
        (c.elemStart, c.elemStop)).map fun r => arrSlice data r.1 r.2) from by
    rw [List.map_map]
    rfl]
  rw [rtiles_flatten data _ 0 data.length hmain.1, arrSlice_full]

/-- Object splitter contract: success, key ranges tile `[0, keyCount)`,
every payload parses back to exactly its slice of key/value pairs, and
the slices concatenate to the parsed pairs. -/
theorem chunkJsonObject_spec (content : List Char) (t mn mx : Nat)
    (fs : List (List Char × JVal)) (h : jparse content = some (.obj fs)) :
    (chunkJsonObject content t mn mx).2 = true ∧
    RTiles (((chunkJsonObject content t mn mx).1).map fun c => (c.keyStart, c.keyStop))
      0 fs.length ∧
    (∀ c ∈ (chunkJsonObject content t mn mx).1,
      jparse c.jsonContent = some (.obj (arrSlice fs c.keyStart c.keyStop))) ∧
    ((((chunkJsonObject content t mn mx).1).map fun c =>
      arrSlice fs c.keyStart c.keyStop).flatten = fs) := by
  have hwf2 : (keysNodup fs && wfMembers fs) = true := jparse_wf content _ h
  rw [Bool.and_eq_true] at hwf2
  rw [show chunkJsonObject content t mn mx =
      (chunkJsonObjectParsed content fs t mn mx, true) from by
    simp only [chunkJsonObject, h]]
  have hmain : RTiles ((chunkJsonObjectParsed content fs t mn mx).map
        fun c => (c.keyStart, c.keyStop)) 0 fs.length ∧
      ∀ c ∈ chunkJsonObjectParsed content fs t mn mx,
        jparse c.jsonContent = some (.obj (arrSlice fs c.keyStart c.keyStop)) := by
    simp only [chunkJsonObjectParsed]
    by_cases h0 : fs.length = 0
    · rw [if_pos h0]
      constructor
      · exact ⟨rfl, Nat.le_refl 0, h0.symm⟩
      · intro c hc
        rcases List.mem_cons.mp hc with rfl | h'
        · have hdata : fs = [] := List.length_eq_zero.mp h0
          subst hdata
          exact h
        · simp at h'
    · rw [if_neg h0]
      by_cases hsm : content.length ≤ mx
      · rw [if_pos hsm]
        constructor
        · exact ⟨rfl, Nat.zero_le _, rfl⟩
        · intro c hc
          rcases List.mem_cons.mp hc with rfl | h'
          · rw [show arrSlice fs 0 fs.length = fs from arrSlice_full fs]
            exact h
          · simp at h'
      · rw [if_neg hsm]
        have hloop := jsonLoop_spec (oSer fs) (mkOChunk fs) "key_boundary"
          fs.length t mx
          (perChunkEstimate t ((fs.map fun p => (dumpsC (.obj [p])).length - 2).sum)
            fs.length)
          (fun c => (c.keyStart, c.keyStop)) OChunk.jsonContent
          (Nat.le_max_left 1 _) (fun i e cj r => rfl) (fun i e cj r => rfl)
          (fs.length + 1) 0 (Nat.zero_le _) (by omega)
        have hmerge := jsonObjMerge_spec fs mn mx _ 0 hloop.1
          (fun c hc => hloop.2 c hc)
        constructor
        · exact hmerge.1
        · intro c hc
          rw [hmerge.2 c hc]
          refine jparse_dumpsP (.obj (arrSlice fs c.keyStart c.keyStop)) ?_
          exact (Bool.and_eq_true _ _).mpr
            ⟨keysNodup_arrSlice fs _ _ hwf2.1, wfMembers_arrSlice fs _ _ hwf2.2⟩
  refine ⟨rfl, hmain.1, hmain.2, ?_⟩
  rw [show ((chunkJsonObjectParsed content fs t mn mx).map fun c =>
      arrSlice fs c.keyStart c.keyStop) =
      (((chunkJsonObjectParsed content fs t mn mx).map fun c =>
        (c.keyStart, c.keyStop)).map fun r => arrSlice fs r.1 r.2) from by
    rw [List.map_map]
    rfl]
  rw [rtiles_flatten fs _ 0 fs.length hmain.1, arrSlice_full]


/-! ## `_chunk_json` dispatch and the `chunking_method` of `_smart_chunk_impl` -/

/-- Success component of `_chunk_json`: empty after `strip()` fails;
a leading `'['` delegates to the array splitter, a leading opening
brace to the object splitter; anything else fails. -/
def chunkJsonSuccess (content : List Char) (t mn mx : Nat) : Bool :=
  match pyStrip content with
  | [] => false
  | c :: _ =>
    if c = '[' then (chunkJsonArray content t mn mx).2
    else if c = lbrace then (chunkJsonObject content t mn mx).2
    else false

/-- The `chunking_method` value chosen by `_smart_chunk_impl`:
`smart_markdown` for markdown format unconditionally, `smart_code` for
code format exactly when the codemap path succeeded, `smart_json` for
json format exactly when JSON parsing succeeded, `smart_text`
otherwise. -/
def smartChunkMethod (env : CodeEnv) (content contextPath : List Char)
    (t mn mx : Nat) : String :=
  match detectFormat content contextPath with
  | .markdown => "smart_markdown"
  | .code => if (chunkCode env content t mn mx).2 = true then "smart_code" else "smart_text"
  | .json => if chunkJsonSuccess content t mn mx = true then "smart_json" else "smart_text"
  | .text => "smart_text"


/-! ## The claims -/

/-- C1 (corrected): with a valid size budget (`0 < min_size ≤
target_size ≤ max_size`) the text and markdown splitters return chunks
that exactly tile `[0, len(content))` in order, and the code splitter
does too on every fallback path; the symbol-based code path does not
tile in general (it drops unsymbolized regions at forced splits), see
the counterexample. -/
theorem C1_text_markdown_tiling (content : List Char) (t m mx : Nat)
    (hvalid : 0 < m ∧ m ≤ t ∧ t ≤ mx) :
    Tiles (chunkText content t m mx) 0 content.length ∧
    Tiles (chunkMarkdown content t m mx) 0 content.length ∧
    ∀ env : CodeEnv, CodeFallbackCond env →
      Tiles (chunkCode env content t m mx).1 0 content.length := by
  have hmx : 1 ≤ mx := by omega
  refine ⟨chunkText_tiles content t m mx hmx,
    chunkMarkdown_tiles content t m mx hmx, ?_⟩
  intro env henv
  rw [chunkCode_fallback env content t m mx henv]
  exact chunkText_tiles content t m mx hmx

theorem C1_witness :
    Tiles (chunkText "ab".toList 1 1 1) 0 ("ab".toList).length ∧
    Tiles (chunkMarkdown "ab".toList 1 1 1) 0 ("ab".toList).length ∧
    ∀ env : CodeEnv, CodeFallbackCond env →
      Tiles (chunkCode env "ab".toList 1 1 1).1 0 ("ab".toList).length :=
  C1_text_markdown_tiling "ab".toList 1 1 1 (by decide)

/-- Content with an unsymbolized middle line between two symbols. -/
def gapContent : List Char := "aaaa\nbb\ncccc".toList

/-- A code environment whose provider reports two one-line symbols on
lines 1 and 3 of `gapContent`. -/
def gapEnv : CodeEnv :=
  ⟨some "codemap", true,
    .exited 0 [⟨"f", "function", "def f", 1, 1, true⟩,
               ⟨"g", "function", "def g", 3, 3, true⟩]⟩

theorem C1_counterexample :
    (0 < 1 ∧ 1 ≤ 2 ∧ 2 ≤ 8) ∧
    (chunkCode gapEnv gapContent 2 1 8).2 = true ∧
    ¬Tiles (chunkCode gapEnv gapContent 2 1 8).1 0 gapContent.length := by
  refine ⟨by decide, by decide, by decide⟩


/-- C2 (confirmed): for every JSON input parsing to a top-level array
(resp. object), the JSON splitter succeeds, its descriptors' index
ranges exactly tile `[0, itemCount)` in order, each descriptor's
serialized payload parses back to exactly the slice of elements (resp.
key/value pairs) named by its index range, and concatenating the slices
in index-range order reconstructs the originally parsed value. -/
theorem C2_json_tiling_roundtrip :
    (∀ (content : List Char) (t mn mx : Nat) (data : List JVal),
      jparse content = some (.arr data) →
      (chunkJsonArray content t mn mx).2 = true ∧
      RTiles (((chunkJsonArray content t mn mx).1).map fun c =>
        (c.elemStart, c.elemStop)) 0 data.length ∧
      (∀ c ∈ (chunkJsonArray content t mn mx).1,
        jparse c.jsonContent = some (.arr (arrSlice data c.elemStart c.elemStop))) ∧
      ((((chunkJsonArray content t mn mx).1).map fun c =>
        arrSlice data c.elemStart c.elemStop).flatten = data)) ∧
    (∀ (content : List Char) (t mn mx : Nat) (fs : List (List Char × JVal)),
      jparse content = some (.obj fs) →
      (chunkJsonObject content t mn mx).2 = true ∧
      RTiles (((chunkJsonObject content t mn mx).1).map fun c =>
        (c.keyStart, c.keyStop)) 0 fs.length ∧
      (∀ c ∈ (chunkJsonObject content t mn mx).1,
        jparse c.jsonContent = some (.obj (arrSlice fs c.keyStart c.keyStop))) ∧
      ((((chunkJsonObject content t mn mx).1).map fun c =>
        arrSlice fs c.keyStart c.keyStop).flatten = fs)) :=
  ⟨fun content t mn mx data h => chunkJsonArray_spec content t mn mx data h,
   fun content t mn mx fs h => chunkJsonObject_spec content t mn mx fs h⟩

theorem C2_witness :
    ((chunkJsonArray "[1, 2]".toList 1 1 3).2 = true ∧
     RTiles (((chunkJsonArray "[1, 2]".toList 1 1 3).1).map fun c =>
       (c.elemStart, c.elemStop)) 0 ([JVal.num 1, JVal.num 2] : List JVal).length ∧
     (∀ c ∈ (chunkJsonArray "[1, 2]".toList 1 1 3).1,
       jparse c.jsonContent =
         some (.arr (arrSlice [JVal.num 1, JVal.num 2] c.elemStart c.elemStop))) ∧
     ((((chunkJsonArray "[1, 2]".toList 1 1 3).1).map fun c =>
       arrSlice [JVal.num 1, JVal.num 2] c.elemStart c.elemStop).flatten =
         [JVal.num 1, JVal.num 2])) ∧
    ((chunkJsonObject (dumpsP (.obj [("a".toList, JVal.num 1)]) 0) 1 1 3).2 = true ∧
     RTiles (((chunkJsonObject (dumpsP (.obj [("a".toList, JVal.num 1)]) 0) 1 1 3).1).map
       fun c => (c.keyStart, c.keyStop)) 0
       ([("a".toList, JVal.num 1)] : List (List Char × JVal)).length ∧
     (∀ c ∈ (chunkJsonObject (dumpsP (.obj [("a".toList, JVal.num 1)]) 0) 1 1 3).1,
       jparse c.jsonContent =
         some (.obj (arrSlice [("a".toList, JVal.num 1)] c.keyStart c.keyStop))) ∧
     ((((chunkJsonObject (dumpsP (.obj [("a".toList, JVal.num 1)]) 0) 1 1 3).1).map
       fun c => arrSlice [("a".toList, JVal.num 1)] c.keyStart c.keyStop).flatten =
         [("a".toList, JVal.num 1)])) :=
  ⟨C2_json_tiling_roundtrip.1 "[1, 2]".toList 1 1 3 [JVal.num 1, JVal.num 2] (by rfl),
   C2_json_tiling_roundtrip.2 (dumpsP (.obj [("a".toList, JVal.num 1)]) 0) 1 1 3
     [("a".toList, JVal.num 1)]
     (jparse_dumpsP (.obj [("a".toList, JVal.num 1)])
       (by simp [wfB, wfMembers, keysNodup]))⟩


/-- C3 (corrected): every chunk of the text and markdown splitters has
length at most `max_size`; the symbol-based code path can exceed
`max_size` without any single oversized atomic unit, by absorbing the
region after the last symbol into the final chunk (see the
counterexample, where the text splitter keeps the same content within
`max_size`). -/
theorem C3_size_bounds (content : List Char) (t m mx : Nat)
    (hvalid : 0 < m ∧ m ≤ t ∧ t ≤ mx) :
    (∀ c ∈ chunkText content t m mx, c.stop - c.start ≤ mx) ∧
    (∀ c ∈ chunkMarkdown content t m mx, c.stop - c.start ≤ mx) := by
  have hmx : 1 ≤ mx := by omega
  exact ⟨chunkText_size_le content t m mx hmx, chunkMarkdown_size_le content t m mx hmx⟩

theorem C3_witness :
    (∀ c ∈ chunkText "ab".toList 1 1 1, c.stop - c.start ≤ 1) ∧
    (∀ c ∈ chunkMarkdown "ab".toList 1 1 1, c.stop - c.start ≤ 1) :=
  C3_size_bounds "ab".toList 1 1 1 (by decide)

/-- Content whose only symbol spans its first line, followed by a long
splittable tail. -/
def tailContent : List Char :=
  "ab\nx y x y x y x y x y x y x y x y x y x y x y x y xx".toList

/-- A code environment whose provider reports one symbol on line 1 of
`tailContent`. -/
def tailEnv : CodeEnv :=
  ⟨some "codemap", true, .exited 0 [⟨"f", "function", "def f", 1, 1, true⟩]⟩

theorem C3_counterexample :
    (0 < 1 ∧ 1 ≤ 5 ∧ 5 ≤ 10) ∧
    (chunkCode tailEnv tailContent 5 1 10).2 = true ∧
    (∃ c ∈ (chunkCode tailEnv tailContent 5 1 10).1, 10 < c.stop - c.start) ∧
    min (lineToChar tailContent 2) tailContent.length - lineToChar tailContent 1 ≤ 10 ∧
    (∀ c ∈ chunkText tailContent 5 1 10, c.stop - c.start ≤ 10) := by
  refine ⟨by decide, by decide, by decide, by decide, by decide⟩

/-- C4 (corrected): content at most `max_size` long yields exactly one
chunk labeled `single_chunk` from the text splitter and (on successful
parses) from both JSON splitters; the markdown splitter instead labels
its single chunk with `start` when the content has a heading (see the
counterexample). -/
theorem C4_single_chunk (content : List Char) (t mn mx : Nat)
    (h : content.length ≤ mx) :
    chunkText content t mn mx = [⟨0, content.length, "single_chunk", []⟩] ∧
    (∀ data, jparse content = some (.arr data) →
      ((chunkJsonArray content t mn mx).1).map (fun c => c.splitReason) =
        ["single_chunk"]) ∧
    (∀ fs, jparse content = some (.obj fs) →
      ((chunkJsonObject content t mn mx).1).map (fun c => c.splitReason) =
        ["single_chunk"]) := by
  refine ⟨chunkText_single content t mn mx h, ?_, ?_⟩
  · intro data hp
    rw [show chunkJsonArray content t mn mx =
        (chunkJsonArrayParsed content data t mn mx, true) from by
      simp only [chunkJsonArray, hp]]
    simp only [chunkJsonArrayParsed]
    by_cases h0 : data.length = 0
    · rw [if_pos h0]
      rfl
    · rw [if_neg h0, if_pos h]
      rfl
  · intro fs hp
    rw [show chunkJsonObject content t mn mx =
        (chunkJsonObjectParsed content fs t mn mx, true) from by
      simp only [chunkJsonObject, hp]]
    simp only [chunkJsonObjectParsed]
    by_cases h0 : fs.length = 0
    · rw [if_pos h0]
      rfl
    · rw [if_neg h0, if_pos h]
      rfl

theorem C4_witness :
    chunkText "ab".toList 1 1 2 = [⟨0, ("ab".toList).length, "single_chunk", []⟩] ∧
    (∀ data, jparse "ab".toList = some (.arr data) →
      ((chunkJsonArray "ab".toList 1 1 2).1).map (fun c => c.splitReason) =
        ["single_chunk"]) ∧
    (∀ fs, jparse "ab".toList = some (.obj fs) →
      ((chunkJsonObject "ab".toList 1 1 2).1).map (fun c => c.splitReason) =
        ["single_chunk"]) :=
  C4_single_chunk "ab".toList 1 1 2 (by decide)

theorem matchHeaderSuffix_no_hash (c : Char) (rest : List Char) (h : ¬c = '#') :
    matchHeaderSuffix (c :: rest) = none := by
  simp only [matchHeaderSuffix]
  rw [if_neg (by simp [hashRun, h])]

theorem scanHeaders_no_hash : ∀ (s : List Char), (∀ c ∈ s, ¬c = '#') →
    ∀ p b, scanHeaders s p b = []
  | [], _, p, b => scanHeaders_nil p b
  | c :: rest, h, p, b => by
    have ht : ∀ d ∈ rest, ¬d = '#' := fun d hd => h d (List.mem_cons_of_mem _ hd)
    cases b with
    | false =>
      rw [scanHeaders_cons_false]
      exact scanHeaders_no_hash rest ht (p + 1) _
    | true =>
      rw [scanHeaders_cons_nomatch _ _ _
        (matchHeaderSuffix_no_hash c rest (h c (List.mem_cons_self _ _)))]
      exact scanHeaders_no_hash rest ht (p + 1) _

theorem C4_counterexample :
    ("# A".toList).length ≤ 10 ∧
    (chunkMarkdown "# A".toList 5 1 10).map (fun c => c.splitReason) = ["start"] := by
  have hm : matchHeaderSuffix ('#' :: " A".toList) = some (3, 1, ['A']) := rfl
  have hh : findHeaderBoundaries "# A".toList = [⟨0, 3, 1, ['A']⟩] := by
    show scanHeaders "# A".toList 0 true = _
    rw [show ("# A".toList : List Char) = '#' :: " A".toList from rfl]
    rw [scanHeaders_cons_match _ _ _ _ _ _ hm]
    rw [show (('#' :: " A".toList).drop 3 : List Char) = [] from rfl, scanHeaders_nil]
    rfl
  refine ⟨by decide, ?_⟩
  simp only [chunkMarkdown, hh]
  rfl

/-- C5 (corrected): the manifest's `chunking_method` is always one of
the four `smart_*` names, and it is `smart_text` for text format, for
code format when the codemap path fell back, and for json format when
JSON parsing failed; but for markdown format it is always
`smart_markdown`, even when the markdown splitter fell back to the text
splitter because the content has no headings (see the
counterexample). -/
theorem C5_method_selection (env : CodeEnv) (content contextPath : List Char)
    (t mn mx : Nat) :
    (smartChunkMethod env content contextPath t mn mx = "smart_markdown" ∨
     smartChunkMethod env content contextPath t mn mx = "smart_code" ∨
     smartChunkMethod env content contextPath t mn mx = "smart_json" ∨
     smartChunkMethod env content contextPath t mn mx = "smart_text") ∧
    (detectFormat content contextPath = .text →
      smartChunkMethod env content contextPath t mn mx = "smart_text") ∧
    (detectFormat content contextPath = .code →
      (chunkCode env content t mn mx).2 = false →
      smartChunkMethod env content contextPath t mn mx = "smart_text") ∧
    (detectFormat content contextPath = .json →
      chunkJsonSuccess content t mn mx = false →
      smartChunkMethod env content contextPath t mn mx = "smart_text") ∧
    (detectFormat content contextPath = .markdown →
      smartChunkMethod env content contextPath t mn mx = "smart_markdown") := by
  refine ⟨?_, ?_, ?_, ?_, ?_⟩
  · simp only [smartChunkMethod]
    cases detectFormat content contextPath
    · exact Or.inl rfl
    · by_cases hc : (chunkCode env content t mn mx).2 = true
      · rw [if_pos hc]
        exact Or.inr (Or.inl rfl)
      · rw [if_neg hc]
        exact Or.inr (Or.inr (Or.inr rfl))
    · by_cases hc : chunkJsonSuccess content t mn mx = true
      · rw [if_pos hc]
        exact Or.inr (Or.inr (Or.inl rfl))
      · rw [if_neg hc]
        exact Or.inr (Or.inr (Or.inr rfl))
    · exact Or.inr (Or.inr (Or.inr rfl))
  · intro hf
    simp only [smartChunkMethod, hf]
  · intro hf hc
    simp only [smartChunkMethod, hf]
    rw [if_neg (by simp [hc])]
  · intro hf hc
    simp only [smartChunkMethod, hf]
    rw [if_neg (by simp [hc])]
  · intro hf
    simp only [smartChunkMethod, hf]

theorem C5_witness :
    (smartChunkMethod ⟨none, false, .timeout⟩ "hello".toList "a.txt".toList 5 1 10 =
       "smart_markdown" ∨
     smartChunkMethod ⟨none, false, .timeout⟩ "hello".toList "a.txt".toList 5 1 10 =
       "smart_code" ∨
     smartChunkMethod ⟨none, false, .timeout⟩ "hello".toList "a.txt".toList 5 1 10 =
       "smart_json" ∨
     smartChunkMethod ⟨none, false, .timeout⟩ "hello".toList "a.txt".toList 5 1 10 =
       "smart_text") ∧
    (detectFormat "hello".toList "a.txt".toList = .text →
      smartChunkMethod ⟨none, false, .timeout⟩ "hello".toList "a.txt".toList 5 1 10 =
        "smart_text") ∧
    (detectFormat "hello".toList "a.txt".toList = .code →
      (chunkCode ⟨none, false, .timeout⟩ "hello".toList 5 1 10).2 = false →
      smartChunkMethod ⟨none, false, .timeout⟩ "hello".toList "a.txt".toList 5 1 10 =
        "smart_text") ∧
    (detectFormat "hello".toList "a.txt".toList = .json →
      chunkJsonSuccess "hello".toList 5 1 10 = false →
      smartChunkMethod ⟨none, false, .timeout⟩ "hello".toList "a.txt".toList 5 1 10 =
        "smart_text") ∧
    (detectFormat "hello".toList "a.txt".toList = .markdown →
      smartChunkMethod ⟨none, false, .timeout⟩ "hello".toList "a.txt".toList 5 1 10 =
        "smart_markdown") :=
  C5_method_selection ⟨none, false, .timeout⟩ "hello".toList "a.txt".toList 5 1 10

theorem C5_counterexample :
    findHeaderBoundaries "hello".toList = [] ∧
    chunkMarkdown "hello".toList 5 1 10 = chunkText "hello".toList 5 1 10 ∧
    smartChunkMethod ⟨none, false, .timeout⟩ "hello".toList "a.md".toList 5 1 10 =
      "smart_markdown" := by
  have hh0 : findHeaderBoundaries "hello".toList = [] :=
    scanHeaders_no_hash _ (by decide) 0 true
  exact ⟨hh0, chunkMarkdown_no_headers "hello".toList 5 1 10 hh0, rfl⟩

/-- C6 (confirmed): whenever the symbol provider is unavailable, the
context path does not exist, the provider call times out or raises, it
exits non-zero, or it reports no symbols, `_chunk_code` returns exactly
the text splitter's chunks with `codemap_used = False`; the failure is
absorbed, never propagated. -/
theorem C6_code_fallback (env : CodeEnv) (content : List Char) (t m mx : Nat)
    (h : CodeFallbackCond env) :
    chunkCode env content t m mx = (chunkText content t m mx, false) :=
  chunkCode_fallback env content t m mx h

theorem C6_witness :
    chunkCode ⟨none, false, .timeout⟩ "ab".toList 1 1 1 =
      (chunkText "ab".toList 1 1 1, false) :=
  C6_code_fallback ⟨none, false, .timeout⟩ "ab".toList 1 1 1 (Or.inl rfl)


/-- C7 (confirmed): `_detect_format` is a pure total function into the
four formats, decided in this fixed order on the lowercased path
extension: markdown extensions, then code extensions, then `.json`,
then plain-text extensions, and for unknown extensions `markdown`
exactly when the count of `re.findall(r'^#{1,6}\s+\S', content,
re.MULTILINE)` matches exceeds 5, else `text` (`countHeadings` embeds
that scan; its matches start at line starts, one per non-overlapping
match). -/
theorem C7_detect_format_order (content contextPath : List Char) :
    (detectFormat content contextPath = .markdown ↔
      ((pathSuffix contextPath).map Char.toLower ∈ markdownExtensions ∨
        ((pathSuffix contextPath).map Char.toLower ∉ markdownExtensions ∧
         (pathSuffix contextPath).map Char.toLower ∉ codeExtensions ∧
         (pathSuffix contextPath).map Char.toLower ≠ ".json".toList ∧
         (pathSuffix contextPath).map Char.toLower ∉ textExtensions ∧
         5 < countHeadings content true))) ∧
    (detectFormat content contextPath = .code ↔
      ((pathSuffix contextPath).map Char.toLower ∉ markdownExtensions ∧
       (pathSuffix contextPath).map Char.toLower ∈ codeExtensions)) ∧
    (detectFormat content contextPath = .json ↔
      ((pathSuffix contextPath).map Char.toLower ∉ markdownExtensions ∧
       (pathSuffix contextPath).map Char.toLower ∉ codeExtensions ∧
       (pathSuffix contextPath).map Char.toLower = ".json".toList)) ∧
    (detectFormat content contextPath = .text ↔
      ((pathSuffix contextPath).map Char.toLower ∉ markdownExtensions ∧
       (pathSuffix contextPath).map Char.toLower ∉ codeExtensions ∧
       (pathSuffix contextPath).map Char.toLower ≠ ".json".toList ∧
       ((pathSuffix contextPath).map Char.toLower ∈ textExtensions ∨
        countHeadings content true ≤ 5))) := by
  simp only [detectFormat]
  by_cases h1 : (pathSuffix contextPath).map Char.toLower ∈ markdownExtensions
  · rw [if_pos h1]
    refine ⟨⟨fun _ => Or.inl h1, fun _ => rfl⟩, ?_, ?_, ?_⟩ <;>
      constructor <;> intro hx
    · exact absurd hx (by simp)
    · exact absurd h1 hx.1
    · exact absurd hx (by simp)
    · exact absurd h1 hx.1
    · exact absurd hx (by simp)
    · exact absurd h1 hx.1
  · rw [if_neg h1]
    by_cases h2 : (pathSuffix contextPath).map Char.toLower ∈ codeExtensions
    · rw [if_pos h2]
      refine ⟨?_, ⟨fun _ => ⟨h1, h2⟩, fun _ => rfl⟩, ?_, ?_⟩ <;>
        constructor <;> intro hx
      · exact absurd hx (by simp)
      · rcases hx with hx | hx
        · exact absurd hx h1
        · exact absurd h2 hx.2.1
      · exact absurd hx (by simp)
      · exact absurd h2 hx.2.1.elim
      · exact absurd hx (by simp)
      · exact absurd h2 hx.2.1.elim
    · rw [if_neg h2]
      by_cases h3 : (pathSuffix contextPath).map Char.toLower = ".json".toList
      · rw [if_pos h3]
        refine ⟨?_, ?_, ⟨fun _ => ⟨h1, h2, h3⟩, fun _ => rfl⟩, ?_⟩ <;>
          constructor <;> intro hx
        · exact absurd hx (by simp)
        · rcases hx with hx | hx
          · exact absurd hx h1
          · exact absurd h3 hx.2.2.1
        · exact absurd hx (by simp)
        · exact absurd hx.2 h2
        · exact absurd hx (by simp)
        · exact absurd h3 hx.2.2.1
      · rw [if_neg h3]
        by_cases h4 : (pathSuffix contextPath).map Char.toLower ∈ textExtensions
        · rw [if_pos h4]
          refine ⟨?_, ?_, ?_, ⟨fun _ => ⟨h1, h2, h3, Or.inl h4⟩, fun _ => rfl⟩⟩ <;>
            constructor <;> intro hx
          · exact absurd hx (by simp)
          · rcases hx with hx | hx
            · exact absurd hx h1
            · exact absurd h4 hx.2.2.2.1
          · exact absurd hx (by simp)
          · exact absurd hx.2 h2
          · exact absurd hx (by simp)
          · exact absurd hx.2.2 h3
        · rw [if_neg h4]
          by_cases h5 : 5 < countHeadings content true
          · rw [if_pos h5]
            refine ⟨⟨fun _ => Or.inr ⟨h1, h2, h3, h4, h5⟩, fun _ => rfl⟩, ?_, ?_, ?_⟩ <;>
              constructor <;> intro hx
            · exact absurd hx (by simp)
            · exact absurd hx.2 h2
            · exact absurd hx (by simp)
            · exact absurd hx.2.2 h3
            · exact absurd hx (by simp)
            · rcases hx.2.2.2 with hy | hy
              · exact absurd hy h4
              · omega
          · rw [if_neg h5]
            refine ⟨?_, ?_, ?_,
              ⟨fun _ => ⟨h1, h2, h3, Or.inr (by omega)⟩, fun _ => rfl⟩⟩ <;>
              constructor <;> intro hx
            · exact absurd hx (by simp)
            · rcases hx with hx | hx
              · exact absurd hx h1
              · exact absurd hx.2.2.2.2 h5
            · exact absurd hx (by simp)
            · exact absurd hx.2 h2
            · exact absurd hx (by simp)
            · exact absurd hx.2.2 h3

/-- C8 (corrected): for a positive `max_size` the text splitter's loop
position strictly advances on every iteration still inside the content,
so the splitter terminates within `len(content) + 1` iterations; with
`max_size = 0` the loop position does not advance (see the
counterexample), so the claim's unconditional reading fails. -/
theorem C8_termination (content : List Char) (t m mx : Nat) (hmx : 1 ≤ mx) :
    (chunkTextOpt content t m mx).isSome = true ∧
    (∀ pos, mx < content.length - pos → pos < (textSplitPos content t mx pos).1) := by
  refine ⟨chunkTextOpt_isSome content t m mx hmx, ?_⟩
  intro pos hrem
  exact (textSplitPos_bounds content t mx pos hmx hrem).1

theorem C8_witness :
    (chunkTextOpt "abc".toList 1 1 1).isSome = true ∧
    (∀ pos, 1 < ("abc".toList).length - pos →
      pos < (textSplitPos "abc".toList 1 1 pos).1) :=
  C8_termination "abc".toList 1 1 1 (by decide)

theorem C8_counterexample :
    (textSplitPos "ab".toList 1 0 0).1 = 0 ∧
    chunkTextOpt "ab".toList 1 0 0 = none := by
  exact ⟨rfl, rfl⟩

/-- C9 (corrected): with a valid budget and content longer than
`max_size` the text splitter's first chunk is labeled `start` (not a
member of the claimed set), and every later chunk's label lies in
`{paragraph, line, word, hard_split, end}`. -/
theorem C9_split_reasons (content : List Char) (t m mx : Nat)
    (hvalid : 0 < m ∧ m ≤ t ∧ t ≤ mx) (hlen : mx < content.length) :
    ∃ first tail, chunkText content t m mx = first :: tail ∧
      first.splitReason = "start" ∧
      ∀ c ∈ tail, isRealReason c.splitReason = true := by
  obtain ⟨tail, heq, hne, ht, hp, hg, hreal⟩ :=
    chunkText_long content t m mx (by omega) hlen
  exact ⟨_, tail, heq, rfl, hreal⟩

theorem C9_witness :
    ∃ first tail, chunkText "aaaa".toList 2 1 2 = first :: tail ∧
      first.splitReason = "start" ∧
      ∀ c ∈ tail, isRealReason c.splitReason = true :=
  C9_split_reasons "aaaa".toList 2 1 2 (by decide) (by decide)

theorem C9_counterexample :
    (0 < 1 ∧ 1 ≤ 2 ∧ 2 ≤ 2) ∧ 2 < ("aaaa".toList).length ∧
    (chunkText "aaaa".toList 2 1 2).map (fun c => c.splitReason) = ["start", "end"] ∧
    ¬("start" = "paragraph" ∨ "start" = "line" ∨ "start" = "word" ∨
      "start" = "hard_split" ∨ "start" = "end") := by
  refine ⟨by decide, by decide, rfl, by decide⟩

/-- C10 (confirmed): with `0 < target_size ≤ max_size` and content
longer than `max_size`, every text-splitter chunk except the last has
length at least `target_size`; and the text splitter never reads
`min_size`, so its output is identical across `min_size` values. -/
theorem C10_target_and_min (content : List Char) (t m mx : Nat)
    (ht : 0 < t) (htmx : t ≤ mx) (hlen : mx < content.length) :
    (∀ c ∈ (chunkText content t m mx).dropLast, t ≤ c.stop - c.start) ∧
    (∀ m₂, chunkText content t m mx = chunkText content t m₂ mx) := by
  have hmx : 1 ≤ mx := by omega
  exact ⟨chunkText_ge_target content t m mx hmx htmx hlen, fun m₂ => rfl⟩

theorem C10_witness :
    (∀ c ∈ (chunkText "aaaa".toList 2 1 2).dropLast, 2 ≤ c.stop - c.start) ∧
    (∀ m₂, chunkText "aaaa".toList 2 1 2 = chunkText "aaaa".toList 2 m₂ 2) :=
  C10_target_and_min "aaaa".toList 2 1 2 (by decide) (by decide) (by decide)

end RlmChunk
